import Mathlib

/-!
Mandelbrot escape-time renderer (`src/go/mandelbrot.go`)

A shallow embedding of the Go program and the properties proved about it.

Number model.  Go's `int` is modelled by `ℤ` (every integer the program
handles is far below 2^63).  A `float64` value is modelled by the rational it
denotes, and `complex128` by a pair of such values; infinities and NaN are
outside the model.  The floating-point operations are embedded twice.

* Exact arithmetic: `+ - * /` are the field operations of `ℚ` and
  `cmplx.Abs(z) > 2` is decided on squares (`absGtTwo`; `cmplxAbs_gt_two_iff`
  relates it to the real square root).  `mandelbrot`, `getColor`, `pixelPoint`
  and `render` are the program read in this arithmetic.
* Binary64 arithmetic: the result of every operation is rounded to the nearest
  number with a 53-bit significand, ties to even (`round64`), `math.Sqrt` is the
  correctly rounded root (`sqrt64`) and `cmplx.Abs` is `math.Hypot` with each of
  its operations rounded (`hypot64`).  `mandelbrotWith binary64` is the function
  `mandelbrot` as the program runs it and `renderWith binary64` the image it
  builds; `mandelbrotWith exactArith` is the exact reading
  (`mandelbrotWith_exactArith`).

The two readings of `mandelbrot` differ: at `c = -2 + 2^-30 i` the exact escape
time is 0 and the computed one is 3 (`mandelbrot64_nearMinusTwo`).  The
contract of `mandelbrot` at an arbitrary point is therefore stated on the
computed iterates and the computed magnitude.  The statements made in the exact
reading are accompanied by their binary64 counterparts where the arithmetic
matters: the range of the result (`mandelbrotWith_range`), the points `0`, `-2`
and `-2 - 2i` (`mandelbrot64_origin`, `mandelbrot64_minus_two`,
`mandelbrot64_corner`), conjugation (`mandelbrot64_conj`), the mapped point of a
pixel (`pixelPointWith_binary64_half_open`) and the stored colours
(`renderWith_RGBAAt`, `centre_pixel_binary64`, `boundary_pixel_binary64`,
`corner_pixel_binary64`, `mirror_symmetry_binary64`).

`getColor` truncates its `float64` results.  Its body is embedded a second time
with an explicit rounding operator (`getColorRounded`), and
`getColorRounded_eq_getColor` proves that on `[0, MaxIterations]` the exact
reading and every binary64-like rounding produce the same colour.
-/

namespace Mandelbrot

/-! ## Constants (`mandelbrot.go`, lines 11-15) -/

/-- Image width in pixels. -/
def Width : ℤ := 1920

/-- Image height in pixels. -/
def Height : ℤ := 1080

/-- Iteration cap of the escape-time loop. -/
def MaxIterations : ℤ := 5000

/-! ## `complex128` -/

/-- Go's `complex128`: a real and an imaginary `float64` part. -/
structure Complex128 where
  re : ℚ
  im : ℚ
deriving DecidableEq, Repr

namespace Complex128

/-- The zero value of `complex128` (`var z complex128`). -/
instance : Zero Complex128 := ⟨⟨0, 0⟩⟩

/-- Complex addition, componentwise. -/
instance : Add Complex128 := ⟨fun a b => ⟨a.re + b.re, a.im + b.im⟩⟩

/-- Complex multiplication `(a+bi)(c+di) = (ac - bd) + (ad + bc)i`. -/
instance : Mul Complex128 :=
  ⟨fun a b => ⟨a.re * b.re - a.im * b.im, a.re * b.im + a.im * b.re⟩⟩

/-- Squared Euclidean norm `re² + im²`. -/
def normSq (z : Complex128) : ℚ := z.re * z.re + z.im * z.im

end Complex128

/-- Go's `complex(real, imag)`. -/
def complex (re im : ℚ) : Complex128 := ⟨re, im⟩

/-- The test `cmplx.Abs(z) > 2` of line 21 in exact arithmetic.  The exact
magnitude is the Euclidean norm `√(re² + im²)`; since both sides are non-negative
the comparison with `2` is the comparison of the squares, `re² + im² > 4`.  The
test on the computed magnitude is `binary64.absGtTwo`. -/
def absGtTwo (z : Complex128) : Prop := 4 < z.normSq

instance (z : Complex128) : Decidable (absGtTwo z) := by
  unfold absGtTwo; infer_instance

/-! ## `mandelbrot` (lines 17-26) -/

/-- The `for n := ...; n < MaxIterations; n++` loop of `mandelbrot` in exact
arithmetic, entered with loop counter `n` and current value `z`.  The loop under
an arbitrary arithmetic is `mandelbrotLoopWith`. -/
def mandelbrotLoop (c : Complex128) (n : ℤ) (z : Complex128) : ℤ :=
  if n < MaxIterations then
    let z1 := z * z + c
    if absGtTwo z1 then n
    else mandelbrotLoop c (n + 1) z1
  else MaxIterations
termination_by (MaxIterations - n).toNat
decreasing_by omega

/-- Escape time of the point `c` in exact arithmetic:
`func mandelbrot(c complex128) int` with no operation rounded.  It equals
`mandelbrotWith exactArith`; the function in the program's own arithmetic is
`mandelbrotWith binary64`. -/
def mandelbrot (c : Complex128) : ℤ := mandelbrotLoop c 0 0

/-! ## Orbit of the quadratic map (specification side) -/

/-- The `k`-th iterate of `z ↦ z*z + c` started at `z = 0`, computed exactly. -/
def orbit (c : Complex128) : ℕ → Complex128
  | 0 => 0
  | k + 1 => orbit c k * orbit c k + c

/-! ## `getColor` (lines 28-36) -/

/-- Go's `color.RGBA`: four 8-bit channels, each held as a natural number. -/
structure RGBA where
  R : ℕ
  G : ℕ
  B : ℕ
  A : ℕ
deriving DecidableEq, Repr

/-- The zero value of `color.RGBA`, the content of a fresh image cell. -/
instance : Inhabited RGBA := ⟨⟨0, 0, 0, 0⟩⟩

/-- Go's conversion `uint8(f)` of a `float64`: the fraction is discarded
(truncation toward zero).  For a value outside `[0, 256)` Go leaves the result
implementation-dependent; the model then keeps the low eight bits of the
truncated integer. -/
def uint8 (f : ℚ) : ℕ := ((if 0 ≤ f then ⌊f⌋ else ⌈f⌉) % 256).toNat

/-- Line 29: `t := float64(iterations) / MaxIterations`. -/
def normalized (iterations : ℤ) : ℚ := (iterations : ℚ) / (MaxIterations : ℚ)

/-- The `float64` value converted on line 31 (red channel). -/
def redValue (t : ℚ) : ℚ := 9 * (1 - t) * t * t * t * 255

/-- The `float64` value converted on line 32 (green channel). -/
def greenValue (t : ℚ) : ℚ := 15 * (1 - t) * (1 - t) * t * t * 255

/-- The `float64` value converted on line 33 (blue channel). -/
def blueValue (t : ℚ) : ℚ := 8.5 * (1 - t) * (1 - t) * (1 - t) * t * 255

/-- Colour of an iteration count: `func getColor(iterations int) color.RGBA`. -/
def getColor (iterations : ℤ) : RGBA :=
  let t : ℚ := (iterations : ℚ) / (MaxIterations : ℚ)
  let r := uint8 (9 * (1 - t) * t * t * t * 255)
  let g := uint8 (15 * (1 - t) * (1 - t) * t * t * 255)
  let b := uint8 (8.5 * (1 - t) * (1 - t) * (1 - t) * t * 255)
  { R := r, G := g, B := b, A := 255 }

/-- Nearest integer to a rational, halves rounded away from zero (the
"round" of the specification's colour formulas). -/
def roundNearest (q : ℚ) : ℤ := if 0 ≤ q then ⌊q + 1 / 2⌋ else ⌈q - 1 / 2⌉

/-! ## The render loop of `main` (lines 38-49) -/

/-- Lines 43-45: the complex point `c` computed for pixel `(x, y)`. -/
def pixelPoint (x y : ℤ) : Complex128 :=
  let real : ℚ := ((x - Width / 2 : ℤ) : ℚ) * 4 / (Width : ℚ)
  let imag : ℚ := ((y - Height / 2 : ℤ) : ℚ) * 4 / (Height : ℚ)
  complex real imag

/-- Go's `image.RGBA` with bounds `Rect(0, 0, w, h)`: one colour cell per
pixel, stored row by row, pixel `(x, y)` in cell `y * w + x`. -/
structure Image where
  w : ℤ
  h : ℤ
  pix : List RGBA
deriving DecidableEq, Repr

/-- The call `image.NewRGBA(image.Rect(0, 0, w, h))`: all cells hold the zero
colour. -/
def NewRGBA (w h : ℤ) : Image := ⟨w, h, List.replicate (w * h).toNat default⟩

/-- The method `(*image.RGBA).Set(x, y, c)`: a point outside the bounds is
ignored. -/
def Image.Set (img : Image) (x y : ℤ) (c : RGBA) : Image :=
  if 0 ≤ x ∧ x < img.w ∧ 0 ≤ y ∧ y < img.h then
    { img with pix := img.pix.set (y * img.w + x).toNat c }
  else img

/-- The method `(*image.RGBA).RGBAAt(x, y)`: the zero colour outside the
bounds. -/
def Image.RGBAAt (img : Image) (x y : ℤ) : RGBA :=
  if 0 ≤ x ∧ x < img.w ∧ 0 ≤ y ∧ y < img.h then
    img.pix.getD (y * img.w + x).toNat default
  else default

/-- The inner loop `for x := ...; x < Width; x++` of `main` on row `y`. -/
def renderRow (y : ℤ) (x : ℤ) (img : Image) : Image :=
  if x < Width then
    let c := pixelPoint x y
    let color := getColor (mandelbrot c)
    renderRow y (x + 1) (img.Set x y color)
  else img
termination_by (Width - x).toNat
decreasing_by omega

/-- The outer loop `for y := ...; y < Height; y++` of `main`. -/
def renderRows (y : ℤ) (img : Image) : Image :=
  if y < Height then renderRows (y + 1) (renderRow y 0 img)
  else img
termination_by (Height - y).toNat
decreasing_by omega

/-- The image `main` holds when the render loop has finished (line 49). -/
def render : Image := renderRows 0 (NewRGBA Width Height)

/-- The shape every image of the render loop has: the bounds of `main`'s image
and one cell per pixel. -/
def Image.WellFormed (img : Image) : Prop :=
  img.w = Width ∧ img.h = Height ∧ img.pix.length = (Width * Height).toNat

/-- The colour line 46 computes for pixel `(x, y)`. -/
def pixelColor (x y : ℤ) : RGBA := getColor (mandelbrot (pixelPoint x y))

/-! ## `getColor` under rounding

The channels of `getColor` are truncated, so they could in principle depend on
the rounding of each `float64` operation.  `getColorRounded fl` is `getColor`
with an explicit rounding operator `fl` applied to the result of every
floating-point operation; `getColorRounded_eq_getColor` shows that on
`[0, MaxIterations]` every operator that rounds like binary64 yields the
colours of the exact evaluation. -/

/-- What is assumed of a rounding operator: 0 and 1 are representable, and on
the normal range of binary64 the relative error is at most `2^-53` (the unit
roundoff of round-to-nearest with a 53-bit significand). -/
structure RoundsLikeBinary64 (fl : ℚ → ℚ) : Prop where
  zero : fl 0 = 0
  one : fl 1 = 1
  rel : ∀ q : ℚ, 1 / 2 ^ 1022 ≤ |q| → |q| ≤ 2 ^ 1023 → |fl q - q| ≤ |q| / 2 ^ 53

/-- The body of `getColor` with the result of each `float64` operation rounded
by `fl`.  The conversion `float64(iterations)` and the constants are exact. -/
def getColorRounded (fl : ℚ → ℚ) (iterations : ℤ) : RGBA :=
  let t : ℚ := fl ((iterations : ℚ) / (MaxIterations : ℚ))
  let r := uint8 (fl (fl (fl (fl (fl (9 * fl (1 - t)) * t) * t) * t) * 255))
  let g := uint8 (fl (fl (fl (fl (fl (15 * fl (1 - t)) * fl (1 - t)) * t) * t) * 255))
  let b := uint8 (fl (fl (fl (fl (fl (8.5 * fl (1 - t)) * fl (1 - t)) * fl (1 - t)) * t) * 255))
  { R := r, G := g, B := b, A := 255 }

/-- Nearest integer, ties to the even neighbour. -/
def roundHalfEven (m : ℚ) : ℤ :=
  if m - ⌊m⌋ < 1 / 2 then ⌊m⌋
  else if 1 / 2 < m - ⌊m⌋ then ⌊m⌋ + 1
  else if ⌊m⌋ % 2 = 0 then ⌊m⌋ else ⌊m⌋ + 1

/-- Round-to-nearest-even onto the numbers with a 53-bit significand: the
rounding of binary64 arithmetic, without the exponent limits (no overflow, no
subnormal numbers). -/
def round64 (q : ℚ) : ℚ :=
  if q = 0 then 0
  else
    let e : ℤ := Int.log 2 |q| - 52
    let m : ℤ := roundHalfEven (|q| / (2 : ℚ) ^ e)
    if 0 < q then (m : ℚ) * (2 : ℚ) ^ e else -((m : ℚ) * (2 : ℚ) ^ e)

/-- The computed value `c` approximates the exact value `x` with relative error
at most `e`, and `x` lies in `[lo, hi]`. -/
def Approx (e lo hi c x : ℚ) : Prop := lo ≤ x ∧ x ≤ hi ∧ |c - x| ≤ e * x

/-- Numerator of the exact red value over the denominator `5000^4`. -/
def redNum (i : ℕ) : ℕ := 2295 * (5000 - i) * i ^ 3

/-- Numerator of the exact green value over the denominator `5000^4`. -/
def greenNum (i : ℕ) : ℕ := 3825 * (5000 - i) ^ 2 * i ^ 2

/-- Numerator of the exact blue value over the denominator `2 * 5000^4`. -/
def blueNum (i : ℕ) : ℕ := 4335 * (5000 - i) ^ 3 * i

/-- The fractional part of `n / d` is at least `2^-26` away from 0 and from 1. -/
def clearOfIntegers (n d : ℕ) : Bool :=
  decide (d ≤ (n % d) * 2 ^ 26 ∧ (n % d) * 2 ^ 26 + d ≤ d * 2 ^ 26)

/-- All three exact channel values of every iteration count `0 < i < n` are
clear of the integers. -/
def marginsBelow : ℕ → Bool
  | 0 => true
  | i + 1 =>
    (i = 0 ∨ (clearOfIntegers (redNum i) (5000 ^ 4) ∧ clearOfIntegers (greenNum i) (5000 ^ 4) ∧
      clearOfIntegers (blueNum i) (2 * 5000 ^ 4))) && marginsBelow i

/-! ## Instrumented loops and conjugation

The loops of `mandelbrot` and `main` once more, carrying a record of what they
do: a counter of the executions of the loop body, and a log of the `Set` calls.
Dropping the record gives back `mandelbrotLoop` and `renderRows`
(`mandelbrotLoopCounted_fst`, `renderRowsLogged_fst`). -/

/-- The loop of `mandelbrot` with a counter `k` of the executions of its body
(lines 20-23): the value returned, paired with the final count. -/
def mandelbrotLoopCounted (c : Complex128) (n : ℤ) (z : Complex128) (k : ℕ) : ℤ × ℕ :=
  if n < MaxIterations then
    let z1 := z * z + c
    if absGtTwo z1 then (n, k + 1)
    else mandelbrotLoopCounted c (n + 1) z1 (k + 1)
  else (MaxIterations, k)
termination_by (MaxIterations - n).toNat
decreasing_by omega

/-- The function `mandelbrot` with the number of executions of its loop body. -/
def mandelbrotCounted (c : Complex128) : ℤ × ℕ := mandelbrotLoopCounted c 0 0 0

/-- The inner loop of `main` on an image paired with the log of the pixels
passed to `Set` so far. -/
def renderRowLogged (y : ℤ) (x : ℤ) (s : Image × List (ℤ × ℤ)) : Image × List (ℤ × ℤ) :=
  if x < Width then
    let c := pixelPoint x y
    let color := getColor (mandelbrot c)
    renderRowLogged y (x + 1) (s.1.Set x y color, s.2 ++ [(x, y)])
  else s
termination_by (Width - x).toNat
decreasing_by omega

/-- The outer loop of `main` on an image paired with the log of `Set` calls. -/
def renderRowsLogged (y : ℤ) (s : Image × List (ℤ × ℤ)) : Image × List (ℤ × ℤ) :=
  if y < Height then renderRowsLogged (y + 1) (renderRowLogged y 0 s)
  else s
termination_by (Height - y).toNat
decreasing_by omega

/-- The render loop of `main` from the fresh image and the empty log. -/
def renderLogged : Image × List (ℤ × ℤ) := renderRowsLogged 0 (NewRGBA Width Height, [])

/-- Complex conjugate `re - im i`. -/
def Complex128.conj (z : Complex128) : Complex128 := ⟨z.re, -z.im⟩

/-! ## `mandelbrot` under a given floating-point arithmetic -/

/-- A `float64` arithmetic: `fl` is applied to the exact result of every
operation `+ - * /`, and `absGtTwo z` is the outcome of the comparison
`cmplx.Abs(z) > 2`. -/
structure Arith where
  fl : ℚ → ℚ
  absGtTwo : Complex128 → Bool

/-- The assignment `z = z*z + c` of line 20 as the compiler expands it: the product
is `(re*re - im*im, re*im + im*re)`, the sum is componentwise, and the result of
every operation is rounded. -/
def Arith.step (ar : Arith) (z c : Complex128) : Complex128 :=
  ⟨ar.fl (ar.fl (ar.fl (z.re * z.re) - ar.fl (z.im * z.im)) + c.re),
    ar.fl (ar.fl (ar.fl (z.re * z.im) + ar.fl (z.im * z.re)) + c.im)⟩

/-- The loop of `mandelbrot` (lines 19-24) under the arithmetic `ar`. -/
def mandelbrotLoopWith (ar : Arith) (c : Complex128) (n : ℤ) (z : Complex128) : ℤ :=
  if n < MaxIterations then
    let z1 := ar.step z c
    if ar.absGtTwo z1 then n
    else mandelbrotLoopWith ar c (n + 1) z1
  else MaxIterations
termination_by (MaxIterations - n).toNat
decreasing_by omega

/-- The function `mandelbrot` (lines 17-26) under the arithmetic `ar`. -/
def mandelbrotWith (ar : Arith) (c : Complex128) : ℤ := mandelbrotLoopWith ar c 0 0

/-- The values `z` takes in the loop under the arithmetic `ar`: the `k`-th
computed iterate. -/
def orbitWith (ar : Arith) (c : Complex128) : ℕ → Complex128
  | 0 => 0
  | k + 1 => ar.step (orbitWith ar c k) c

/-- Exact arithmetic: nothing is rounded and the magnitude is compared exactly. -/
def exactArith : Arith := ⟨id, fun z => decide (absGtTwo z)⟩

/-- The correctly rounded square root of binary64 (`math.Sqrt`): the number with a
53-bit significand nearest to `√x`, ties to even, without exponent limits; 0 for
`x ≤ 0`.  With `x / 4^e` in `[2^104, 2^106)` and `m = ⌊√(x / 4^e)⌋`, the root lies
above `m + 1/2` exactly when `x / 4^e > m² + m + 1/4`. -/
def sqrt64 (x : ℚ) : ℚ :=
  if x ≤ 0 then 0
  else
    let e : ℤ := Int.log 2 x / 2 - 52
    let s : ℚ := x / (4 : ℚ) ^ e
    let m : ℕ := Nat.sqrt ⌊s⌋₊
    if s < (m : ℚ) * m + m + 1 / 4 then (m : ℚ) * (2 : ℚ) ^ e
    else if (m : ℚ) * m + m + 1 / 4 < s then ((m : ℚ) + 1) * (2 : ℚ) ^ e
    else if m % 2 = 0 then (m : ℚ) * (2 : ℚ) ^ e else ((m : ℚ) + 1) * (2 : ℚ) ^ e

/-- Go's `math.Hypot(p, q)`, to which `cmplx.Abs` delegates, in binary64: with
`p ≥ q ≥ 0` after taking absolute values and swapping, `p * Sqrt(1 + (q/p)*(q/p))`,
every operation rounded. -/
def hypot64 (p q : ℚ) : ℚ :=
  let p1 : ℚ := if |p| < |q| then |q| else |p|
  let q1 : ℚ := if |p| < |q| then |p| else |q|
  if p1 = 0 then 0
  else
    let q2 : ℚ := round64 (q1 / p1)
    round64 (p1 * sqrt64 (round64 (1 + round64 (q2 * q2))))

/-- Go's `cmplx.Abs(z)`, which is `math.Hypot(real(z), imag(z))`, in binary64. -/
def cmplxAbs64 (z : Complex128) : ℚ := hypot64 z.re z.im

/-- Binary64 arithmetic without exponent limits (no overflow, no subnormal
numbers) and without fused multiply-add: every operation is rounded to nearest,
ties to even, and the test `cmplx.Abs(z) > 2` compares the computed magnitude. -/
def binary64 : Arith := ⟨round64, fun z => decide (2 < cmplxAbs64 z)⟩

/-! ## The render loop under a given floating-point arithmetic -/

/-- Lines 43-45 under the arithmetic `ar`: the conversion `float64(x - Width/2)` of
a small integer is exact, the product by 4 and the quotient by `Width` are
rounded; likewise for `imag`. -/
def pixelPointWith (ar : Arith) (x y : ℤ) : Complex128 :=
  let real : ℚ := ar.fl (ar.fl (((x - Width / 2 : ℤ) : ℚ) * 4) / (Width : ℚ))
  let imag : ℚ := ar.fl (ar.fl (((y - Height / 2 : ℤ) : ℚ) * 4) / (Height : ℚ))
  complex real imag

/-- The colour line 46 computes for pixel `(x, y)` under the arithmetic `ar`. -/
def pixelColorWith (ar : Arith) (x y : ℤ) : RGBA :=
  getColorRounded ar.fl (mandelbrotWith ar (pixelPointWith ar x y))

/-- The inner loop of `main` on row `y` under the arithmetic `ar`. -/
def renderRowWith (ar : Arith) (y : ℤ) (x : ℤ) (img : Image) : Image :=
  if x < Width then
    let c := pixelPointWith ar x y
    let color := getColorRounded ar.fl (mandelbrotWith ar c)
    renderRowWith ar y (x + 1) (img.Set x y color)
  else img
termination_by (Width - x).toNat
decreasing_by omega

/-- The outer loop of `main` under the arithmetic `ar`. -/
def renderRowsWith (ar : Arith) (y : ℤ) (img : Image) : Image :=
  if y < Height then renderRowsWith ar (y + 1) (renderRowWith ar y 0 img)
  else img
termination_by (Height - y).toNat
decreasing_by omega

/-- The image `main` holds when the render loop has finished, under the
arithmetic `ar`. -/
def renderWith (ar : Arith) : Image := renderRowsWith ar 0 (NewRGBA Width Height)

/-! ## `complex128` arithmetic -/

theorem Complex128.ext_parts {a b : Complex128} (hre : a.re = b.re) (him : a.im = b.im) :
    a = b := by
  cases a; cases b; simp_all

@[simp] theorem Complex128.zero_re : (0 : Complex128).re = 0 := rfl

@[simp] theorem Complex128.zero_im : (0 : Complex128).im = 0 := rfl

@[simp] theorem Complex128.add_re (a b : Complex128) : (a + b).re = a.re + b.re := rfl

@[simp] theorem Complex128.add_im (a b : Complex128) : (a + b).im = a.im + b.im := rfl

@[simp] theorem Complex128.mul_re (a b : Complex128) :
    (a * b).re = a.re * b.re - a.im * b.im := rfl

@[simp] theorem Complex128.mul_im (a b : Complex128) :
    (a * b).im = a.re * b.im + a.im * b.re := rfl

/-- The first assignment `z = z*z + c` of the loop, from `z = 0`, yields `c`. -/
theorem Complex128.zero_step (c : Complex128) : (0 : Complex128) * 0 + c = c := by
  apply Complex128.ext_parts <;> simp

/-- The comparison on squares is the comparison of the Euclidean norm with 2. -/
theorem cmplxAbs_gt_two_iff (z : Complex128) :
    absGtTwo z ↔ 2 < Real.sqrt ((z.re : ℝ) ^ 2 + (z.im : ℝ) ^ 2) := by
  have h4 : (2 : ℝ) = Real.sqrt 4 := by
    rw [show (4 : ℝ) = 2 ^ 2 by norm_num, Real.sqrt_sq (by norm_num)]
  have hcast : (4 < z.re * z.re + z.im * z.im) ↔
      ((4 : ℝ) < (z.re : ℝ) ^ 2 + (z.im : ℝ) ^ 2) := by
    rw [← Rat.cast_lt (K := ℝ)]
    push_cast
    rw [pow_two, pow_two]
  unfold absGtTwo Complex128.normSq
  rw [hcast, h4, Real.sqrt_lt_sqrt_iff (by norm_num)]

/-! ## Loop lemmas -/

theorem mandelbrotLoop_step (c : Complex128) (n : ℤ) (z : Complex128)
    (hn : n < MaxIterations) :
    mandelbrotLoop c n z =
      if absGtTwo (z * z + c) then n else mandelbrotLoop c (n + 1) (z * z + c) := by
  rw [mandelbrotLoop]
  simp [hn]

theorem mandelbrotLoop_done (c : Complex128) (n : ℤ) (z : Complex128)
    (hn : ¬ n < MaxIterations) :
    mandelbrotLoop c n z = MaxIterations := by
  rw [mandelbrotLoop]
  simp [hn]

/-- From counter `n` with `z` the `n`-th orbit point: if the first escape at or
after `n` happens at iteration `n + d`, the loop returns `n + d`. -/
theorem mandelbrotLoop_escape (c : Complex128) :
    ∀ (d n : ℕ), ((n + d : ℕ) : ℤ) < MaxIterations →
      absGtTwo (orbit c (n + d + 1)) →
      (∀ m, n ≤ m → m < n + d → ¬ absGtTwo (orbit c (m + 1))) →
      mandelbrotLoop c (n : ℤ) (orbit c n) = ((n + d : ℕ) : ℤ) := by
  intro d
  induction d with
  | zero =>
    intro n hn hesc _
    rw [mandelbrotLoop_step c n (orbit c n) (by simpa using hn)]
    have : absGtTwo (orbit c n * orbit c n + c) := hesc
    simp [this]
  | succ d ih =>
    intro n hn hesc hno
    have hn1 : (n : ℤ) < MaxIterations := by
      have : ((n : ℕ) : ℤ) ≤ ((n + (d + 1) : ℕ) : ℤ) := by push_cast; omega
      omega
    rw [mandelbrotLoop_step c n (orbit c n) hn1]
    have h0 : ¬ absGtTwo (orbit c n * orbit c n + c) := hno n le_rfl (by omega)
    rw [if_neg h0]
    have hcast : ((n : ℤ) + 1) = ((n + 1 : ℕ) : ℤ) := by push_cast; rfl
    have harg : orbit c n * orbit c n + c = orbit c (n + 1) := rfl
    rw [hcast, harg]
    have e : n + 1 + d = n + (d + 1) := by omega
    have := ih (n + 1) (by rw [e]; exact hn) (by rw [e]; exact hesc)
      (fun m h1 h2 => hno m (by omega) (by omega))
    rw [this, e]

/-- From counter `n` with `z` the `n`-th orbit point: if no later iterate
escapes before the cap, the loop returns `MaxIterations`. -/
theorem mandelbrotLoop_noescape (c : Complex128) :
    ∀ (d n : ℕ), ((n + d : ℕ) : ℤ) = MaxIterations →
      (∀ m, n ≤ m → (m : ℤ) < MaxIterations → ¬ absGtTwo (orbit c (m + 1))) →
      mandelbrotLoop c (n : ℤ) (orbit c n) = MaxIterations := by
  intro d
  induction d with
  | zero =>
    intro n hn _
    exact mandelbrotLoop_done c n (orbit c n) (by simp at hn; omega)
  | succ d ih =>
    intro n hn hno
    have hn1 : (n : ℤ) < MaxIterations := by
      push_cast at hn; omega
    rw [mandelbrotLoop_step c n (orbit c n) hn1]
    have h0 : ¬ absGtTwo (orbit c n * orbit c n + c) := hno n le_rfl hn1
    rw [if_neg h0]
    have hcast : ((n : ℤ) + 1) = ((n + 1 : ℕ) : ℤ) := by push_cast; rfl
    have harg : orbit c n * orbit c n + c = orbit c (n + 1) := rfl
    rw [hcast, harg]
    exact ih (n + 1) (by push_cast at hn ⊢; omega) (fun m h1 h2 => hno m (by omega) h2)

/-- The loop result always lies between the entry counter (or 0) and the cap. -/
theorem mandelbrotLoop_range (c : Complex128) :
    ∀ (d : ℕ) (n : ℤ) (z : Complex128), 0 ≤ n → (MaxIterations - n).toNat = d →
      0 ≤ mandelbrotLoop c n z ∧ mandelbrotLoop c n z ≤ MaxIterations := by
  intro d
  induction d with
  | zero =>
    intro n z _ hd
    rw [mandelbrotLoop_done c n z (by omega)]
    exact ⟨by decide, le_rfl⟩
  | succ d ih =>
    intro n z h0 hd
    have hn : n < MaxIterations := by omega
    rw [mandelbrotLoop_step c n z hn]
    split
    · exact ⟨h0, le_of_lt hn⟩
    · exact ih (n + 1) _ (by omega) (by omega)

/-! ## Escape time: the contract of `mandelbrot` -/

theorem orbit_zero_point : ∀ k : ℕ, orbit 0 k = 0 := by
  intro k
  induction k with
  | zero => rfl
  | succ k ih =>
    show orbit 0 k * orbit 0 k + 0 = 0
    rw [ih]
    exact Complex128.zero_step 0

theorem not_absGtTwo_zero : ¬ absGtTwo (0 : Complex128) := by
  unfold absGtTwo Complex128.normSq
  simp

/-- C2: for every point `c` the result of `mandelbrot` is an integer between 0
and `MaxIterations` = 5000. -/
theorem mandelbrot_range (c : Complex128) :
    0 ≤ mandelbrot c ∧ mandelbrot c ≤ MaxIterations ∧ MaxIterations = 5000 := by
  have := mandelbrotLoop_range c 5000 0 0 le_rfl (by decide)
  exact ⟨this.1, this.2, rfl⟩

/-- In exact arithmetic a point `c` with `re² + im² > 4` passes the test of the
first iteration, and the exact escape time is 0. -/
theorem mandelbrot_outside_radius (c : Complex128) (h : absGtTwo c) : mandelbrot c = 0 := by
  unfold mandelbrot
  rw [mandelbrotLoop_step c 0 0 (by decide), Complex128.zero_step]
  simp [h]

/-- C4: for `c = 0 + 0i` the orbit stays at 0, never escapes, and `mandelbrot`
returns `MaxIterations` = 5000. -/
theorem mandelbrot_origin :
    mandelbrot (complex 0 0) = 5000 ∧ ∀ k : ℕ, orbit (complex 0 0) k = 0 := by
  refine ⟨?_, orbit_zero_point⟩
  have := mandelbrotLoop_noescape 0 5000 0 (by simp [MaxIterations])
    (fun m _ _ => by rw [orbit_zero_point]; exact not_absGtTwo_zero)
  exact this

/-! ## Colour map: range of the channel values -/

theorem normalized_range (i : ℤ) (h0 : 0 ≤ i) (h1 : i ≤ MaxIterations) :
    0 ≤ normalized i ∧ normalized i ≤ 1 := by
  have hi0 : (0 : ℚ) ≤ (i : ℚ) := by exact_mod_cast h0
  have hi1 : (i : ℚ) ≤ 5000 := by
    have : i ≤ 5000 := h1
    exact_mod_cast this
  unfold normalized MaxIterations
  constructor
  · positivity
  · rw [div_le_one (by norm_num)]
    exact_mod_cast hi1

/-- On `[0, 1]` the polynomial `9 (1 - t) t³` stays below 1. -/
theorem red_poly_le_one (t : ℚ) (h0 : 0 ≤ t) : 9 * (1 - t) * t * t * t ≤ 1 := by
  have hq : 0 ≤ 9 * t ^ 2 + 9 / 2 * t + 27 / 16 := by positivity
  nlinarith [mul_nonneg (sq_nonneg (t - 3 / 4)) hq]

theorem redValue_range (t : ℚ) (h0 : 0 ≤ t) (h1 : t ≤ 1) :
    0 ≤ redValue t ∧ redValue t ≤ 255 := by
  have hs : 0 ≤ 1 - t := by linarith
  unfold redValue
  constructor
  · positivity
  · nlinarith [red_poly_le_one t h0]

theorem greenValue_range (t : ℚ) (h0 : 0 ≤ t) (h1 : t ≤ 1) :
    0 ≤ greenValue t ∧ greenValue t ≤ 255 := by
  have hs : 0 ≤ 1 - t := by linarith
  have hu0 : 0 ≤ (1 - t) * t := mul_nonneg hs h0
  have hu1 : (1 - t) * t ≤ 1 / 4 := by nlinarith [sq_nonneg (t - 1 / 2)]
  unfold greenValue
  constructor
  · positivity
  · nlinarith [mul_nonneg hu0 hu0, mul_le_mul hu1 hu1 hu0 (by norm_num : (0 : ℚ) ≤ 1 / 4)]

theorem blueValue_range (t : ℚ) (h0 : 0 ≤ t) (h1 : t ≤ 1) :
    0 ≤ blueValue t ∧ blueValue t ≤ 255 := by
  have hs : 0 ≤ 1 - t := by linarith
  have hr := red_poly_le_one (1 - t) hs
  have hp : 0 ≤ (1 - t) * (1 - t) * (1 - t) * t := by positivity
  unfold blueValue
  constructor
  · positivity
  · norm_num at hr ⊢
    nlinarith [hr, hp]

/-- On a value in `[0, 256)` the conversion `uint8` is the integer part. -/
theorem uint8_of_range (f : ℚ) (h0 : 0 ≤ f) (h1 : f < 256) : uint8 f = ⌊f⌋.toNat := by
  have hf0 : 0 ≤ ⌊f⌋ := Int.floor_nonneg.mpr h0
  have hf1 : ⌊f⌋ < 256 := by
    rw [Int.floor_lt]
    exact_mod_cast h1
  unfold uint8
  rw [if_pos h0, Int.emod_eq_of_lt hf0 hf1]

/-- The colour of `getColor` written with the three converted values. -/
theorem getColor_eq (i : ℤ) :
    getColor i =
      ⟨uint8 (redValue (normalized i)), uint8 (greenValue (normalized i)),
        uint8 (blueValue (normalized i)), 255⟩ := rfl

/-! ## Colour map: the contract of `getColor` -/

/-- C5 fails as stated: at `iterations = 1000` (`t = 1/5`) the red value is
`14.688`, its nearest integer is 15, and `getColor` stores 14. -/
theorem getColor_round_counterexample :
    redValue (normalized 1000) = 14688 / 1000 ∧
    roundNearest (redValue (normalized 1000)) = 15 ∧
    (getColor 1000).R = 14 ∧
    getColor 1000 ≠
      ⟨(roundNearest (redValue (normalized 1000))).toNat,
        (roundNearest (greenValue (normalized 1000))).toNat,
        (roundNearest (blueValue (normalized 1000))).toNat, 255⟩ := by
  decide!

/-- C6: for every iteration count `i` in `[0, MaxIterations]`, `t = i / MaxIterations`
lies in `[0, 1]` and each of the three values that `getColor` converts to an
8-bit channel lies in `[0, 255]`: no conversion overflows or sees a negative
value. -/
theorem getColor_channels_in_range (i : ℤ) (h0 : 0 ≤ i) (h1 : i ≤ MaxIterations) :
    (0 ≤ normalized i ∧ normalized i ≤ 1) ∧
    (0 ≤ redValue (normalized i) ∧ redValue (normalized i) ≤ 255) ∧
    (0 ≤ greenValue (normalized i) ∧ greenValue (normalized i) ≤ 255) ∧
    (0 ≤ blueValue (normalized i) ∧ blueValue (normalized i) ≤ 255) ∧
    getColor i =
      ⟨uint8 (redValue (normalized i)), uint8 (greenValue (normalized i)),
        uint8 (blueValue (normalized i)), 255⟩ := by
  have ht := normalized_range i h0 h1
  exact ⟨ht, redValue_range _ ht.1 ht.2, greenValue_range _ ht.1 ht.2,
    blueValue_range _ ht.1 ht.2, rfl⟩

/-- C6 at `iterations = 3750` (`t = 3/4`), where the red value peaks. -/
theorem getColor_channels_in_range_witness :
    redValue (normalized 3750) = 242 + 13 / 256 ∧
    (0 ≤ redValue (normalized 3750) ∧ redValue (normalized 3750) ≤ 255) :=
  ⟨by decide!, (getColor_channels_in_range 3750 (by decide) (by decide)).2.1⟩

/-- C7: `getColor 0` and `getColor MaxIterations` are both opaque black;
`iterations = MaxIterations` gives `t = 1` exactly (the divisor is the non-zero
constant `MaxIterations`); and an iteration count in `[0, MaxIterations]` with a
non-zero `R`, `G` or `B` channel lies strictly between 0 and `MaxIterations`. -/
theorem getColor_endpoints_black :
    getColor 0 = ⟨0, 0, 0, 255⟩ ∧
    getColor MaxIterations = ⟨0, 0, 0, 255⟩ ∧
    normalized MaxIterations = 1 ∧ (MaxIterations : ℚ) ≠ 0 ∧
    ∀ i : ℤ, 0 ≤ i → i ≤ MaxIterations →
      ((getColor i).R ≠ 0 ∨ (getColor i).G ≠ 0 ∨ (getColor i).B ≠ 0) →
      0 < i ∧ i < MaxIterations := by
  have hz : getColor 0 = ⟨0, 0, 0, 255⟩ := by decide!
  have hm : getColor MaxIterations = ⟨0, 0, 0, 255⟩ := by decide!
  refine ⟨hz, hm, by decide!, by decide!, ?_⟩
  intro i h0 h1 hne
  have hi0 : i ≠ 0 := by
    rintro rfl
    rw [hz] at hne
    simp at hne
  have hi1 : i ≠ MaxIterations := by
    rintro rfl
    rw [hm] at hne
    simp at hne
  omega

/-! ## The raster: `Set`, `RGBAAt` and the render loops -/

theorem NewRGBA_wellFormed : (NewRGBA Width Height).WellFormed :=
  ⟨rfl, rfl, by simp [NewRGBA]⟩

theorem Image.Set_wellFormed (img : Image) (x y : ℤ) (c : RGBA) (h : img.WellFormed) :
    (img.Set x y c).WellFormed := by
  obtain ⟨hw, hh, hl⟩ := h
  unfold Image.Set
  split
  · exact ⟨hw, hh, by simpa using hl⟩
  · exact ⟨hw, hh, hl⟩

/-- Reading a pixel after a `Set`: the written pixel holds the new colour, every
other pixel is unchanged. -/
theorem Image.RGBAAt_Set (img : Image) (x y x1 y1 : ℤ) (c : RGBA) (h : img.WellFormed)
    (hx : 0 ≤ x ∧ x < Width) (hy : 0 ≤ y ∧ y < Height) :
    (img.Set x y c).RGBAAt x1 y1 =
      if x1 = x ∧ y1 = y then c else img.RGBAAt x1 y1 := by
  obtain ⟨hw, hh, hl⟩ := h
  have hW : Width = 1920 := rfl
  have hH : Height = 1080 := rfl
  have hlen : img.pix.length = 2073600 := by rw [hl]; rfl
  have hin : 0 ≤ x ∧ x < img.w ∧ 0 ≤ y ∧ y < img.h := by
    rw [hw, hh]; exact ⟨hx.1, hx.2, hy.1, hy.2⟩
  unfold Image.Set
  rw [if_pos hin]
  unfold Image.RGBAAt
  simp only [hw, hh]
  by_cases hin1 : 0 ≤ x1 ∧ x1 < Width ∧ 0 ≤ y1 ∧ y1 < Height
  · rw [if_pos hin1, if_pos hin1]
    rw [hW, hH] at hin1
    rw [hW] at hx ⊢
    rw [hH] at hy
    by_cases heq : x1 = x ∧ y1 = y
    · rw [if_pos heq, heq.1, heq.2, List.getD_eq_getElem?_getD,
        List.getElem?_set_self (by rw [hlen]; omega)]
      rfl
    · rw [if_neg heq, List.getD_eq_getElem?_getD, List.getD_eq_getElem?_getD,
        List.getElem?_set_ne (by omega)]
  · rw [if_neg hin1, if_neg hin1]
    have : ¬ (x1 = x ∧ y1 = y) := by
      rintro ⟨rfl, rfl⟩
      exact hin1 ⟨hx.1, hx.2, hy.1, hy.2⟩
    rw [if_neg this]

theorem renderRow_step (y x : ℤ) (img : Image) (hx : x < Width) :
    renderRow y x img = renderRow y (x + 1) (img.Set x y (pixelColor x y)) := by
  rw [renderRow]
  simp [hx, pixelColor]

theorem renderRow_done (y x : ℤ) (img : Image) (hx : ¬ x < Width) :
    renderRow y x img = img := by
  rw [renderRow]
  simp [hx]

theorem renderRows_step (y : ℤ) (img : Image) (hy : y < Height) :
    renderRows y img = renderRows (y + 1) (renderRow y 0 img) := by
  rw [renderRows]
  simp [hy]

theorem renderRows_done (y : ℤ) (img : Image) (hy : ¬ y < Height) :
    renderRows y img = img := by
  rw [renderRows]
  simp [hy]

/-- Effect of the inner loop entered at column `x0` of row `y`: the pixels
`(x, y)` with `x0 ≤ x < Width` hold their colour, all others are unchanged. -/
theorem renderRow_spec (y : ℤ) (hy : 0 ≤ y ∧ y < Height) :
    ∀ (d : ℕ) (x0 : ℤ) (img : Image), 0 ≤ x0 → (Width - x0).toNat = d → img.WellFormed →
      (renderRow y x0 img).WellFormed ∧
      ∀ x1 y1 : ℤ, (renderRow y x0 img).RGBAAt x1 y1 =
        if y1 = y ∧ x0 ≤ x1 ∧ x1 < Width then pixelColor x1 y1 else img.RGBAAt x1 y1 := by
  intro d
  induction d with
  | zero =>
    intro x0 img _ hd hwf
    have hx : ¬ x0 < Width := by omega
    rw [renderRow_done y x0 img hx]
    refine ⟨hwf, fun x1 y1 => ?_⟩
    rw [if_neg (by omega)]
  | succ d ih =>
    intro x0 img h0 hd hwf
    have hx : x0 < Width := by omega
    rw [renderRow_step y x0 img hx]
    obtain ⟨hwf1, hget⟩ := ih (x0 + 1) (img.Set x0 y (pixelColor x0 y)) (by omega) (by omega)
      (Image.Set_wellFormed img x0 y _ hwf)
    refine ⟨hwf1, fun x1 y1 => ?_⟩
    rw [hget x1 y1, Image.RGBAAt_Set img x0 y x1 y1 _ hwf ⟨h0, hx⟩ hy]
    by_cases h1 : y1 = y ∧ x0 + 1 ≤ x1 ∧ x1 < Width
    · rw [if_pos h1, if_pos ⟨h1.1, by omega, h1.2.2⟩]
    · rw [if_neg h1]
      by_cases h2 : x1 = x0 ∧ y1 = y
      · rw [if_pos h2, if_pos ⟨h2.2, by omega, by omega⟩, h2.1, h2.2]
      · rw [if_neg h2, if_neg (by omega)]

/-- Effect of the outer loop entered at row `y0`: the pixels of the rows
`y0 ≤ y < Height` hold their colour, all others are unchanged. -/
theorem renderRows_spec :
    ∀ (d : ℕ) (y0 : ℤ) (img : Image), 0 ≤ y0 → (Height - y0).toNat = d → img.WellFormed →
      (renderRows y0 img).WellFormed ∧
      ∀ x1 y1 : ℤ, (renderRows y0 img).RGBAAt x1 y1 =
        if (y0 ≤ y1 ∧ y1 < Height) ∧ 0 ≤ x1 ∧ x1 < Width then pixelColor x1 y1
        else img.RGBAAt x1 y1 := by
  intro d
  induction d with
  | zero =>
    intro y0 img _ hd hwf
    have hy : ¬ y0 < Height := by omega
    rw [renderRows_done y0 img hy]
    refine ⟨hwf, fun x1 y1 => ?_⟩
    rw [if_neg (by omega)]
  | succ d ih =>
    intro y0 img h0 hd hwf
    have hy : y0 < Height := by omega
    rw [renderRows_step y0 img hy]
    obtain ⟨hwfr, hrow⟩ := renderRow_spec y0 ⟨h0, hy⟩ _ 0 img le_rfl rfl hwf
    obtain ⟨hwf1, hget⟩ := ih (y0 + 1) (renderRow y0 0 img) (by omega) (by omega) hwfr
    refine ⟨hwf1, fun x1 y1 => ?_⟩
    rw [hget x1 y1, hrow x1 y1]
    by_cases h1 : (y0 + 1 ≤ y1 ∧ y1 < Height) ∧ 0 ≤ x1 ∧ x1 < Width
    · rw [if_pos h1, if_pos ⟨⟨by omega, h1.1.2⟩, h1.2⟩]
    · rw [if_neg h1]
      by_cases h2 : y1 = y0 ∧ 0 ≤ x1 ∧ x1 < Width
      · rw [if_pos h2, if_pos ⟨⟨by omega, by omega⟩, h2.2⟩]
      · rw [if_neg h2, if_neg (by omega)]

/-- After the render loop every pixel inside the bounds holds the colour
computed for it on line 46. -/
theorem render_RGBAAt (x y : ℤ) (hx : 0 ≤ x ∧ x < Width) (hy : 0 ≤ y ∧ y < Height) :
    render.RGBAAt x y = pixelColor x y := by
  have h := (renderRows_spec _ 0 (NewRGBA Width Height) le_rfl rfl NewRGBA_wellFormed).2 x y
  unfold render
  rw [h, if_pos ⟨⟨hy.1, hy.2⟩, hx⟩]

/-! ## Pixel-to-plane mapping and the corner and centre pixels -/

/-- The mapped point in closed form: `Width/2 = 960` and `Height/2 = 540`. -/
theorem pixelPoint_eq (x y : ℤ) :
    pixelPoint x y =
      complex (((x : ℚ) - 960) * 4 / 1920) (((y : ℚ) - 540) * 4 / 1080) := by
  unfold pixelPoint Width Height
  norm_num

/-- C8 fails as stated: pixel `(0, 0)` is inside the grid and its imaginary part
is `-2`, below `-1.125`. -/
theorem pixelPoint_imag_counterexample :
    (pixelPoint 0 0).im = -2 ∧
    ¬ (∀ x y : ℤ, 0 ≤ x → x < 1920 → 0 ≤ y → y < 1080 →
        (-2 ≤ (pixelPoint x y).re ∧ (pixelPoint x y).re ≤ 2) ∧
        (-1.125 ≤ (pixelPoint x y).im ∧ (pixelPoint x y).im ≤ 1.125)) := by
  have him : (pixelPoint 0 0).im = -2 := by
    rw [pixelPoint_eq]
    norm_num [complex]
  refine ⟨him, fun h => ?_⟩
  have h1 := (h 0 0 (by decide) (by decide) (by decide) (by decide)).2.1
  rw [him] at h1
  norm_num at h1

/-- C8 (amended): for every pixel `(x, y)` with `0 ≤ x < 1920` and `0 ≤ y < 1080`
the point the render loop computes, `real = (x - Width/2)*4/Width` and
`imag = (y - Height/2)*4/Height`, satisfies `-2 ≤ real ≤ 2` and
`-2 ≤ imag ≤ 2`: the imaginary axis spans the same interval as the real one. -/
theorem pixelPoint_bounds (x y : ℤ) (hx0 : 0 ≤ x) (hx1 : x < 1920) (hy0 : 0 ≤ y)
    (hy1 : y < 1080) :
    (pixelPoint x y).re = ((x : ℚ) - 960) * 4 / 1920 ∧
    (pixelPoint x y).im = ((y : ℚ) - 540) * 4 / 1080 ∧
    (-2 ≤ (pixelPoint x y).re ∧ (pixelPoint x y).re ≤ 2) ∧
    (-2 ≤ (pixelPoint x y).im ∧ (pixelPoint x y).im ≤ 2) := by
  have hx0q : (0 : ℚ) ≤ (x : ℚ) := by exact_mod_cast hx0
  have hx1q : (x : ℚ) < 1920 := by exact_mod_cast hx1
  have hy0q : (0 : ℚ) ≤ (y : ℚ) := by exact_mod_cast hy0
  have hy1q : (y : ℚ) < 1080 := by exact_mod_cast hy1
  have hre : (pixelPoint x y).re = ((x : ℚ) - 960) * 4 / 1920 := by
    rw [pixelPoint_eq]; rfl
  have him : (pixelPoint x y).im = ((y : ℚ) - 540) * 4 / 1080 := by
    rw [pixelPoint_eq]; rfl
  rw [hre, him]
  refine ⟨rfl, rfl, ⟨?_, ?_⟩, ⟨?_, ?_⟩⟩
  · rw [le_div_iff₀ (by norm_num)]; linarith
  · rw [div_le_iff₀ (by norm_num)]; linarith
  · rw [le_div_iff₀ (by norm_num)]; linarith
  · rw [div_le_iff₀ (by norm_num)]; linarith

/-- C8 (amended) at the last pixel `(1919, 1079)`. -/
theorem pixelPoint_bounds_witness :
    (pixelPoint 1919 1079).re = 959 / 480 ∧ (pixelPoint 1919 1079).im = 539 / 270 ∧
    (pixelPoint 1919 1079).im ≤ 2 :=
  have h := pixelPoint_bounds 1919 1079 (by decide) (by decide) (by decide) (by decide)
  ⟨h.1.trans (by norm_num), h.2.1.trans (by norm_num), h.2.2.2.2⟩

/-- C9 fails as stated: the corner pixel `(0, 0)` is mapped to `(-2, -2)`, not to
`(-2, -2*Height/Width) = (-2, -1.125)`. -/
theorem corner_pixel_counterexample :
    pixelPoint 0 0 = complex (-2) (-2) ∧
    pixelPoint 0 0 ≠ complex (-2) (-2 * (Height : ℚ) / (Width : ℚ)) ∧
    -2 * (Height : ℚ) / (Width : ℚ) = -1.125 := by
  decide!

/-- C9 (amended): the corner pixel `(0, 0)` is mapped by the render loop to the
point `(-2, -2)`, which lies outside radius 2, and `mandelbrot` at that point
returns 0 (escape at the first iteration). -/
theorem corner_pixel_escapes :
    pixelPoint 0 0 = complex (-2) (-2) ∧ absGtTwo (pixelPoint 0 0) ∧
    mandelbrot (pixelPoint 0 0) = 0 := by
  have hp : pixelPoint 0 0 = complex (-2) (-2) := by decide!
  have ha : absGtTwo (pixelPoint 0 0) := by decide!
  exact ⟨hp, ha, mandelbrot_outside_radius _ ha⟩

/-- C10: the centre pixel `(Width/2, Height/2) = (960, 540)` is mapped to the
point `(0, 0)`, its escape time is `MaxIterations`, and the colour the render
loop stores for it is opaque black `(0, 0, 0, 255)`. -/
theorem centre_pixel_black :
    (Width / 2 = 960 ∧ Height / 2 = 540) ∧
    pixelPoint 960 540 = complex 0 0 ∧
    mandelbrot (pixelPoint 960 540) = MaxIterations ∧
    getColor (mandelbrot (pixelPoint 960 540)) = ⟨0, 0, 0, 255⟩ ∧
    render.RGBAAt 960 540 = ⟨0, 0, 0, 255⟩ := by
  have hp : pixelPoint 960 540 = complex 0 0 := by decide!
  have hm : mandelbrot (pixelPoint 960 540) = MaxIterations := by
    rw [hp]
    exact mandelbrotLoop_noescape 0 5000 0 (by simp [MaxIterations])
      (fun m _ _ => by rw [orbit_zero_point]; exact not_absGtTwo_zero)
  have hc : getColor (mandelbrot (pixelPoint 960 540)) = ⟨0, 0, 0, 255⟩ := by
    rw [hm]
    decide!
  refine ⟨⟨by decide, by decide⟩, hp, hm, hc, ?_⟩
  rw [render_RGBAAt 960 540 (by decide) (by decide)]
  exact hc

/-! ## `getColor` under rounding: error propagation -/

theorem Approx.fl {fl : ℚ → ℚ} (h : RoundsLikeBinary64 fl) {e lo hi c x : ℚ}
    (hc : Approx e lo hi c x) (he : e ≤ 1 / 2 ^ 30)
    (hlo : 1 / 2 ^ 1000 ≤ lo) (hhi : hi ≤ 2 ^ 1000) :
    Approx (e + 1 / 2 ^ 52) lo hi (fl c) x := by
  obtain ⟨h1, h2, h3⟩ := hc
  have hx : 0 < x := lt_of_lt_of_le (by positivity) (hlo.trans h1)
  have hcx := abs_le.mp h3
  have hclo : x / 2 ≤ c := by nlinarith [hcx.1]
  have hchi : c ≤ 2 * x := by nlinarith [hcx.2]
  have hcpos : 0 < c := by linarith
  have habs : |c| = c := abs_of_pos hcpos
  have hr := h.rel c (by
      rw [habs]
      have : (1 : ℚ) / 2 ^ 1022 ≤ (1 / 2 ^ 1000) / 2 := by norm_num
      linarith) (by
      rw [habs]
      have : (2 : ℚ) * 2 ^ 1000 ≤ 2 ^ 1023 := by norm_num
      linarith)
  rw [habs] at hr
  refine ⟨h1, h2, ?_⟩
  have hr' := abs_le.mp hr
  have hu : c / 2 ^ 53 ≤ x / 2 ^ 52 := by
    have e1 : x / 2 ^ 52 = 2 * x / 2 ^ 53 := by ring
    rw [e1]
    exact div_le_div_of_nonneg_right hchi (by norm_num)
  rw [abs_le]
  constructor
  · linarith [hr'.1, hcx.1]
  · linarith [hr'.2, hcx.2]

theorem Approx.mul {e1 lo1 hi1 c1 x1 e2 lo2 hi2 c2 x2 : ℚ}
    (h1 : Approx e1 lo1 hi1 c1 x1) (h2 : Approx e2 lo2 hi2 c2 x2)
    (hl1 : 0 < lo1) (hl2 : 0 < lo2) (he1 : 0 ≤ e1) :
    Approx (e1 + e2 + e1 * e2) (lo1 * lo2) (hi1 * hi2) (c1 * c2) (x1 * x2) := by
  obtain ⟨a1, a2, a3⟩ := h1
  obtain ⟨b1, b2, b3⟩ := h2
  have hx1 : 0 < x1 := lt_of_lt_of_le hl1 a1
  have hx2 : 0 < x2 := lt_of_lt_of_le hl2 b1
  refine ⟨mul_le_mul a1 b1 hl2.le hx1.le, mul_le_mul a2 b2 hx2.le (hx1.le.trans a2), ?_⟩
  have e : c1 * c2 - x1 * x2 = (c1 - x1) * x2 + x1 * (c2 - x2) + (c1 - x1) * (c2 - x2) := by
    ring
  rw [e]
  have t1 : |(c1 - x1) * x2| ≤ e1 * x1 * x2 := by
    rw [abs_mul, abs_of_pos hx2]
    exact mul_le_mul_of_nonneg_right a3 hx2.le
  have t2 : |x1 * (c2 - x2)| ≤ x1 * (e2 * x2) := by
    rw [abs_mul, abs_of_pos hx1]
    exact mul_le_mul_of_nonneg_left b3 hx1.le
  have t3 : |(c1 - x1) * (c2 - x2)| ≤ (e1 * x1) * (e2 * x2) := by
    rw [abs_mul]
    exact mul_le_mul a3 b3 (abs_nonneg _) (by positivity)
  calc |(c1 - x1) * x2 + x1 * (c2 - x2) + (c1 - x1) * (c2 - x2)|
      ≤ |(c1 - x1) * x2| + |x1 * (c2 - x2)| + |(c1 - x1) * (c2 - x2)| := abs_add_three _ _ _
    _ ≤ e1 * x1 * x2 + x1 * (e2 * x2) + (e1 * x1) * (e2 * x2) := by linarith
    _ = (e1 + e2 + e1 * e2) * (x1 * x2) := by ring

theorem Approx.mono {e e1 lo hi c x : ℚ} (h : Approx e lo hi c x) (hlo : 0 ≤ lo)
    (he : e ≤ e1) : Approx e1 lo hi c x := by
  obtain ⟨a1, a2, a3⟩ := h
  exact ⟨a1, a2, a3.trans (mul_le_mul_of_nonneg_right he (hlo.trans a1))⟩

/-- One rounded multiplication `fl (c1 * c2)`: the relative errors add up, plus
`2^-51` for the rounding and the second-order term. -/
theorem Approx.flmul {fl : ℚ → ℚ} (h : RoundsLikeBinary64 fl)
    {e1 lo1 hi1 c1 x1 e2 lo2 hi2 c2 x2 : ℚ}
    (h1 : Approx e1 lo1 hi1 c1 x1) (h2 : Approx e2 lo2 hi2 c2 x2)
    (hl1 : 0 < lo1) (hl2 : 0 < lo2) (he1 : 0 ≤ e1) (he2 : 0 ≤ e2)
    (he1s : e1 ≤ 1 / 2 ^ 32) (he2s : e2 ≤ 1 / 2 ^ 32)
    (hlo : 1 / 2 ^ 1000 ≤ lo1 * lo2) (hhi : hi1 * hi2 ≤ 2 ^ 1000) :
    Approx (e1 + e2 + 1 / 2 ^ 51) (lo1 * lo2) (hi1 * hi2) (fl (c1 * c2)) (x1 * x2) := by
  have hm := Approx.mul h1 h2 hl1 hl2 he1
  have hprod : e1 * e2 ≤ 1 / 2 ^ 32 * (1 / 2 ^ 32) := mul_le_mul he1s he2s he2 (by positivity)
  have hsmall : e1 + e2 + e1 * e2 ≤ 1 / 2 ^ 30 := by
    have : (1 : ℚ) / 2 ^ 32 + 1 / 2 ^ 32 + 1 / 2 ^ 32 * (1 / 2 ^ 32) ≤ 1 / 2 ^ 30 := by norm_num
    linarith
  have hf := Approx.fl h hm hsmall hlo hhi
  refine Approx.mono hf (le_trans (by positivity) hlo) ?_
  have : (1 : ℚ) / 2 ^ 32 * (1 / 2 ^ 32) + 1 / 2 ^ 52 ≤ 1 / 2 ^ 51 := by norm_num
  linarith

theorem Approx.const (x : ℚ) : Approx 0 x x x x := ⟨le_rfl, le_rfl, by simp⟩

/-- For `0 < i < MaxIterations` the value `t` lies in `[1/5000, 4999/5000]`. -/
theorem normalized_interior (i : ℤ) (h0 : 0 < i) (h1 : i < MaxIterations) :
    1 / 5000 ≤ normalized i ∧ normalized i ≤ 4999 / 5000 := by
  have hi0 : (1 : ℚ) ≤ (i : ℚ) := by exact_mod_cast h0
  have hi1 : (i : ℚ) ≤ 4999 := by
    have : i ≤ 4999 := by
      have : i < 5000 := h1
      omega
    exact_mod_cast this
  unfold normalized MaxIterations
  push_cast
  constructor
  · rw [div_le_div_iff_of_pos_right (by norm_num)]; exact hi0
  · rw [div_le_div_iff_of_pos_right (by norm_num)]; exact hi1

/-- The rounded `t` of line 29. -/
theorem approx_t {fl : ℚ → ℚ} (h : RoundsLikeBinary64 fl) (t : ℚ) (ht0 : 1 / 5000 ≤ t)
    (ht1 : t ≤ 4999 / 5000) : Approx (1 / 2 ^ 52) (1 / 5000) 1 (fl t) t := by
  have h0 : Approx 0 (1 / 5000) 1 t t := ⟨ht0, by linarith, by simp⟩
  have := Approx.fl h h0 (by positivity) (by norm_num) (by norm_num)
  simpa using this

/-- The rounded `1 - t`: the subtraction amplifies the relative error of `t` by
at most `t / (1 - t) ≤ 4999`. -/
theorem approx_one_sub_t {fl : ℚ → ℚ} (h : RoundsLikeBinary64 fl) (t : ℚ)
    (ht0 : 1 / 5000 ≤ t) (ht1 : t ≤ 4999 / 5000) :
    Approx (5000 / 2 ^ 52) (1 / 5000) 1 (fl (1 - fl t)) (1 - t) := by
  obtain ⟨_, _, h3⟩ := approx_t h t ht0 ht1
  have h0 : Approx (4999 / 2 ^ 52) (1 / 5000) 1 (1 - fl t) (1 - t) := by
    refine ⟨by linarith, by linarith, ?_⟩
    have e : 1 - fl t - (1 - t) = -(fl t - t) := by ring
    rw [e, abs_neg]
    refine h3.trans ?_
    have : t ≤ 4999 * (1 - t) := by linarith
    calc 1 / 2 ^ 52 * t ≤ 1 / 2 ^ 52 * (4999 * (1 - t)) :=
          mul_le_mul_of_nonneg_left this (by positivity)
      _ = 4999 / 2 ^ 52 * (1 - t) := by ring
  have := Approx.fl h h0 (by norm_num) (by norm_num) (by norm_num)
  refine Approx.mono this (by norm_num) (by norm_num)

/-- The rounded red value is within `2^-27` of the exact one. -/
theorem red_close {fl : ℚ → ℚ} (h : RoundsLikeBinary64 fl) (t : ℚ) (ht0 : 1 / 5000 ≤ t)
    (ht1 : t ≤ 4999 / 5000) :
    |fl (fl (fl (fl (fl (9 * fl (1 - fl t)) * fl t) * fl t) * fl t) * 255) - redValue t| ≤
      1 / 2 ^ 27 := by
  have hT := approx_t h t ht0 ht1
  have hS := approx_one_sub_t h t ht0 ht1
  have a1 := Approx.flmul h (Approx.const 9) hS (by norm_num) (by norm_num) (by norm_num)
    (by norm_num) (by norm_num) (by norm_num) (by norm_num) (by norm_num)
  have a2 := Approx.flmul h a1 hT (by norm_num) (by norm_num) (by norm_num)
    (by norm_num) (by norm_num) (by norm_num) (by norm_num) (by norm_num)
  have a3 := Approx.flmul h a2 hT (by norm_num) (by norm_num) (by norm_num)
    (by norm_num) (by norm_num) (by norm_num) (by norm_num) (by norm_num)
  have a4 := Approx.flmul h a3 hT (by norm_num) (by norm_num) (by norm_num)
    (by norm_num) (by norm_num) (by norm_num) (by norm_num) (by norm_num)
  have a5 := Approx.flmul h a4 (Approx.const 255) (by norm_num) (by norm_num) (by norm_num)
    (by norm_num) (by norm_num) (by norm_num) (by norm_num) (by norm_num)
  have hr := redValue_range t (by linarith) (by linarith)
  have hb := a5.2.2
  have hx : 9 * (1 - t) * t * t * t * 255 = redValue t := rfl
  rw [hx] at hb
  refine hb.trans ?_
  calc _ ≤ (0 + 5000 / 2 ^ 52 + 1 / 2 ^ 51 + 1 / 2 ^ 52 + 1 / 2 ^ 51 + 1 / 2 ^ 52 + 1 / 2 ^ 51 +
          1 / 2 ^ 52 + 1 / 2 ^ 51 + 0 + 1 / 2 ^ 51) * 255 :=
        mul_le_mul_of_nonneg_left hr.2 (by norm_num)
    _ ≤ 1 / 2 ^ 27 := by norm_num

/-- The rounded green value is within `2^-27` of the exact one. -/
theorem green_close {fl : ℚ → ℚ} (h : RoundsLikeBinary64 fl) (t : ℚ) (ht0 : 1 / 5000 ≤ t)
    (ht1 : t ≤ 4999 / 5000) :
    |fl (fl (fl (fl (fl (15 * fl (1 - fl t)) * fl (1 - fl t)) * fl t) * fl t) * 255) -
        greenValue t| ≤ 1 / 2 ^ 27 := by
  have hT := approx_t h t ht0 ht1
  have hS := approx_one_sub_t h t ht0 ht1
  have a1 := Approx.flmul h (Approx.const 15) hS (by norm_num) (by norm_num) (by norm_num)
    (by norm_num) (by norm_num) (by norm_num) (by norm_num) (by norm_num)
  have a2 := Approx.flmul h a1 hS (by norm_num) (by norm_num) (by norm_num)
    (by norm_num) (by norm_num) (by norm_num) (by norm_num) (by norm_num)
  have a3 := Approx.flmul h a2 hT (by norm_num) (by norm_num) (by norm_num)
    (by norm_num) (by norm_num) (by norm_num) (by norm_num) (by norm_num)
  have a4 := Approx.flmul h a3 hT (by norm_num) (by norm_num) (by norm_num)
    (by norm_num) (by norm_num) (by norm_num) (by norm_num) (by norm_num)
  have a5 := Approx.flmul h a4 (Approx.const 255) (by norm_num) (by norm_num) (by norm_num)
    (by norm_num) (by norm_num) (by norm_num) (by norm_num) (by norm_num)
  have hr := greenValue_range t (by linarith) (by linarith)
  have hb := a5.2.2
  have hx : 15 * (1 - t) * (1 - t) * t * t * 255 = greenValue t := rfl
  rw [hx] at hb
  refine hb.trans ?_
  calc _ ≤ (0 + 5000 / 2 ^ 52 + 1 / 2 ^ 51 + 5000 / 2 ^ 52 + 1 / 2 ^ 51 + 1 / 2 ^ 52 +
          1 / 2 ^ 51 + 1 / 2 ^ 52 + 1 / 2 ^ 51 + 0 + 1 / 2 ^ 51) * 255 :=
        mul_le_mul_of_nonneg_left hr.2 (by norm_num)
    _ ≤ 1 / 2 ^ 27 := by norm_num

/-- The rounded blue value is within `2^-27` of the exact one. -/
theorem blue_close {fl : ℚ → ℚ} (h : RoundsLikeBinary64 fl) (t : ℚ) (ht0 : 1 / 5000 ≤ t)
    (ht1 : t ≤ 4999 / 5000) :
    |fl (fl (fl (fl (fl (8.5 * fl (1 - fl t)) * fl (1 - fl t)) * fl (1 - fl t)) * fl t) * 255) -
        blueValue t| ≤ 1 / 2 ^ 27 := by
  have hT := approx_t h t ht0 ht1
  have hS := approx_one_sub_t h t ht0 ht1
  have a1 := Approx.flmul h (Approx.const 8.5) hS (by norm_num) (by norm_num) (by norm_num)
    (by norm_num) (by norm_num) (by norm_num) (by norm_num) (by norm_num)
  have a2 := Approx.flmul h a1 hS (by norm_num) (by norm_num) (by norm_num)
    (by norm_num) (by norm_num) (by norm_num) (by norm_num) (by norm_num)
  have a3 := Approx.flmul h a2 hS (by norm_num) (by norm_num) (by norm_num)
    (by norm_num) (by norm_num) (by norm_num) (by norm_num) (by norm_num)
  have a4 := Approx.flmul h a3 hT (by norm_num) (by norm_num) (by norm_num)
    (by norm_num) (by norm_num) (by norm_num) (by norm_num) (by norm_num)
  have a5 := Approx.flmul h a4 (Approx.const 255) (by norm_num) (by norm_num) (by norm_num)
    (by norm_num) (by norm_num) (by norm_num) (by norm_num) (by norm_num)
  have hr := blueValue_range t (by linarith) (by linarith)
  have hb := a5.2.2
  have hx : 8.5 * (1 - t) * (1 - t) * (1 - t) * t * 255 = blueValue t := rfl
  rw [hx] at hb
  refine hb.trans ?_
  calc _ ≤ (0 + 5000 / 2 ^ 52 + 1 / 2 ^ 51 + 5000 / 2 ^ 52 + 1 / 2 ^ 51 + 5000 / 2 ^ 52 +
          1 / 2 ^ 51 + 1 / 2 ^ 52 + 1 / 2 ^ 51 + 0 + 1 / 2 ^ 51) * 255 :=
        mul_le_mul_of_nonneg_left hr.2 (by norm_num)
    _ ≤ 1 / 2 ^ 27 := by norm_num

/-! ## `getColor` under rounding: the exact values keep clear of the integers -/

theorem redValue_eq_frac (k : ℕ) (hk : k ≤ 5000) :
    redValue (normalized (k : ℤ)) = (redNum k : ℚ) / ((5000 ^ 4 : ℕ) : ℚ) := by
  unfold redValue normalized MaxIterations redNum
  push_cast [Nat.cast_sub hk]
  field_simp
  ring

theorem greenValue_eq_frac (k : ℕ) (hk : k ≤ 5000) :
    greenValue (normalized (k : ℤ)) = (greenNum k : ℚ) / ((5000 ^ 4 : ℕ) : ℚ) := by
  unfold greenValue normalized MaxIterations greenNum
  push_cast [Nat.cast_sub hk]
  field_simp
  ring

theorem blueValue_eq_frac (k : ℕ) (hk : k ≤ 5000) :
    blueValue (normalized (k : ℤ)) = (blueNum k : ℚ) / ((2 * 5000 ^ 4 : ℕ) : ℚ) := by
  unfold blueValue normalized MaxIterations blueNum
  push_cast [Nat.cast_sub hk]
  norm_num
  field_simp
  ring

/-- A value in `[0, 255]` whose fractional part keeps `2^-26` clear of 0 and 1 is
converted to the same channel as every value within `2^-27` of it. -/
theorem uint8_of_close (c v : ℚ) (n d : ℕ) (hd : 0 < d) (hv : v = (n : ℚ) / (d : ℚ))
    (hm : clearOfIntegers n d = true) (hv1 : v ≤ 255) (hc : |c - v| ≤ 1 / 2 ^ 27) :
    uint8 c = uint8 v := by
  have hdq : (0 : ℚ) < (d : ℚ) := by exact_mod_cast hd
  unfold clearOfIntegers at hm
  rw [decide_eq_true_eq] at hm
  obtain ⟨m1, m2⟩ := hm
  have hsplit : (n : ℚ) = (d : ℚ) * ((n / d : ℕ) : ℚ) + ((n % d : ℕ) : ℚ) := by
    exact_mod_cast (Nat.div_add_mod n d).symm
  have m1q : (d : ℚ) ≤ ((n % d : ℕ) : ℚ) * 2 ^ 26 := by exact_mod_cast m1
  have m2q : ((n % d : ℕ) : ℚ) * 2 ^ 26 + (d : ℚ) ≤ (d : ℚ) * 2 ^ 26 := by exact_mod_cast m2
  have hveq : v = ((n / d : ℕ) : ℚ) + ((n % d : ℕ) : ℚ) / (d : ℚ) := by
    rw [hv, hsplit]
    field_simp
    ring
  have hfrac1 : 1 / 2 ^ 26 ≤ ((n % d : ℕ) : ℚ) / (d : ℚ) := by
    rw [le_div_iff₀ hdq]
    linarith
  have hfrac2 : ((n % d : ℕ) : ℚ) / (d : ℚ) ≤ 1 - 1 / 2 ^ 26 := by
    rw [div_le_iff₀ hdq]
    linarith
  have hq0 : (0 : ℚ) ≤ ((n / d : ℕ) : ℚ) := Nat.cast_nonneg _
  have hcv := abs_le.mp hc
  have hfv : ⌊v⌋ = ((n / d : ℕ) : ℤ) := by
    rw [Int.floor_eq_iff, Int.cast_natCast]
    constructor <;> linarith
  have hfc : ⌊c⌋ = ((n / d : ℕ) : ℤ) := by
    rw [Int.floor_eq_iff, Int.cast_natCast]
    constructor <;> linarith
  have hv0 : 0 ≤ v := by linarith
  have hc0 : 0 ≤ c := by linarith
  have hc1 : c < 256 := by linarith
  rw [uint8_of_range c hc0 hc1, uint8_of_range v hv0 (by linarith), hfv, hfc]

set_option maxRecDepth 1000000 in
/-- Exhaustive check over `0 < i < 5000` (integer arithmetic only). -/
theorem marginsBelow_all : marginsBelow 5000 = true := by decide!

theorem margins_of_below : ∀ n, marginsBelow n = true → ∀ i, 0 < i → i < n →
    clearOfIntegers (redNum i) (5000 ^ 4) = true ∧
    clearOfIntegers (greenNum i) (5000 ^ 4) = true ∧
    clearOfIntegers (blueNum i) (2 * 5000 ^ 4) = true := by
  intro n
  induction n with
  | zero => intro _ i _ hi; omega
  | succ n ih =>
    intro h i h0 hi
    simp only [marginsBelow, Bool.and_eq_true, Bool.decide_or, Bool.or_eq_true,
      decide_eq_true_eq, Bool.decide_and, Bool.decide_eq_true] at h
    by_cases hin : i = n
    · subst hin
      rcases h.1 with h1 | h1
      · omega
      · simpa using h1
    · exact ih h.2 i h0 (by omega)

/-! ## `getColor` under rounding: agreement with the exact evaluation -/

theorem uint8_zero : uint8 0 = 0 := by decide!

theorem getColorRounded_zero {fl : ℚ → ℚ} (h : RoundsLikeBinary64 fl) :
    getColorRounded fl 0 = ⟨0, 0, 0, 255⟩ := by
  simp [getColorRounded, h.zero, h.one, uint8_zero]

theorem getColorRounded_max {fl : ℚ → ℚ} (h : RoundsLikeBinary64 fl) :
    getColorRounded fl MaxIterations = ⟨0, 0, 0, 255⟩ := by
  simp [getColorRounded, MaxIterations, h.zero, h.one, uint8_zero]

/-- On `[0, MaxIterations]` the colour does not depend on the rounding of the
`float64` operations: every operator that rounds like binary64 gives the colour
of the exact evaluation. -/
theorem getColorRounded_eq_getColor {fl : ℚ → ℚ} (h : RoundsLikeBinary64 fl) (i : ℤ)
    (h0 : 0 ≤ i) (h1 : i ≤ MaxIterations) : getColorRounded fl i = getColor i := by
  rcases eq_or_lt_of_le h0 with rfl | hpos
  · rw [getColorRounded_zero h]; decide!
  rcases eq_or_lt_of_le h1 with rfl | hlt
  · rw [getColorRounded_max h]; decide!
  obtain ⟨k, rfl⟩ := Int.eq_ofNat_of_zero_le h0
  have hk0 : 0 < k := by exact_mod_cast hpos
  have hk1 : k < 5000 := by
    have : (k : ℤ) < 5000 := hlt
    exact_mod_cast this
  obtain ⟨mr, mg, mb⟩ := margins_of_below 5000 marginsBelow_all k hk0 hk1
  obtain ⟨ht0, ht1⟩ := normalized_interior (k : ℤ) hpos hlt
  have ht01 : 0 ≤ normalized (k : ℤ) ∧ normalized (k : ℤ) ≤ 1 := ⟨by linarith, by linarith⟩
  have er := uint8_of_close _ _ (redNum k) (5000 ^ 4) (by norm_num)
    (redValue_eq_frac k hk1.le) mr (redValue_range _ ht01.1 ht01.2).2 (red_close h _ ht0 ht1)
  have eg := uint8_of_close _ _ (greenNum k) (5000 ^ 4) (by norm_num)
    (greenValue_eq_frac k hk1.le) mg (greenValue_range _ ht01.1 ht01.2).2
    (green_close h _ ht0 ht1)
  have eb := uint8_of_close _ _ (blueNum k) (2 * 5000 ^ 4) (by norm_num)
    (blueValue_eq_frac k hk1.le) mb (blueValue_range _ ht01.1 ht01.2).2
    (blue_close h _ ht0 ht1)
  rw [getColor_eq, ← er, ← eg, ← eb]
  rfl

/-- Exact arithmetic is one of the admitted rounding operators. -/
theorem roundsLikeBinary64_id : RoundsLikeBinary64 id :=
  ⟨rfl, rfl, fun q _ _ => by
    rw [id, sub_self, abs_zero]
    exact div_nonneg (abs_nonneg q) (by norm_num)⟩

/-! ## `getColor` under rounding: binary64 round-to-nearest-even -/

theorem roundHalfEven_close (m : ℚ) : |(roundHalfEven m : ℚ) - m| ≤ 1 / 2 := by
  have h1 := Int.floor_le m
  have h2 := Int.lt_floor_add_one m
  unfold roundHalfEven
  rw [abs_le]
  split_ifs with a b c
  · constructor <;> linarith
  · push_cast; constructor <;> linarith
  · constructor <;> linarith
  · push_cast; constructor <;> linarith

/-- Rounding a positive magnitude `a` to 53 significant bits. -/
theorem round_magnitude_close (a : ℚ) (ha : 0 < a) :
    |(roundHalfEven (a / (2 : ℚ) ^ (Int.log 2 a - 52)) : ℚ) * (2 : ℚ) ^ (Int.log 2 a - 52) - a| ≤
      a / 2 ^ 53 := by
  have hlo := Int.zpow_log_le_self (b := 2) (r := a) (by norm_num) ha
  generalize he : Int.log 2 a - 52 = e
  have hk : Int.log 2 a = e + 52 := by omega
  have hpe : (0 : ℚ) < (2 : ℚ) ^ e := by positivity
  have hpow : ((2 : ℕ) : ℚ) ^ (Int.log 2 a) = (2 : ℚ) ^ e * 2 ^ 52 := by
    rw [hk, zpow_add₀ (by norm_num)]
    norm_num
  rw [hpow] at hlo
  have hm := roundHalfEven_close (a / (2 : ℚ) ^ e)
  generalize roundHalfEven (a / (2 : ℚ) ^ e) = n at hm
  have e1 : (n : ℚ) * (2 : ℚ) ^ e - a = ((n : ℚ) - a / (2 : ℚ) ^ e) * (2 : ℚ) ^ e := by
    field_simp
  rw [e1, abs_mul, abs_of_pos hpe]
  calc |(n : ℚ) - a / (2 : ℚ) ^ e| * (2 : ℚ) ^ e ≤ 1 / 2 * (2 : ℚ) ^ e :=
        mul_le_mul_of_nonneg_right hm hpe.le
    _ = ((2 : ℚ) ^ e * 2 ^ 52) / 2 ^ 53 := by ring
    _ ≤ a / 2 ^ 53 := div_le_div_of_nonneg_right hlo (by norm_num)

theorem round64_close (q : ℚ) : |round64 q - q| ≤ |q| / 2 ^ 53 := by
  by_cases hq : q = 0
  · simp [round64, hq]
  have key := round_magnitude_close |q| (abs_pos.mpr hq)
  by_cases hpos : 0 < q
  · have hdef : round64 q = (roundHalfEven (|q| / (2 : ℚ) ^ (Int.log 2 |q| - 52)) : ℚ) *
        (2 : ℚ) ^ (Int.log 2 |q| - 52) := by
      simp only [round64, if_neg hq, if_pos hpos]
    rw [hdef]
    rw [abs_of_pos hpos] at key ⊢
    exact key
  · have hdef : round64 q = -((roundHalfEven (|q| / (2 : ℚ) ^ (Int.log 2 |q| - 52)) : ℚ) *
        (2 : ℚ) ^ (Int.log 2 |q| - 52)) := by
      simp only [round64, if_neg hq, if_neg hpos]
    rw [hdef]
    have hneg : q < 0 := lt_of_le_of_ne (not_lt.mp hpos) hq
    rw [abs_of_neg hneg] at key ⊢
    rw [show ∀ x : ℚ, -x - q = -(x - -q) from fun x => by ring, abs_neg]
    exact key

theorem round64_one : round64 1 = 1 := by
  have h : Int.log 2 |(1 : ℚ)| = 0 := by simp
  have hf : roundHalfEven (4503599627370496 : ℚ) = 4503599627370496 := by
    unfold roundHalfEven
    have : ⌊(4503599627370496 : ℚ)⌋ = 4503599627370496 := by
      exact_mod_cast Int.floor_intCast (α := ℚ) 4503599627370496
    rw [this]
    norm_num
  simp only [round64, h]
  norm_num [hf]

/-- Round-to-nearest-even with a 53-bit significand is an admitted rounding
operator. -/
theorem roundsLikeBinary64_round64 : RoundsLikeBinary64 round64 :=
  ⟨by simp [round64], round64_one, fun q _ _ => round64_close q⟩

/-! ## Colour map: truncation, in exact and in binary64 arithmetic -/

/-- C5 (amended): for every iteration count `i` in `[0, MaxIterations]`, with
`t = i / MaxIterations`, `getColor i` is the colour whose channels are the
integer parts (the fraction is discarded, not rounded) of `9 (1-t) t³ 255`,
`15 (1-t)² t² 255` and `8.5 (1-t)³ t 255`, with `A = 255`; rounding every
`float64` operation to binary64 gives the same colour. -/
theorem getColor_truncates (i : ℤ) (h0 : 0 ≤ i) (h1 : i ≤ MaxIterations) :
    getColor i =
      ⟨⌊9 * (1 - (i : ℚ) / 5000) * ((i : ℚ) / 5000) ^ 3 * 255⌋.toNat,
        ⌊15 * (1 - (i : ℚ) / 5000) ^ 2 * ((i : ℚ) / 5000) ^ 2 * 255⌋.toNat,
        ⌊8.5 * (1 - (i : ℚ) / 5000) ^ 3 * ((i : ℚ) / 5000) * 255⌋.toNat, 255⟩ ∧
    getColorRounded round64 i = getColor i := by
  refine ⟨?_, getColorRounded_eq_getColor roundsLikeBinary64_round64 i h0 h1⟩
  obtain ⟨ht0, ht1⟩ := normalized_range i h0 h1
  obtain ⟨hr0, hr1⟩ := redValue_range _ ht0 ht1
  obtain ⟨hg0, hg1⟩ := greenValue_range _ ht0 ht1
  obtain ⟨hb0, hb1⟩ := blueValue_range _ ht0 ht1
  rw [getColor_eq, uint8_of_range _ hr0 (by linarith), uint8_of_range _ hg0 (by linarith),
    uint8_of_range _ hb0 (by linarith)]
  have hr : redValue (normalized i) =
      9 * (1 - (i : ℚ) / 5000) * ((i : ℚ) / 5000) ^ 3 * 255 := by
    unfold redValue normalized MaxIterations
    push_cast
    ring
  have hg : greenValue (normalized i) =
      15 * (1 - (i : ℚ) / 5000) ^ 2 * ((i : ℚ) / 5000) ^ 2 * 255 := by
    unfold greenValue normalized MaxIterations
    push_cast
    ring
  have hb : blueValue (normalized i) =
      8.5 * (1 - (i : ℚ) / 5000) ^ 3 * ((i : ℚ) / 5000) * 255 := by
    unfold blueValue normalized MaxIterations
    push_cast
    ring
  rw [hr, hg, hb]

/-- C5 (amended) at `iterations = 1000`: the colour is `(14, 97, 221, 255)`, in
exact and in binary64 arithmetic. -/
theorem getColor_truncates_witness :
    getColor 1000 = ⟨14, 97, 221, 255⟩ ∧ getColorRounded round64 1000 = ⟨14, 97, 221, 255⟩ :=
  have h := getColor_truncates 1000 (by decide) (by decide)
  have e : getColor 1000 = ⟨14, 97, 221, 255⟩ := by decide!
  ⟨e, h.2.trans e⟩

/-! ## Termination and the number of loop iterations of `mandelbrot` -/

theorem mandelbrotLoopCounted_step (c : Complex128) (n : ℤ) (z : Complex128) (k : ℕ)
    (hn : n < MaxIterations) :
    mandelbrotLoopCounted c n z k =
      if absGtTwo (z * z + c) then (n, k + 1)
      else mandelbrotLoopCounted c (n + 1) (z * z + c) (k + 1) := by
  rw [mandelbrotLoopCounted]
  simp [hn]

theorem mandelbrotLoopCounted_done (c : Complex128) (n : ℤ) (z : Complex128) (k : ℕ)
    (hn : ¬ n < MaxIterations) :
    mandelbrotLoopCounted c n z k = (MaxIterations, k) := by
  rw [mandelbrotLoopCounted]
  simp [hn]

/-- The counted loop returns the value of the loop of `mandelbrot`, and its count
grows by the number of iterations between the entry counter and the exit. -/
theorem mandelbrotLoopCounted_spec (c : Complex128) :
    ∀ (d : ℕ) (n : ℤ) (z : Complex128) (k : ℕ), 0 ≤ n → (MaxIterations - n).toNat = d →
      n ≤ MaxIterations →
      (mandelbrotLoopCounted c n z k).1 = mandelbrotLoop c n z ∧
      (mandelbrotLoop c n z < MaxIterations →
        ((mandelbrotLoopCounted c n z k).2 : ℤ) = k + (mandelbrotLoop c n z - n + 1)) ∧
      (mandelbrotLoop c n z = MaxIterations →
        ((mandelbrotLoopCounted c n z k).2 : ℤ) = k + (MaxIterations - n)) := by
  intro d
  induction d with
  | zero =>
    intro n z k _ hd hle
    have hn : ¬ n < MaxIterations := by omega
    rw [mandelbrotLoopCounted_done c n z k hn, mandelbrotLoop_done c n z hn]
    refine ⟨rfl, fun h => absurd h (lt_irrefl _), fun _ => ?_⟩
    show (k : ℤ) = k + (MaxIterations - n)
    omega
  | succ d ih =>
    intro n z k h0 hd _
    have hn : n < MaxIterations := by omega
    rw [mandelbrotLoopCounted_step c n z k hn, mandelbrotLoop_step c n z hn]
    by_cases hesc : absGtTwo (z * z + c)
    · rw [if_pos hesc, if_pos hesc]
      refine ⟨rfl, fun _ => ?_, fun h => ?_⟩
      · show ((k + 1 : ℕ) : ℤ) = k + (n - n + 1)
        push_cast
        omega
      · omega
    · rw [if_neg hesc, if_neg hesc]
      obtain ⟨e1, e2, e3⟩ := ih (n + 1) (z * z + c) (k + 1) (by omega) (by omega) (by omega)
      refine ⟨e1, fun h => ?_, fun h => ?_⟩
      · rw [e2 h]
        push_cast
        omega
      · rw [e3 h]
        push_cast
        omega

/-- C12: for every point `c` the loop of `mandelbrot` terminates (the function is
total) after at most `MaxIterations` executions of its body: `n + 1` executions
when it returns `n < MaxIterations`, `MaxIterations` executions when it returns
`MaxIterations`. -/
theorem mandelbrot_iteration_count (c : Complex128) :
    (mandelbrotCounted c).1 = mandelbrot c ∧
    ((mandelbrotCounted c).2 : ℤ) ≤ MaxIterations ∧
    (mandelbrot c < MaxIterations →
      ((mandelbrotCounted c).2 : ℤ) = mandelbrot c + 1) ∧
    (mandelbrot c = MaxIterations →
      ((mandelbrotCounted c).2 : ℤ) = MaxIterations) := by
  obtain ⟨e1, e2, e3⟩ := mandelbrotLoopCounted_spec c _ 0 0 0 le_rfl rfl (by decide)
  have hr := mandelbrotLoop_range c 5000 0 0 le_rfl (by decide)
  have e2' : mandelbrot c < MaxIterations →
      ((mandelbrotCounted c).2 : ℤ) = mandelbrot c + 1 := by
    intro h
    have := e2 h
    unfold mandelbrotCounted mandelbrot
    rw [this]
    push_cast
    omega
  have e3' : mandelbrot c = MaxIterations →
      ((mandelbrotCounted c).2 : ℤ) = MaxIterations := by
    intro h
    have := e3 h
    unfold mandelbrotCounted
    rw [this]
    push_cast
    omega
  refine ⟨e1, ?_, e2', e3'⟩
  rcases lt_or_eq_of_le hr.2 with h | h
  · have := e2' h
    have h' : mandelbrot c < MaxIterations := h
    omega
  · exact le_of_eq (e3' h)

/-- C12 at `c = 1`: the loop returns 2 after 3 executions of its body. -/
theorem mandelbrot_iteration_count_witness :
    mandelbrot (complex 1 0) = 2 ∧ (mandelbrotCounted (complex 1 0)).2 = 3 := by
  have hm : mandelbrot (complex 1 0) = 2 := by
    unfold mandelbrot
    rw [mandelbrotLoop_step _ _ _ (by decide), if_neg (by decide!),
      mandelbrotLoop_step _ _ _ (by decide), if_neg (by decide!),
      mandelbrotLoop_step _ _ _ (by decide), if_pos (by decide!)]
    rfl
  have h := (mandelbrot_iteration_count (complex 1 0)).2.2.1 (by rw [hm]; decide)
  rw [hm] at h
  exact ⟨hm, by exact_mod_cast h⟩

/-! ## The raster after the render loop -/

theorem renderRowLogged_step (y x : ℤ) (s : Image × List (ℤ × ℤ)) (hx : x < Width) :
    renderRowLogged y x s =
      renderRowLogged y (x + 1) (s.1.Set x y (pixelColor x y), s.2 ++ [(x, y)]) := by
  rw [renderRowLogged]
  simp [hx, pixelColor]

theorem renderRowLogged_done (y x : ℤ) (s : Image × List (ℤ × ℤ)) (hx : ¬ x < Width) :
    renderRowLogged y x s = s := by
  rw [renderRowLogged]
  simp [hx]

theorem renderRowsLogged_step (y : ℤ) (s : Image × List (ℤ × ℤ)) (hy : y < Height) :
    renderRowsLogged y s = renderRowsLogged (y + 1) (renderRowLogged y 0 s) := by
  rw [renderRowsLogged]
  simp [hy]

theorem renderRowsLogged_done (y : ℤ) (s : Image × List (ℤ × ℤ)) (hy : ¬ y < Height) :
    renderRowsLogged y s = s := by
  rw [renderRowsLogged]
  simp [hy]

/-- The logged inner loop computes the image of the inner loop, and logs each
pixel `(x, y)` with `x0 ≤ x < Width` once more. -/
theorem renderRowLogged_spec (y : ℤ) :
    ∀ (d : ℕ) (x0 : ℤ) (s : Image × List (ℤ × ℤ)), 0 ≤ x0 → (Width - x0).toNat = d →
      (renderRowLogged y x0 s).1 = renderRow y x0 s.1 ∧
      ∀ x1 y1 : ℤ, (renderRowLogged y x0 s).2.count (x1, y1) =
        s.2.count (x1, y1) + if y1 = y ∧ x0 ≤ x1 ∧ x1 < Width then 1 else 0 := by
  intro d
  induction d with
  | zero =>
    intro x0 s _ hd
    have hx : ¬ x0 < Width := by omega
    rw [renderRowLogged_done y x0 s hx, renderRow_done y x0 s.1 hx]
    refine ⟨rfl, fun x1 y1 => ?_⟩
    rw [if_neg (by omega), Nat.add_zero]
  | succ d ih =>
    intro x0 s h0 hd
    have hx : x0 < Width := by omega
    rw [renderRowLogged_step y x0 s hx, renderRow_step y x0 s.1 hx]
    obtain ⟨e1, e2⟩ := ih (x0 + 1) (s.1.Set x0 y (pixelColor x0 y), s.2 ++ [(x0, y)])
      (by omega) (by omega)
    refine ⟨e1, fun x1 y1 => ?_⟩
    rw [e2 x1 y1]
    have hs : List.count (x1, y1) [(x0, y)] = if x1 = x0 ∧ y1 = y then 1 else 0 := by
      by_cases h : x1 = x0 ∧ y1 = y
      · obtain ⟨rfl, rfl⟩ := h
        simp
      · rw [if_neg h]
        apply List.count_eq_zero.mpr
        simp only [List.mem_singleton, Prod.mk.injEq]
        exact h
    show (s.2 ++ [(x0, y)]).count (x1, y1) + _ = _
    rw [List.count_append, hs]
    split_ifs <;> omega

/-- The logged outer loop computes the image of the outer loop, and logs each
pixel of the rows `y0 ≤ y < Height` once more. -/
theorem renderRowsLogged_spec :
    ∀ (d : ℕ) (y0 : ℤ) (s : Image × List (ℤ × ℤ)), 0 ≤ y0 → (Height - y0).toNat = d →
      (renderRowsLogged y0 s).1 = renderRows y0 s.1 ∧
      ∀ x1 y1 : ℤ, (renderRowsLogged y0 s).2.count (x1, y1) =
        s.2.count (x1, y1) +
          if (y0 ≤ y1 ∧ y1 < Height) ∧ 0 ≤ x1 ∧ x1 < Width then 1 else 0 := by
  intro d
  induction d with
  | zero =>
    intro y0 s _ hd
    have hy : ¬ y0 < Height := by omega
    rw [renderRowsLogged_done y0 s hy, renderRows_done y0 s.1 hy]
    refine ⟨rfl, fun x1 y1 => ?_⟩
    rw [if_neg (by omega), Nat.add_zero]
  | succ d ih =>
    intro y0 s h0 hd
    have hy : y0 < Height := by omega
    rw [renderRowsLogged_step y0 s hy, renderRows_step y0 s.1 hy]
    obtain ⟨r1, r2⟩ := renderRowLogged_spec y0 _ 0 s le_rfl rfl
    obtain ⟨e1, e2⟩ := ih (y0 + 1) (renderRowLogged y0 0 s) (by omega) (by omega)
    refine ⟨by rw [e1, r1], fun x1 y1 => ?_⟩
    rw [e2 x1 y1, r2 x1 y1]
    split_ifs <;> omega

theorem render_wellFormed : render.WellFormed := by
  unfold render
  exact (renderRows_spec _ 0 (NewRGBA Width Height) le_rfl rfl NewRGBA_wellFormed).1

/-- Every cell of the finished raster is the cell of a pixel inside the bounds. -/
theorem render_cell_is_pixel (cell : RGBA) (h : cell ∈ render.pix) :
    ∃ x y : ℤ, (0 ≤ x ∧ x < Width) ∧ (0 ≤ y ∧ y < Height) ∧ render.RGBAAt x y = cell := by
  obtain ⟨hw, hh, hl⟩ := render_wellFormed
  have hlen : render.pix.length = 2073600 := by rw [hl]; rfl
  obtain ⟨k, hk, hcell⟩ := List.getElem_of_mem h
  rw [hlen] at hk
  refine ⟨((k % 1920 : ℕ) : ℤ), ((k / 1920 : ℕ) : ℤ), ?_, ?_, ?_⟩
  · show (0 : ℤ) ≤ _ ∧ _ < (1920 : ℤ)
    omega
  · show (0 : ℤ) ≤ _ ∧ _ < (1080 : ℤ)
    omega
  · have hin : 0 ≤ ((k % 1920 : ℕ) : ℤ) ∧ ((k % 1920 : ℕ) : ℤ) < render.w ∧
        0 ≤ ((k / 1920 : ℕ) : ℤ) ∧ ((k / 1920 : ℕ) : ℤ) < render.h := by
      rw [hw, hh]
      show (0 : ℤ) ≤ _ ∧ _ < (1920 : ℤ) ∧ (0 : ℤ) ≤ _ ∧ _ < (1080 : ℤ)
      omega
    unfold Image.RGBAAt
    rw [if_pos hin, hw]
    have hidx : (((k / 1920 : ℕ) : ℤ) * Width + ((k % 1920 : ℕ) : ℤ)).toNat = k := by
      show (((k / 1920 : ℕ) : ℤ) * 1920 + ((k % 1920 : ℕ) : ℤ)).toNat = k
      omega
    rw [hidx, List.getD_eq_getElem?_getD, List.getElem?_eq_getElem (by rw [hlen]; exact hk),
      Option.getD_some]
    exact hcell

/-- C11: after the render loop the raster has exactly `Width * Height = 1920 * 1080`
cells; the loop calls `Set` exactly once for every pixel `(x, y)` with
`0 ≤ x < Width`, `0 ≤ y < Height` (and for no other point); the final value of
the pixel is `getColor(mandelbrot(complex((x - Width/2)*4/Width,
(y - Height/2)*4/Height)))`; and every cell has alpha 255, so none is left at
the zero colour `(0, 0, 0, 0)`. -/
theorem render_complete :
    (render.pix.length = 1920 * 1080 ∧ Width * Height = 1920 * 1080) ∧
    renderLogged.1 = render ∧
    (∀ x y : ℤ, renderLogged.2.count (x, y) =
      if (0 ≤ x ∧ x < Width) ∧ (0 ≤ y ∧ y < Height) then 1 else 0) ∧
    (∀ x y : ℤ, 0 ≤ x → x < Width → 0 ≤ y → y < Height →
      render.RGBAAt x y =
        getColor (mandelbrot (complex (((x - Width / 2 : ℤ) : ℚ) * 4 / (Width : ℚ))
          (((y - Height / 2 : ℤ) : ℚ) * 4 / (Height : ℚ))))) ∧
    (∀ cell ∈ render.pix, cell.A = 255 ∧ cell ≠ ⟨0, 0, 0, 0⟩) := by
  obtain ⟨l1, l2⟩ := renderRowsLogged_spec _ 0 (NewRGBA Width Height, []) le_rfl rfl
  refine ⟨⟨?_, by decide⟩, l1, fun x y => ?_, fun x y hx0 hx1 hy0 hy1 => ?_,
    fun cell hcell => ?_⟩
  · rw [render_wellFormed.2.2]
    rfl
  · have := l2 x y
    unfold renderLogged
    rw [this]
    simp only [List.count_nil, Nat.zero_add]
    split_ifs <;> first | rfl | omega
  · exact render_RGBAAt x y ⟨hx0, hx1⟩ ⟨hy0, hy1⟩
  · obtain ⟨x, y, hx, hy, hxy⟩ := render_cell_is_pixel cell hcell
    have hA : cell.A = 255 := by
      rw [← hxy, render_RGBAAt x y hx hy]
      rfl
    refine ⟨hA, fun h => ?_⟩
    rw [h] at hA
    exact absurd hA (by decide)

/-! ## Colour map: each channel is a floor -/

/-- C13: for every iteration count `i` in `[0, MaxIterations]`, with
`t = i / MaxIterations`, each channel of `getColor i` is the floor of its
polynomial, `R = ⌊9 (1-t) t³ 255⌋`, `G = ⌊15 (1-t)² t² 255⌋`,
`B = ⌊8.5 (1-t)³ t 255⌋`; the three polynomials are non-negative, so the floor
is the truncation toward zero; and rounding every `float64` operation to
binary64 yields the same three channels. -/
theorem getColor_channels_floor (i : ℤ) (h0 : 0 ≤ i) (h1 : i ≤ MaxIterations) :
    (((getColor i).R : ℤ) = ⌊9 * (1 - normalized i) * normalized i ^ 3 * 255⌋ ∧
      ((getColor i).G : ℤ) = ⌊15 * (1 - normalized i) ^ 2 * normalized i ^ 2 * 255⌋ ∧
      ((getColor i).B : ℤ) = ⌊8.5 * (1 - normalized i) ^ 3 * normalized i * 255⌋) ∧
    (0 ≤ 9 * (1 - normalized i) * normalized i ^ 3 * 255 ∧
      0 ≤ 15 * (1 - normalized i) ^ 2 * normalized i ^ 2 * 255 ∧
      0 ≤ 8.5 * (1 - normalized i) ^ 3 * normalized i * 255) ∧
    ((getColorRounded round64 i).R = (getColor i).R ∧
      (getColorRounded round64 i).G = (getColor i).G ∧
      (getColorRounded round64 i).B = (getColor i).B) := by
  obtain ⟨ht0, ht1⟩ := normalized_range i h0 h1
  obtain ⟨hr0, hr1⟩ := redValue_range _ ht0 ht1
  obtain ⟨hg0, hg1⟩ := greenValue_range _ ht0 ht1
  obtain ⟨hb0, hb1⟩ := blueValue_range _ ht0 ht1
  have hr : 9 * (1 - normalized i) * normalized i ^ 3 * 255 = redValue (normalized i) := by
    unfold redValue; ring
  have hg : 15 * (1 - normalized i) ^ 2 * normalized i ^ 2 * 255 =
      greenValue (normalized i) := by
    unfold greenValue; ring
  have hb : 8.5 * (1 - normalized i) ^ 3 * normalized i * 255 = blueValue (normalized i) := by
    unfold blueValue; ring
  have hR : (getColor i).R = uint8 (redValue (normalized i)) := rfl
  have hG : (getColor i).G = uint8 (greenValue (normalized i)) := rfl
  have hB : (getColor i).B = uint8 (blueValue (normalized i)) := rfl
  have hround := getColorRounded_eq_getColor roundsLikeBinary64_round64 i h0 h1
  rw [hr, hg, hb]
  refine ⟨⟨?_, ?_, ?_⟩, ⟨hr0, hg0, hb0⟩, ⟨by rw [hround], by rw [hround], by rw [hround]⟩⟩
  · rw [hR, uint8_of_range _ hr0 (by linarith), Int.toNat_of_nonneg (Int.floor_nonneg.mpr hr0)]
  · rw [hG, uint8_of_range _ hg0 (by linarith), Int.toNat_of_nonneg (Int.floor_nonneg.mpr hg0)]
  · rw [hB, uint8_of_range _ hb0 (by linarith), Int.toNat_of_nonneg (Int.floor_nonneg.mpr hb0)]

/-- C13 at `iterations = 2500` (`t = 1/2`): the polynomials are `143.4375`,
`239.0625` and `135.46875`, the channels 143, 239 and 135. -/
theorem getColor_channels_floor_witness :
    9 * (1 - normalized 2500) * normalized 2500 ^ 3 * 255 = 143 + 7 / 16 ∧
    (getColor 2500).R = 143 ∧ (getColor 2500).G = 239 ∧ (getColor 2500).B = 135 ∧
    (getColorRounded round64 2500).R = 143 := by
  have h := getColor_channels_floor 2500 (by decide) (by decide)
  have e : getColor 2500 = ⟨143, 239, 135, 255⟩ := by decide!
  refine ⟨by decide!, by rw [e], by rw [e], by rw [e], ?_⟩
  rw [h.2.2.1, e]

/-! ## Pixel-to-plane mapping: the half-open square -/

/-- C14: for every pixel `(x, y)` with `0 ≤ x < 1920` and `0 ≤ y < 1080` the mapped
point is `real = (x - 960)/480`, `imag = (y - 540)/270`; both lie in `[-2, 2)`;
the value `-2` is attained exactly at `x = 0`, respectively `y = 0`, and the
value 2 by no pixel. -/
theorem pixelPoint_half_open (x y : ℤ) (hx0 : 0 ≤ x) (hx1 : x < 1920) (hy0 : 0 ≤ y)
    (hy1 : y < 1080) :
    ((pixelPoint x y).re = ((x : ℚ) - 960) / 480 ∧
      (pixelPoint x y).im = ((y : ℚ) - 540) / 270) ∧
    (-2 ≤ (pixelPoint x y).re ∧ (pixelPoint x y).re < 2) ∧
    (-2 ≤ (pixelPoint x y).im ∧ (pixelPoint x y).im < 2) ∧
    ((pixelPoint x y).re = -2 ↔ x = 0) ∧ ((pixelPoint x y).im = -2 ↔ y = 0) ∧
    (pixelPoint x y).re ≠ 2 ∧ (pixelPoint x y).im ≠ 2 := by
  have hx0q : (0 : ℚ) ≤ (x : ℚ) := by exact_mod_cast hx0
  have hx1q : (x : ℚ) < 1920 := by exact_mod_cast hx1
  have hy0q : (0 : ℚ) ≤ (y : ℚ) := by exact_mod_cast hy0
  have hy1q : (y : ℚ) < 1080 := by exact_mod_cast hy1
  have hre : (pixelPoint x y).re = ((x : ℚ) - 960) / 480 := by
    rw [pixelPoint_eq]
    show ((x : ℚ) - 960) * 4 / 1920 = ((x : ℚ) - 960) / 480
    ring
  have him : (pixelPoint x y).im = ((y : ℚ) - 540) / 270 := by
    rw [pixelPoint_eq]
    show ((y : ℚ) - 540) * 4 / 1080 = ((y : ℚ) - 540) / 270
    ring
  have hre1 : -2 ≤ ((x : ℚ) - 960) / 480 := by
    rw [le_div_iff₀ (by norm_num)]; linarith
  have hre2 : ((x : ℚ) - 960) / 480 < 2 := by
    rw [div_lt_iff₀ (by norm_num)]; linarith
  have him1 : -2 ≤ ((y : ℚ) - 540) / 270 := by
    rw [le_div_iff₀ (by norm_num)]; linarith
  have him2 : ((y : ℚ) - 540) / 270 < 2 := by
    rw [div_lt_iff₀ (by norm_num)]; linarith
  have hxq : ((x : ℚ) - 960) / 480 = -2 ↔ x = 0 := by
    rw [div_eq_iff (by norm_num)]
    constructor
    · intro h
      have : (x : ℚ) = 0 := by linarith
      exact_mod_cast this
    · rintro rfl
      norm_num
  have hyq : ((y : ℚ) - 540) / 270 = -2 ↔ y = 0 := by
    rw [div_eq_iff (by norm_num)]
    constructor
    · intro h
      have : (y : ℚ) = 0 := by linarith
      exact_mod_cast this
    · rintro rfl
      norm_num
  rw [hre, him]
  exact ⟨⟨rfl, rfl⟩, ⟨hre1, hre2⟩, ⟨him1, him2⟩, hxq, hyq, ne_of_lt hre2, ne_of_lt him2⟩

/-- C14 at the pixel `(0, 0)`: it is mapped to `(-2, -2)`. -/
theorem pixelPoint_half_open_witness :
    (pixelPoint 0 0).re = -2 ∧ (pixelPoint 0 0).im = -2 ∧ pixelPoint 0 0 = complex (-2) (-2) :=
  have h := pixelPoint_half_open 0 0 (by decide) (by decide) (by decide) (by decide)
  ⟨h.2.2.2.1.mpr rfl, h.2.2.2.2.1.mpr rfl, by decide!⟩

/-! ## Symmetry under complex conjugation -/

theorem Complex128.conj_zero : (0 : Complex128).conj = 0 := by
  apply Complex128.ext_parts
  · rfl
  · show -(0 : ℚ) = 0
    norm_num

/-- Conjugation commutes with the assignment `z = z*z + c`. -/
theorem Complex128.conj_step (z c : Complex128) :
    z.conj * z.conj + c.conj = (z * z + c).conj := by
  apply Complex128.ext_parts
  · show z.re * z.re - -z.im * -z.im + c.re = z.re * z.re - z.im * z.im + c.re
    ring
  · show z.re * -z.im + -z.im * z.re + -c.im = -(z.re * z.im + z.im * z.re + c.im)
    ring

/-- Conjugation does not change the magnitude, hence not the escape test. -/
theorem absGtTwo_conj (z : Complex128) : absGtTwo z.conj ↔ absGtTwo z := by
  have h : z.conj.normSq = z.normSq := by
    show z.re * z.re + -z.im * -z.im = z.re * z.re + z.im * z.im
    ring
  unfold absGtTwo
  rw [h]

theorem mandelbrotLoop_conj (c : Complex128) :
    ∀ (d : ℕ) (n : ℤ) (z : Complex128), (MaxIterations - n).toNat = d →
      mandelbrotLoop c.conj n z.conj = mandelbrotLoop c n z := by
  intro d
  induction d with
  | zero =>
    intro n z hd
    have hn : ¬ n < MaxIterations := by omega
    rw [mandelbrotLoop_done _ n _ hn, mandelbrotLoop_done _ n _ hn]
  | succ d ih =>
    intro n z hd
    have hn : n < MaxIterations := by omega
    rw [mandelbrotLoop_step _ n _ hn, mandelbrotLoop_step _ n _ hn, Complex128.conj_step]
    by_cases hesc : absGtTwo (z * z + c)
    · rw [if_pos hesc, if_pos ((absGtTwo_conj _).mpr hesc)]
    · rw [if_neg hesc, if_neg (fun h => hesc ((absGtTwo_conj _).mp h))]
      exact ih (n + 1) (z * z + c) (by omega)

theorem mandelbrot_conj (c : Complex128) : mandelbrot c.conj = mandelbrot c := by
  have h := mandelbrotLoop_conj c _ 0 0 rfl
  rw [Complex128.conj_zero] at h
  exact h

/-- The rows `y` and `Height - y` are mapped to conjugate points. -/
theorem pixelPoint_mirror (x y : ℤ) : pixelPoint x (Height - y) = (pixelPoint x y).conj := by
  rw [pixelPoint_eq, pixelPoint_eq]
  apply Complex128.ext_parts
  · rfl
  · show (((Height - y : ℤ) : ℚ) - 540) * 4 / 1080 = -(((y : ℚ) - 540) * 4 / 1080)
    unfold Height
    push_cast
    ring

/-- C15: `mandelbrot` is invariant under complex conjugation, and therefore the
rendered image is mirror-symmetric about the row `y = Height/2`: for every `x` in
`[0, Width)` and every `y` with `1 ≤ y ≤ Height - 1`, the pixels `(x, y)` and
`(x, Height - y)` are mapped to conjugate points and hold the same colour. -/
theorem mandelbrot_mirror_symmetry :
    (∀ c : Complex128, mandelbrot c.conj = mandelbrot c) ∧
    (∀ x y : ℤ, 0 ≤ x → x < Width → 1 ≤ y → y ≤ Height - 1 →
      pixelPoint x (Height - y) = (pixelPoint x y).conj ∧
      pixelColor x (Height - y) = pixelColor x y ∧
      render.RGBAAt x (Height - y) = render.RGBAAt x y) := by
  refine ⟨mandelbrot_conj, fun x y hx0 hx1 hy0 hy1 => ?_⟩
  have hc : pixelColor x (Height - y) = pixelColor x y := by
    unfold pixelColor
    rw [pixelPoint_mirror, mandelbrot_conj]
  refine ⟨pixelPoint_mirror x y, hc, ?_⟩
  rw [render_RGBAAt x (Height - y) ⟨hx0, hx1⟩ ⟨by omega, by omega⟩,
    render_RGBAAt x y ⟨hx0, hx1⟩ ⟨by omega, by omega⟩, hc]

/-- C15 at `c = 1 + i` and at the pixels `(0, 1)` and `(0, 1079)`. -/
theorem mandelbrot_mirror_symmetry_witness :
    mandelbrot (complex 1 (-1)) = mandelbrot (complex 1 1) ∧
    render.RGBAAt 0 1079 = render.RGBAAt 0 1 :=
  ⟨mandelbrot_mirror_symmetry.1 (complex 1 1),
    (mandelbrot_mirror_symmetry.2 0 1 (by decide) (by decide) (by decide) (by decide)).2.2⟩

/-! ## The boundary point `c = -2` -/

/-- From the second iterate on, the orbit of `c = -2` sits at `2`. -/
theorem orbit_minus_two : ∀ k : ℕ, orbit (complex (-2) 0) (k + 2) = complex 2 0 := by
  intro k
  induction k with
  | zero => decide!
  | succ k ih =>
    show orbit (complex (-2) 0) (k + 2) * orbit (complex (-2) 0) (k + 2) + complex (-2) 0 =
      complex 2 0
    rw [ih]
    decide!

/-- Every iterate of `c = -2` has squared magnitude exactly 4. -/
theorem orbit_minus_two_normSq (m : ℕ) : (orbit (complex (-2) 0) (m + 1)).normSq = 4 := by
  cases m with
  | zero => decide!
  | succ m =>
    rw [orbit_minus_two m]
    decide!

/-- C16: the escape test is the strict comparison `|z| > 2`, so `c = -2 + 0i`, the
point of pixel `(0, 540)`, never escapes: its orbit is `-2, 2, 2, 2, ...` with
magnitude exactly 2, `mandelbrot(-2) = MaxIterations`, and the pixel is coloured
opaque black. -/
theorem mandelbrot_minus_two :
    pixelPoint 0 540 = complex (-2) 0 ∧
    orbit (complex (-2) 0) 1 = complex (-2) 0 ∧
    (∀ k : ℕ, orbit (complex (-2) 0) (k + 2) = complex 2 0) ∧
    (∀ m : ℕ, (orbit (complex (-2) 0) (m + 1)).normSq = 4 ∧
      ¬ absGtTwo (orbit (complex (-2) 0) (m + 1))) ∧
    mandelbrot (complex (-2) 0) = MaxIterations ∧
    render.RGBAAt 0 540 = ⟨0, 0, 0, 255⟩ := by
  have hp : pixelPoint 0 540 = complex (-2) 0 := by decide!
  have hno : ∀ m : ℕ, ¬ absGtTwo (orbit (complex (-2) 0) (m + 1)) := by
    intro m h
    unfold absGtTwo at h
    rw [orbit_minus_two_normSq m] at h
    exact absurd h (lt_irrefl _)
  have hm : mandelbrot (complex (-2) 0) = MaxIterations :=
    mandelbrotLoop_noescape (complex (-2) 0) 5000 0 (by simp [MaxIterations])
      (fun m _ _ => hno m)
  refine ⟨hp, by decide!, orbit_minus_two, fun m => ⟨orbit_minus_two_normSq m, hno m⟩, hm, ?_⟩
  rw [render_RGBAAt 0 540 (by decide) (by decide)]
  unfold pixelColor
  rw [hp, hm]
  decide!

/-! ## The disc of radius 1/4 -/

/-- The comparison `|z| ≤ r` on squares: `re² + im² ≤ r²` is the comparison of the
Euclidean norm with `r ≥ 0`. -/
theorem cmplxAbs_le_iff (z : Complex128) (r : ℚ) (hr : 0 ≤ r) :
    z.normSq ≤ r * r ↔ Real.sqrt ((z.re : ℝ) ^ 2 + (z.im : ℝ) ^ 2) ≤ (r : ℝ) := by
  have hr' : (0 : ℝ) ≤ (r : ℝ) := by exact_mod_cast hr
  have hcast : z.normSq ≤ r * r ↔ (z.re : ℝ) ^ 2 + (z.im : ℝ) ^ 2 ≤ (r : ℝ) ^ 2 := by
    unfold Complex128.normSq
    rw [← Rat.cast_le (K := ℝ)]
    push_cast
    rw [pow_two, pow_two, pow_two]
  rw [hcast, Real.sqrt_le_iff]
  exact ⟨fun h => ⟨hr', h⟩, fun h => h.2⟩

/-- One step of the iteration keeps the disc `|z| ≤ 1/2` when `|c| ≤ 1/4`:
`|z*z + c|² = |z|⁴ + |c|² + 2 Re(z² c̄) ≤ 1/16 + 1/16 + 2/16`. -/
theorem normSq_step_le (z c : Complex128) (hz : z.normSq ≤ 1 / 4) (hc : c.normSq ≤ 1 / 16) :
    (z * z + c).normSq ≤ 1 / 4 := by
  obtain ⟨a, b⟩ := z
  obtain ⟨u, v⟩ := c
  have hz' : a * a + b * b ≤ 1 / 4 := hz
  have hc' : u * u + v * v ≤ 1 / 16 := hc
  show (a * a - b * b + u) * (a * a - b * b + u) + (a * b + b * a + v) * (a * b + b * a + v) ≤
    1 / 4
  have hz0 : 0 ≤ a * a + b * b := add_nonneg (mul_self_nonneg a) (mul_self_nonneg b)
  have hc0 : 0 ≤ u * u + v * v := add_nonneg (mul_self_nonneg u) (mul_self_nonneg v)
  have hw : (a * a - b * b) * (a * a - b * b) + (a * b + b * a) * (a * b + b * a) ≤ 1 / 16 := by
    have e : (a * a - b * b) * (a * a - b * b) + (a * b + b * a) * (a * b + b * a) =
        (a * a + b * b) * (a * a + b * b) := by ring
    rw [e]
    calc (a * a + b * b) * (a * a + b * b) ≤ 1 / 4 * (1 / 4) :=
          mul_le_mul hz' hz' hz0 (by norm_num)
      _ = 1 / 16 := by norm_num
  have hcs : ((a * a - b * b) * u + (a * b + b * a) * v) *
      ((a * a - b * b) * u + (a * b + b * a) * v) ≤ 1 / 16 * (1 / 16) := by
    have e : ((a * a - b * b) * u + (a * b + b * a) * v) *
        ((a * a - b * b) * u + (a * b + b * a) * v) =
        ((a * a - b * b) * (a * a - b * b) + (a * b + b * a) * (a * b + b * a)) *
          (u * u + v * v) -
        ((a * a - b * b) * v - (a * b + b * a) * u) *
          ((a * a - b * b) * v - (a * b + b * a) * u) := by ring
    have hsq : 0 ≤ ((a * a - b * b) * v - (a * b + b * a) * u) *
        ((a * a - b * b) * v - (a * b + b * a) * u) := mul_self_nonneg _
    have hprod := mul_le_mul hw hc' hc0 (by norm_num : (0 : ℚ) ≤ 1 / 16)
    linarith
  have hp : (a * a - b * b) * u + (a * b + b * a) * v ≤ 1 / 16 := by
    by_contra hcon
    have hgt : 1 / 16 < (a * a - b * b) * u + (a * b + b * a) * v := not_le.mp hcon
    have := mul_lt_mul'' hgt hgt (by norm_num) (by norm_num)
    linarith
  linarith

/-- C17: taking the arithmetic as exact, for every point `c` with `|c| ≤ 1/4` (that
is `re² + im² ≤ 1/16`) every iterate of `z ↦ z*z + c` from `z = 0` has magnitude at
most `1/2` (squared magnitude at most `1/4`), none passes the escape test, and
`mandelbrot c = MaxIterations`. -/
theorem mandelbrot_quarter_disc (c : Complex128) (h : c.normSq ≤ 1 / 16) :
    (∀ k : ℕ, (orbit c k).normSq ≤ 1 / 4) ∧
    (∀ k : ℕ, ¬ absGtTwo (orbit c k)) ∧
    mandelbrot c = MaxIterations := by
  have horb : ∀ k : ℕ, (orbit c k).normSq ≤ 1 / 4 := by
    intro k
    induction k with
    | zero =>
      show (0 : ℚ) * 0 + 0 * 0 ≤ 1 / 4
      norm_num
    | succ k ih => exact normSq_step_le (orbit c k) c ih h
  have hno : ∀ k : ℕ, ¬ absGtTwo (orbit c k) := by
    intro k hk
    have := horb k
    unfold absGtTwo at hk
    linarith
  exact ⟨horb, hno, mandelbrotLoop_noescape c 5000 0 (by simp [MaxIterations])
    (fun m _ _ => hno (m + 1))⟩

/-- C17 at `c = 1/4 + 0i`, on the boundary of the disc. -/
theorem mandelbrot_quarter_disc_witness :
    (complex (1 / 4) 0).normSq ≤ 1 / 16 ∧ mandelbrot (complex (1 / 4) 0) = MaxIterations :=
  ⟨by decide!, (mandelbrot_quarter_disc (complex (1 / 4) 0) (by decide!)).2.2⟩

/-! ## The loop of `mandelbrot` under any arithmetic -/

theorem mandelbrotLoopWith_step (ar : Arith) (c : Complex128) (n : ℤ) (z : Complex128)
    (hn : n < MaxIterations) :
    mandelbrotLoopWith ar c n z =
      if ar.absGtTwo (ar.step z c) then n else mandelbrotLoopWith ar c (n + 1) (ar.step z c) := by
  rw [mandelbrotLoopWith]
  simp [hn]

theorem mandelbrotLoopWith_done (ar : Arith) (c : Complex128) (n : ℤ) (z : Complex128)
    (hn : ¬ n < MaxIterations) :
    mandelbrotLoopWith ar c n z = MaxIterations := by
  rw [mandelbrotLoopWith]
  simp [hn]

/-- From counter `n` with `z` the `n`-th computed iterate: if the first later
iterate to pass the test is the one of iteration `n + d`, the loop returns
`n + d`. -/
theorem mandelbrotLoopWith_escape (ar : Arith) (c : Complex128) :
    ∀ (d n : ℕ), ((n + d : ℕ) : ℤ) < MaxIterations →
      ar.absGtTwo (orbitWith ar c (n + d + 1)) = true →
      (∀ m, n ≤ m → m < n + d → ar.absGtTwo (orbitWith ar c (m + 1)) = false) →
      mandelbrotLoopWith ar c (n : ℤ) (orbitWith ar c n) = ((n + d : ℕ) : ℤ) := by
  intro d
  induction d with
  | zero =>
    intro n hn hesc _
    rw [mandelbrotLoopWith_step ar c n _ (by simpa using hn)]
    have : ar.absGtTwo (ar.step (orbitWith ar c n) c) = true := hesc
    simp [this]
  | succ d ih =>
    intro n hn hesc hno
    have hn1 : (n : ℤ) < MaxIterations := by
      have : ((n : ℕ) : ℤ) ≤ ((n + (d + 1) : ℕ) : ℤ) := by push_cast; omega
      omega
    rw [mandelbrotLoopWith_step ar c n _ hn1]
    have h0 : ar.absGtTwo (ar.step (orbitWith ar c n) c) = false := hno n le_rfl (by omega)
    rw [h0]
    have hcast : ((n : ℤ) + 1) = ((n + 1 : ℕ) : ℤ) := by push_cast; rfl
    have harg : ar.step (orbitWith ar c n) c = orbitWith ar c (n + 1) := rfl
    simp only [Bool.false_eq_true, if_false]
    rw [hcast, harg]
    have e : n + 1 + d = n + (d + 1) := by omega
    have := ih (n + 1) (by rw [e]; exact hn) (by rw [e]; exact hesc)
      (fun m h1 h2 => hno m (by omega) (by omega))
    rw [this, e]

/-- From counter `n` with `z` the `n`-th computed iterate: if no later iterate
passes the test before the cap, the loop returns `MaxIterations`. -/
theorem mandelbrotLoopWith_noescape (ar : Arith) (c : Complex128) :
    ∀ (d n : ℕ), ((n + d : ℕ) : ℤ) = MaxIterations →
      (∀ m, n ≤ m → (m : ℤ) < MaxIterations →
        ar.absGtTwo (orbitWith ar c (m + 1)) = false) →
      mandelbrotLoopWith ar c (n : ℤ) (orbitWith ar c n) = MaxIterations := by
  intro d
  induction d with
  | zero =>
    intro n hn _
    exact mandelbrotLoopWith_done ar c n _ (by simp at hn; omega)
  | succ d ih =>
    intro n hn hno
    have hn1 : (n : ℤ) < MaxIterations := by
      push_cast at hn; omega
    rw [mandelbrotLoopWith_step ar c n _ hn1]
    have h0 : ar.absGtTwo (ar.step (orbitWith ar c n) c) = false := hno n le_rfl hn1
    rw [h0]
    have hcast : ((n : ℤ) + 1) = ((n + 1 : ℕ) : ℤ) := by push_cast; rfl
    have harg : ar.step (orbitWith ar c n) c = orbitWith ar c (n + 1) := rfl
    simp only [Bool.false_eq_true, if_false]
    rw [hcast, harg]
    exact ih (n + 1) (by push_cast at hn ⊢; omega) (fun m h1 h2 => hno m (by omega) h2)

/-- Under exact arithmetic the step is `z*z + c`. -/
theorem exactArith_step (z c : Complex128) : exactArith.step z c = z * z + c := rfl

theorem exactArith_absGtTwo (z : Complex128) : exactArith.absGtTwo z = true ↔ absGtTwo z := by
  show decide (absGtTwo z) = true ↔ absGtTwo z
  exact decide_eq_true_iff

/-- Under exact arithmetic the loop is `mandelbrotLoop`. -/
theorem mandelbrotLoopWith_exactArith (c : Complex128) :
    ∀ (d : ℕ) (n : ℤ) (z : Complex128), (MaxIterations - n).toNat = d →
      mandelbrotLoopWith exactArith c n z = mandelbrotLoop c n z := by
  intro d
  induction d with
  | zero =>
    intro n z hd
    have hn : ¬ n < MaxIterations := by omega
    rw [mandelbrotLoopWith_done _ c n z hn, mandelbrotLoop_done c n z hn]
  | succ d ih =>
    intro n z hd
    have hn : n < MaxIterations := by omega
    rw [mandelbrotLoopWith_step _ c n z hn, mandelbrotLoop_step c n z hn, exactArith_step]
    by_cases hesc : absGtTwo (z * z + c)
    · rw [if_pos hesc, if_pos ((exactArith_absGtTwo _).mpr hesc)]
    · rw [if_neg hesc, if_neg (fun h => hesc ((exactArith_absGtTwo _).mp h))]
      exact ih (n + 1) _ (by omega)

theorem mandelbrotWith_exactArith (c : Complex128) :
    mandelbrotWith exactArith c = mandelbrot c :=
  mandelbrotLoopWith_exactArith c _ 0 0 rfl

theorem orbitWith_exactArith (c : Complex128) : ∀ k : ℕ, orbitWith exactArith c k = orbit c k := by
  intro k
  induction k with
  | zero => rfl
  | succ k ih =>
    show exactArith.step (orbitWith exactArith c k) c = orbit c k * orbit c k + c
    rw [ih, exactArith_step]

/-! ## Evaluating binary64 roundings -/

/-- A value within less than 1/2 of an integer rounds to that integer. -/
theorem roundHalfEven_eq_of_close (m : ℚ) (n : ℤ) (h1 : (n : ℚ) - 1 / 2 < m)
    (h2 : m < (n : ℚ) + 1 / 2) : roundHalfEven m = n := by
  have hf1 := Int.floor_le m
  have hf2 := Int.lt_floor_add_one m
  have hlo : n - 1 ≤ ⌊m⌋ := by
    have : ((n - 1 : ℤ) : ℚ) < (⌊m⌋ : ℚ) + 1 := by push_cast; linarith
    have : (n - 1 : ℤ) < ⌊m⌋ + 1 := by exact_mod_cast this
    omega
  have hhi : ⌊m⌋ ≤ n := by
    have : ((⌊m⌋ : ℤ) : ℚ) < ((n + 1 : ℤ) : ℚ) := by push_cast; linarith
    have : ⌊m⌋ < n + 1 := by exact_mod_cast this
    omega
  rcases (by omega : ⌊m⌋ = n ∨ ⌊m⌋ = n - 1) with hfl | hfl
  · have hc : m - (⌊m⌋ : ℚ) < 1 / 2 := by rw [hfl]; linarith
    unfold roundHalfEven
    rw [if_pos hc, hfl]
  · have hcast : ((⌊m⌋ : ℤ) : ℚ) = (n : ℚ) - 1 := by rw [hfl]; push_cast; ring
    have hc1 : ¬ m - (⌊m⌋ : ℚ) < 1 / 2 := by rw [hcast]; linarith
    have hc2 : 1 / 2 < m - (⌊m⌋ : ℚ) := by rw [hcast]; linarith
    unfold roundHalfEven
    rw [if_neg hc1, if_pos hc2, hfl]
    ring

/-- The binary logarithm of a positive rational from the binade it lies in. -/
theorem log_two_eq (q : ℚ) (k : ℤ) (h1 : (2 : ℚ) ^ k ≤ q) (h2 : q < (2 : ℚ) ^ (k + 1)) :
    Int.log 2 q = k := by
  have hq : 0 < q := lt_of_lt_of_le (by positivity) h1
  have a1 : k ≤ Int.log 2 q := by
    rw [← Int.zpow_le_iff_le_log (by norm_num) hq]
    exact_mod_cast h1
  have a2 : Int.log 2 q < k + 1 := by
    rw [← Int.lt_zpow_iff_log_lt (by norm_num) hq]
    exact_mod_cast h2
  omega

/-- Rounding a positive value: if `q * 2^k` lies in `[2^52, 2^53)` and within less
than 1/2 of the natural number `n`, then `round64 q = n / 2^k`. -/
theorem round64_eval (q v : ℚ) (n k : ℕ) (hv : v = (n : ℚ) / 2 ^ k)
    (h1 : (2 : ℚ) ^ 52 ≤ q * 2 ^ k) (h2 : q * 2 ^ k < 2 ^ 53)
    (h3 : (n : ℚ) - 1 / 2 < q * 2 ^ k) (h4 : q * 2 ^ k < (n : ℚ) + 1 / 2) :
    round64 q = v := by
  have hk : (0 : ℚ) < 2 ^ k := by positivity
  have hq : 0 < q := by
    by_contra hcon
    have : q * 2 ^ k ≤ 0 := mul_nonpos_of_nonpos_of_nonneg (not_lt.mp hcon) hk.le
    have : (0 : ℚ) < 2 ^ 52 := by positivity
    linarith
  have hpow : ∀ j : ℕ, (2 : ℚ) ^ ((j : ℤ) - (k : ℤ)) = 2 ^ j / 2 ^ k := by
    intro j
    rw [zpow_sub₀ (by norm_num), zpow_natCast, zpow_natCast]
  have hlog : Int.log 2 |q| = (52 : ℤ) - k := by
    rw [abs_of_pos hq]
    apply log_two_eq
    · have := hpow 52
      simp only [Nat.cast_ofNat] at this
      rw [this, div_le_iff₀ hk]
      exact h1
    · have e : (52 : ℤ) - k + 1 = ((53 : ℕ) : ℤ) - (k : ℤ) := by push_cast; ring
      rw [e, hpow 53, lt_div_iff₀ hk]
      exact h2
  have he : Int.log 2 |q| - 52 = -(k : ℤ) := by rw [hlog]; ring
  have hsc : |q| / (2 : ℚ) ^ (-(k : ℤ)) = q * 2 ^ k := by
    rw [abs_of_pos hq, zpow_neg, zpow_natCast, div_inv_eq_mul]
  have hr : roundHalfEven (q * 2 ^ k) = (n : ℤ) :=
    roundHalfEven_eq_of_close _ _ (by exact_mod_cast h3) (by exact_mod_cast h4)
  have hne : q ≠ 0 := ne_of_gt hq
  simp only [round64, if_neg hne, if_pos hq, he, hsc, hr]
  rw [hv, zpow_neg, zpow_natCast]
  push_cast
  ring

/-- Rounding is symmetric under negation. -/
theorem round64_neg (q : ℚ) : round64 (-q) = -round64 q := by
  by_cases hq : q = 0
  · simp [hq, round64]
  have hnq : -q ≠ 0 := neg_ne_zero.mpr hq
  rcases lt_or_gt_of_ne hq with hneg | hpos
  · have h1 : (0 : ℚ) < -q := by linarith
    have h2 : ¬ (0 : ℚ) < q := by linarith
    simp only [round64, if_neg hq, if_neg hnq, if_pos h1, if_neg h2, abs_neg, neg_neg]
  · have h1 : ¬ (0 : ℚ) < -q := by linarith
    simp only [round64, if_neg hq, if_neg hnq, if_neg h1, if_pos hpos, abs_neg]

theorem round64_zero : round64 0 = 0 := by simp [round64]

/-- Rounding a negative value, from the rounding of its magnitude. -/
theorem round64_eval_neg (q v : ℚ) (n k : ℕ) (hv : v = -((n : ℚ) / 2 ^ k))
    (h1 : (2 : ℚ) ^ 52 ≤ -q * 2 ^ k) (h2 : -q * 2 ^ k < 2 ^ 53)
    (h3 : (n : ℚ) - 1 / 2 < -q * 2 ^ k) (h4 : -q * 2 ^ k < (n : ℚ) + 1 / 2) :
    round64 q = v := by
  have := round64_eval (-q) ((n : ℚ) / 2 ^ k) n k rfl h1 h2 h3 h4
  rw [round64_neg] at this
  rw [hv, ← this, neg_neg]

/-- The lemma `round64_eval` with its side conditions as one conjunction. -/
theorem round64_at (q v : ℚ) (n k : ℕ)
    (h : v = (n : ℚ) / 2 ^ k ∧ (2 : ℚ) ^ 52 ≤ q * 2 ^ k ∧ q * 2 ^ k < 2 ^ 53 ∧
      (n : ℚ) - 1 / 2 < q * 2 ^ k ∧ q * 2 ^ k < (n : ℚ) + 1 / 2) : round64 q = v :=
  round64_eval q v n k h.1 h.2.1 h.2.2.1 h.2.2.2.1 h.2.2.2.2

/-- The lemma `round64_eval_neg` with its side conditions as one conjunction. -/
theorem round64_neg_at (q v : ℚ) (n k : ℕ)
    (h : v = -((n : ℚ) / 2 ^ k) ∧ (2 : ℚ) ^ 52 ≤ -q * 2 ^ k ∧ -q * 2 ^ k < 2 ^ 53 ∧
      (n : ℚ) - 1 / 2 < -q * 2 ^ k ∧ -q * 2 ^ k < (n : ℚ) + 1 / 2) : round64 q = v :=
  round64_eval_neg q v n k h.1 h.2.1 h.2.2.1 h.2.2.2.1 h.2.2.2.2

theorem round64_eval_zero (q : ℚ) (hq : q = 0) : round64 q = 0 := by
  rw [hq]
  exact round64_zero

/-- The pieces of `sqrt64 x` for `1 ≤ x < 4`: the exponent is `-52` and the scaled
argument `x * 2^104` has integer root `m`. -/
theorem sqrt64_unfold (x : ℚ) (m : ℕ) (hx1 : 1 ≤ x) (hx2 : x < 4)
    (hm1 : (m : ℚ) * m ≤ x * 2 ^ 104) (hm2 : x * 2 ^ 104 < ((m : ℚ) + 1) * ((m : ℚ) + 1)) :
    sqrt64 x =
      if x * 2 ^ 104 < (m : ℚ) * m + m + 1 / 4 then (m : ℚ) / 2 ^ 52
      else if (m : ℚ) * m + m + 1 / 4 < x * 2 ^ 104 then ((m : ℚ) + 1) / 2 ^ 52
      else if m % 2 = 0 then (m : ℚ) / 2 ^ 52 else ((m : ℚ) + 1) / 2 ^ 52 := by
  have hx0 : ¬ x ≤ 0 := by linarith
  have hlog : Int.log 2 x / 2 - 52 = -52 := by
    rcases lt_or_le x 2 with h | h
    · rw [log_two_eq x 0 (by simpa using hx1) (by simpa using h)]
      rfl
    · rw [log_two_eq x 1 (by simpa using h) (by norm_num; linarith)]
      rfl
  have hs : x / (4 : ℚ) ^ (-52 : ℤ) = x * 2 ^ 104 := by
    rw [zpow_neg, div_inv_eq_mul]
    norm_num
  have hpow : (2 : ℚ) ^ (-52 : ℤ) = 1 / 2 ^ 52 := by
    rw [zpow_neg]
    norm_num
  have hs0 : (0 : ℚ) ≤ x * 2 ^ 104 := by positivity
  have hroot : Nat.sqrt ⌊x * 2 ^ 104⌋₊ = m := by
    symm
    rw [Nat.eq_sqrt]
    constructor
    · apply Nat.le_floor
      push_cast
      exact hm1
    · rw [Nat.floor_lt hs0]
      push_cast
      exact hm2
  simp only [sqrt64, if_neg hx0, hlog, hs, hroot, hpow]
  split_ifs <;> ring

theorem sqrt64_eval_down (x v : ℚ) (m : ℕ) (hv : v = (m : ℚ) / 2 ^ 52) (hx1 : 1 ≤ x)
    (hx2 : x < 4) (hm1 : (m : ℚ) * m ≤ x * 2 ^ 104)
    (hd : x * 2 ^ 104 < (m : ℚ) * m + m + 1 / 4) : sqrt64 x = v := by
  rw [sqrt64_unfold x m hx1 hx2 hm1 (by nlinarith), if_pos hd, hv]

theorem sqrt64_eval_up (x v : ℚ) (m : ℕ) (hv : v = ((m : ℚ) + 1) / 2 ^ 52) (hx1 : 1 ≤ x)
    (hx2 : x < 4) (hm2 : x * 2 ^ 104 < ((m : ℚ) + 1) * ((m : ℚ) + 1))
    (hu : (m : ℚ) * m + m + 1 / 4 < x * 2 ^ 104) : sqrt64 x = v := by
  have hm0 : (0 : ℚ) ≤ (m : ℚ) := Nat.cast_nonneg m
  rw [sqrt64_unfold x m hx1 hx2 (by nlinarith) hm2, if_neg (by linarith), if_pos hu, hv]

/-- The lemma `sqrt64_eval_down` with its side conditions as one conjunction. -/
theorem sqrt64_down_at (x v : ℚ) (m : ℕ)
    (h : v = (m : ℚ) / 2 ^ 52 ∧ 1 ≤ x ∧ x < 4 ∧ (m : ℚ) * m ≤ x * 2 ^ 104 ∧
      x * 2 ^ 104 < (m : ℚ) * m + m + 1 / 4) : sqrt64 x = v :=
  sqrt64_eval_down x v m h.1 h.2.1 h.2.2.1 h.2.2.2.1 h.2.2.2.2

/-- The lemma `sqrt64_eval_up` with its side conditions as one conjunction. -/
theorem sqrt64_up_at (x v : ℚ) (m : ℕ)
    (h : v = ((m : ℚ) + 1) / 2 ^ 52 ∧ 1 ≤ x ∧ x < 4 ∧
      x * 2 ^ 104 < ((m : ℚ) + 1) * ((m : ℚ) + 1) ∧
      (m : ℚ) * m + m + 1 / 4 < x * 2 ^ 104) : sqrt64 x = v :=
  sqrt64_eval_up x v m h.1 h.2.1 h.2.2.1 h.2.2.2.1 h.2.2.2.2

/-- One assignment `z = z*z + c` in binary64, from the eight roundings it makes. -/
theorem binary64_step_eval (a b cr ci aa bb d re ab ba s im : ℚ)
    (h1 : round64 (a * a) = aa) (h2 : round64 (b * b) = bb) (h3 : round64 (aa - bb) = d)
    (h4 : round64 (d + cr) = re) (h5 : round64 (a * b) = ab) (h6 : round64 (b * a) = ba)
    (h7 : round64 (ab + ba) = s) (h8 : round64 (s + ci) = im) :
    binary64.step ⟨a, b⟩ ⟨cr, ci⟩ = ⟨re, im⟩ := by
  show (⟨round64 (round64 (round64 (a * a) - round64 (b * b)) + cr),
    round64 (round64 (round64 (a * b) + round64 (b * a)) + ci)⟩ : Complex128) = ⟨re, im⟩
  rw [h1, h2, h3, h4, h5, h6, h7, h8]

/-- One call of `math.Hypot` in binary64 with `|p| ≥ |q|`, `p ≠ 0`, from the four
roundings and the square root it makes. -/
theorem hypot64_eval (p q ap aq r s t w h : ℚ) (hap : |p| = ap) (haq : |q| = aq)
    (hle : ¬ ap < aq) (hp0 : ap ≠ 0) (h1 : round64 (aq / ap) = r)
    (h2 : round64 (r * r) = s) (h3 : round64 (1 + s) = t) (h4 : sqrt64 t = w)
    (h5 : round64 (ap * w) = h) : hypot64 p q = h := by
  simp only [hypot64, hap, haq, if_neg hle, if_neg hp0, h1, h2, h3, h4, h5]

/-! ## Traces of the loop in binary64

One lemma per executed assignment `z = z*z + c` (`_step`) and per evaluated
`cmplx.Abs(z)` (`_abs`) at the points `-2 + 2^-30 i`, `2 + 2^-30 i`, `1` and `-2`;
each lists the rounding of every operation. -/

theorem nearMinusTwo_step0 :
    binary64.step ⟨0, 0⟩ ⟨(-2), (1 / 2 ^ 30)⟩ = ⟨(-2), (1 / 2 ^ 30)⟩ :=
  binary64_step_eval 0 0 (-2) (1 / 2 ^ 30)
    0 0 0 (-2)
    0 0 0 (1 / 2 ^ 30)
    (round64_eval_zero (0 * 0) (by norm_num))
    (round64_eval_zero (0 * 0) (by norm_num))
    (round64_eval_zero (0 - 0) (by norm_num))
    (round64_neg_at (0 + (-2)) (-2) 4503599627370496 51 (by norm_num))
    (round64_eval_zero (0 * 0) (by norm_num))
    (round64_eval_zero (0 * 0) (by norm_num))
    (round64_eval_zero (0 + 0) (by norm_num))
    (round64_at (0 + (1 / 2 ^ 30)) (1 / 2 ^ 30) 4503599627370496 82 (by norm_num))

theorem nearMinusTwo_abs0 : hypot64 (-2) (1 / 2 ^ 30) = 2 :=
  hypot64_eval (-2) (1 / 2 ^ 30) 2 (1 / 2 ^ 30)
    (1 / 2 ^ 31) (1 / 2 ^ 62) 1 1 2
    (by norm_num [abs_of_nonneg, abs_of_neg]) (by norm_num [abs_of_nonneg, abs_of_neg])
    (by norm_num) (by norm_num)
    (round64_at ((1 / 2 ^ 30) / 2) (1 / 2 ^ 31) 4503599627370496 83 (by norm_num))
    (round64_at ((1 / 2 ^ 31) * (1 / 2 ^ 31)) (1 / 2 ^ 62) 4503599627370496 114 (by norm_num))
    (round64_at (1 + (1 / 2 ^ 62)) 1 4503599627370496 52 (by norm_num))
    (sqrt64_down_at 1 1 4503599627370496 (by norm_num))
    (round64_at (2 * 1) 2 4503599627370496 51 (by norm_num))

theorem nearMinusTwo_step1 :
    binary64.step ⟨(-2), (1 / 2 ^ 30)⟩ ⟨(-2), (1 / 2 ^ 30)⟩ = ⟨2, (-3 / 2 ^ 30)⟩ :=
  binary64_step_eval (-2) (1 / 2 ^ 30) (-2) (1 / 2 ^ 30)
    4 (1 / 2 ^ 60) 4 2
    (-1 / 2 ^ 29) (-1 / 2 ^ 29) (-1 / 2 ^ 28) (-3 / 2 ^ 30)
    (round64_at ((-2) * (-2)) 4 4503599627370496 50 (by norm_num))
    (round64_at ((1 / 2 ^ 30) * (1 / 2 ^ 30)) (1 / 2 ^ 60) 4503599627370496 112 (by norm_num))
    (round64_at (4 - (1 / 2 ^ 60)) 4 9007199254740992 51 (by norm_num))
    (round64_at (4 + (-2)) 2 4503599627370496 51 (by norm_num))
    (round64_neg_at ((-2) * (1 / 2 ^ 30)) (-1 / 2 ^ 29) 4503599627370496 81 (by norm_num))
    (round64_neg_at ((1 / 2 ^ 30) * (-2)) (-1 / 2 ^ 29) 4503599627370496 81 (by norm_num))
    (round64_neg_at ((-1 / 2 ^ 29) + (-1 / 2 ^ 29)) (-1 / 2 ^ 28) 4503599627370496 80 (by norm_num))
    (round64_neg_at ((-1 / 2 ^ 28) + (1 / 2 ^ 30)) (-3 / 2 ^ 30) 6755399441055744 81 (by norm_num))

theorem nearMinusTwo_abs1 : hypot64 2 (-3 / 2 ^ 30) = 2 :=
  hypot64_eval 2 (-3 / 2 ^ 30) 2 (3 / 2 ^ 30)
    (3 / 2 ^ 31) (9 / 2 ^ 62) 1 1 2
    (by norm_num [abs_of_nonneg, abs_of_neg]) (by norm_num [abs_of_nonneg, abs_of_neg])
    (by norm_num) (by norm_num)
    (round64_at ((3 / 2 ^ 30) / 2) (3 / 2 ^ 31) 6755399441055744 82 (by norm_num))
    (round64_at ((3 / 2 ^ 31) * (3 / 2 ^ 31)) (9 / 2 ^ 62) 5066549580791808 111 (by norm_num))
    (round64_at (1 + (9 / 2 ^ 62)) 1 4503599627370496 52 (by norm_num))
    (sqrt64_down_at 1 1 4503599627370496 (by norm_num))
    (round64_at (2 * 1) 2 4503599627370496 51 (by norm_num))

theorem nearMinusTwo_step2 :
    binary64.step ⟨2, (-3 / 2 ^ 30)⟩ ⟨(-2), (1 / 2 ^ 30)⟩ = ⟨2, (-11 / 2 ^ 30)⟩ :=
  binary64_step_eval 2 (-3 / 2 ^ 30) (-2) (1 / 2 ^ 30)
    4 (9 / 2 ^ 60) 4 2
    (-3 / 2 ^ 29) (-3 / 2 ^ 29) (-3 / 2 ^ 28) (-11 / 2 ^ 30)
    (round64_at (2 * 2) 4 4503599627370496 50 (by norm_num))
    (round64_at ((-3 / 2 ^ 30) * (-3 / 2 ^ 30)) (9 / 2 ^ 60) 5066549580791808 109 (by norm_num))
    (round64_at (4 - (9 / 2 ^ 60)) 4 9007199254740992 51 (by norm_num))
    (round64_at (4 + (-2)) 2 4503599627370496 51 (by norm_num))
    (round64_neg_at (2 * (-3 / 2 ^ 30)) (-3 / 2 ^ 29) 6755399441055744 80 (by norm_num))
    (round64_neg_at ((-3 / 2 ^ 30) * 2) (-3 / 2 ^ 29) 6755399441055744 80 (by norm_num))
    (round64_neg_at ((-3 / 2 ^ 29) + (-3 / 2 ^ 29)) (-3 / 2 ^ 28) 6755399441055744 79 (by norm_num))
    (round64_neg_at ((-3 / 2 ^ 28) + (1 / 2 ^ 30)) (-11 / 2 ^ 30) 6192449487634432 79 (by norm_num))

theorem nearMinusTwo_abs2 : hypot64 2 (-11 / 2 ^ 30) = 2 :=
  hypot64_eval 2 (-11 / 2 ^ 30) 2 (11 / 2 ^ 30)
    (11 / 2 ^ 31) (121 / 2 ^ 62) 1 1 2
    (by norm_num [abs_of_nonneg, abs_of_neg]) (by norm_num [abs_of_nonneg, abs_of_neg])
    (by norm_num) (by norm_num)
    (round64_at ((11 / 2 ^ 30) / 2) (11 / 2 ^ 31) 6192449487634432 80 (by norm_num))
    (round64_at ((11 / 2 ^ 31) * (11 / 2 ^ 31)) (121 / 2 ^ 62) 8514618045497344 108 (by norm_num))
    (round64_at (1 + (121 / 2 ^ 62)) 1 4503599627370496 52 (by norm_num))
    (sqrt64_down_at 1 1 4503599627370496 (by norm_num))
    (round64_at (2 * 1) 2 4503599627370496 51 (by norm_num))

theorem nearMinusTwo_step3 :
    binary64.step ⟨2, (-11 / 2 ^ 30)⟩ ⟨(-2), (1 / 2 ^ 30)⟩ = ⟨2, (-43 / 2 ^ 30)⟩ :=
  binary64_step_eval 2 (-11 / 2 ^ 30) (-2) (1 / 2 ^ 30)
    4 (121 / 2 ^ 60) 4 2
    (-11 / 2 ^ 29) (-11 / 2 ^ 29) (-11 / 2 ^ 28) (-43 / 2 ^ 30)
    (round64_at (2 * 2) 4 4503599627370496 50 (by norm_num))
    (round64_at ((-11 / 2 ^ 30) * (-11 / 2 ^ 30)) (121 / 2 ^ 60) 8514618045497344 106 (by norm_num))
    (round64_at (4 - (121 / 2 ^ 60)) 4 9007199254740992 51 (by norm_num))
    (round64_at (4 + (-2)) 2 4503599627370496 51 (by norm_num))
    (round64_neg_at (2 * (-11 / 2 ^ 30)) (-11 / 2 ^ 29) 6192449487634432 78 (by norm_num))
    (round64_neg_at ((-11 / 2 ^ 30) * 2) (-11 / 2 ^ 29) 6192449487634432 78 (by norm_num))
    (round64_neg_at ((-11 / 2 ^ 29) + (-11 / 2 ^ 29)) (-11 / 2 ^ 28) 6192449487634432 77 (by norm_num))
    (round64_neg_at ((-11 / 2 ^ 28) + (1 / 2 ^ 30)) (-43 / 2 ^ 30) 6051711999279104 77 (by norm_num))

theorem nearMinusTwo_abs3 : hypot64 2 (-43 / 2 ^ 30) = (4503599627370497 / 2 ^ 51) :=
  hypot64_eval 2 (-43 / 2 ^ 30) 2 (43 / 2 ^ 30)
    (43 / 2 ^ 31) (1849 / 2 ^ 62) (2251799813685249 / 2 ^ 51) (4503599627370497 / 2 ^ 52) (4503599627370497 / 2 ^ 51)
    (by norm_num [abs_of_nonneg, abs_of_neg]) (by norm_num [abs_of_nonneg, abs_of_neg])
    (by norm_num) (by norm_num)
    (round64_at ((43 / 2 ^ 30) / 2) (43 / 2 ^ 31) 6051711999279104 78 (by norm_num))
    (round64_at ((43 / 2 ^ 31) * (43 / 2 ^ 31)) (1849 / 2 ^ 62) 8131987999031296 104 (by norm_num))
    (round64_at (1 + (1849 / 2 ^ 62)) (2251799813685249 / 2 ^ 51) 4503599627370498 52 (by norm_num))
    (sqrt64_up_at (2251799813685249 / 2 ^ 51) (4503599627370497 / 2 ^ 52) 4503599627370496 (by norm_num))
    (round64_at (2 * (4503599627370497 / 2 ^ 52)) (4503599627370497 / 2 ^ 51) 4503599627370497 51 (by norm_num))

theorem mandelbrot64_nearMinusTwo : mandelbrotWith binary64 ⟨(-2), (1 / 2 ^ 30)⟩ = 3 := by
  have t0 : binary64.absGtTwo ⟨(-2), (1 / 2 ^ 30)⟩ = false := by
    show decide ((2 : ℚ) < hypot64 (-2) (1 / 2 ^ 30)) = false
    rw [nearMinusTwo_abs0]
    exact decide_eq_false (by norm_num)
  have t1 : binary64.absGtTwo ⟨2, (-3 / 2 ^ 30)⟩ = false := by
    show decide ((2 : ℚ) < hypot64 2 (-3 / 2 ^ 30)) = false
    rw [nearMinusTwo_abs1]
    exact decide_eq_false (by norm_num)
  have t2 : binary64.absGtTwo ⟨2, (-11 / 2 ^ 30)⟩ = false := by
    show decide ((2 : ℚ) < hypot64 2 (-11 / 2 ^ 30)) = false
    rw [nearMinusTwo_abs2]
    exact decide_eq_false (by norm_num)
  have t3 : binary64.absGtTwo ⟨2, (-43 / 2 ^ 30)⟩ = true := by
    show decide ((2 : ℚ) < hypot64 2 (-43 / 2 ^ 30)) = true
    rw [nearMinusTwo_abs3]
    exact decide_eq_true (by norm_num)
  unfold mandelbrotWith
  rw [show (0 : Complex128) = ⟨0, 0⟩ from rfl]
  rw [mandelbrotLoopWith_step _ _ _ _ (by decide), nearMinusTwo_step0, t0]
  simp only [Bool.false_eq_true, if_false]
  rw [mandelbrotLoopWith_step _ _ _ _ (by decide), nearMinusTwo_step1, t1]
  simp only [Bool.false_eq_true, if_false]
  rw [mandelbrotLoopWith_step _ _ _ _ (by decide), nearMinusTwo_step2, t2]
  simp only [Bool.false_eq_true, if_false]
  rw [mandelbrotLoopWith_step _ _ _ _ (by decide), nearMinusTwo_step3, t3]
  rfl

theorem nearTwo_step0 :
    binary64.step ⟨0, 0⟩ ⟨2, (1 / 2 ^ 30)⟩ = ⟨2, (1 / 2 ^ 30)⟩ :=
  binary64_step_eval 0 0 2 (1 / 2 ^ 30)
    0 0 0 2
    0 0 0 (1 / 2 ^ 30)
    (round64_eval_zero (0 * 0) (by norm_num))
    (round64_eval_zero (0 * 0) (by norm_num))
    (round64_eval_zero (0 - 0) (by norm_num))
    (round64_at (0 + 2) 2 4503599627370496 51 (by norm_num))
    (round64_eval_zero (0 * 0) (by norm_num))
    (round64_eval_zero (0 * 0) (by norm_num))
    (round64_eval_zero (0 + 0) (by norm_num))
    (round64_at (0 + (1 / 2 ^ 30)) (1 / 2 ^ 30) 4503599627370496 82 (by norm_num))

theorem nearTwo_abs0 : hypot64 2 (1 / 2 ^ 30) = 2 :=
  hypot64_eval 2 (1 / 2 ^ 30) 2 (1 / 2 ^ 30)
    (1 / 2 ^ 31) (1 / 2 ^ 62) 1 1 2
    (by norm_num [abs_of_nonneg, abs_of_neg]) (by norm_num [abs_of_nonneg, abs_of_neg])
    (by norm_num) (by norm_num)
    (round64_at ((1 / 2 ^ 30) / 2) (1 / 2 ^ 31) 4503599627370496 83 (by norm_num))
    (round64_at ((1 / 2 ^ 31) * (1 / 2 ^ 31)) (1 / 2 ^ 62) 4503599627370496 114 (by norm_num))
    (round64_at (1 + (1 / 2 ^ 62)) 1 4503599627370496 52 (by norm_num))
    (sqrt64_down_at 1 1 4503599627370496 (by norm_num))
    (round64_at (2 * 1) 2 4503599627370496 51 (by norm_num))

theorem nearTwo_step1 :
    binary64.step ⟨2, (1 / 2 ^ 30)⟩ ⟨2, (1 / 2 ^ 30)⟩ = ⟨6, (5 / 2 ^ 30)⟩ :=
  binary64_step_eval 2 (1 / 2 ^ 30) 2 (1 / 2 ^ 30)
    4 (1 / 2 ^ 60) 4 6
    (1 / 2 ^ 29) (1 / 2 ^ 29) (1 / 2 ^ 28) (5 / 2 ^ 30)
    (round64_at (2 * 2) 4 4503599627370496 50 (by norm_num))
    (round64_at ((1 / 2 ^ 30) * (1 / 2 ^ 30)) (1 / 2 ^ 60) 4503599627370496 112 (by norm_num))
    (round64_at (4 - (1 / 2 ^ 60)) 4 9007199254740992 51 (by norm_num))
    (round64_at (4 + 2) 6 6755399441055744 50 (by norm_num))
    (round64_at (2 * (1 / 2 ^ 30)) (1 / 2 ^ 29) 4503599627370496 81 (by norm_num))
    (round64_at ((1 / 2 ^ 30) * 2) (1 / 2 ^ 29) 4503599627370496 81 (by norm_num))
    (round64_at ((1 / 2 ^ 29) + (1 / 2 ^ 29)) (1 / 2 ^ 28) 4503599627370496 80 (by norm_num))
    (round64_at ((1 / 2 ^ 28) + (1 / 2 ^ 30)) (5 / 2 ^ 30) 5629499534213120 80 (by norm_num))

theorem nearTwo_abs1 : hypot64 6 (5 / 2 ^ 30) = 6 :=
  hypot64_eval 6 (5 / 2 ^ 30) 6 (5 / 2 ^ 30)
    (7505999378950827 / 2 ^ 83) (6254999482459023 / 2 ^ 113) 1 1 6
    (by norm_num [abs_of_nonneg, abs_of_neg]) (by norm_num [abs_of_nonneg, abs_of_neg])
    (by norm_num) (by norm_num)
    (round64_at ((5 / 2 ^ 30) / 6) (7505999378950827 / 2 ^ 83) 7505999378950827 83 (by norm_num))
    (round64_at ((7505999378950827 / 2 ^ 83) * (7505999378950827 / 2 ^ 83)) (6254999482459023 / 2 ^ 113) 6254999482459023 113 (by norm_num))
    (round64_at (1 + (6254999482459023 / 2 ^ 113)) 1 4503599627370496 52 (by norm_num))
    (sqrt64_down_at 1 1 4503599627370496 (by norm_num))
    (round64_at (6 * 1) 6 6755399441055744 50 (by norm_num))

theorem mandelbrot64_nearTwo : mandelbrotWith binary64 ⟨2, (1 / 2 ^ 30)⟩ = 1 := by
  have t0 : binary64.absGtTwo ⟨2, (1 / 2 ^ 30)⟩ = false := by
    show decide ((2 : ℚ) < hypot64 2 (1 / 2 ^ 30)) = false
    rw [nearTwo_abs0]
    exact decide_eq_false (by norm_num)
  have t1 : binary64.absGtTwo ⟨6, (5 / 2 ^ 30)⟩ = true := by
    show decide ((2 : ℚ) < hypot64 6 (5 / 2 ^ 30)) = true
    rw [nearTwo_abs1]
    exact decide_eq_true (by norm_num)
  unfold mandelbrotWith
  rw [show (0 : Complex128) = ⟨0, 0⟩ from rfl]
  rw [mandelbrotLoopWith_step _ _ _ _ (by decide), nearTwo_step0, t0]
  simp only [Bool.false_eq_true, if_false]
  rw [mandelbrotLoopWith_step _ _ _ _ (by decide), nearTwo_step1, t1]
  rfl

theorem one_step0 :
    binary64.step ⟨0, 0⟩ ⟨1, 0⟩ = ⟨1, 0⟩ :=
  binary64_step_eval 0 0 1 0
    0 0 0 1
    0 0 0 0
    (round64_eval_zero (0 * 0) (by norm_num))
    (round64_eval_zero (0 * 0) (by norm_num))
    (round64_eval_zero (0 - 0) (by norm_num))
    (round64_at (0 + 1) 1 4503599627370496 52 (by norm_num))
    (round64_eval_zero (0 * 0) (by norm_num))
    (round64_eval_zero (0 * 0) (by norm_num))
    (round64_eval_zero (0 + 0) (by norm_num))
    (round64_eval_zero (0 + 0) (by norm_num))

theorem one_abs0 : hypot64 1 0 = 1 :=
  hypot64_eval 1 0 1 0
    0 0 1 1 1
    (by norm_num [abs_of_nonneg, abs_of_neg]) (by norm_num [abs_of_nonneg, abs_of_neg])
    (by norm_num) (by norm_num)
    (round64_eval_zero (0 / 1) (by norm_num))
    (round64_eval_zero (0 * 0) (by norm_num))
    (round64_at (1 + 0) 1 4503599627370496 52 (by norm_num))
    (sqrt64_down_at 1 1 4503599627370496 (by norm_num))
    (round64_at (1 * 1) 1 4503599627370496 52 (by norm_num))

theorem one_step1 :
    binary64.step ⟨1, 0⟩ ⟨1, 0⟩ = ⟨2, 0⟩ :=
  binary64_step_eval 1 0 1 0
    1 0 1 2
    0 0 0 0
    (round64_at (1 * 1) 1 4503599627370496 52 (by norm_num))
    (round64_eval_zero (0 * 0) (by norm_num))
    (round64_at (1 - 0) 1 4503599627370496 52 (by norm_num))
    (round64_at (1 + 1) 2 4503599627370496 51 (by norm_num))
    (round64_eval_zero (1 * 0) (by norm_num))
    (round64_eval_zero (0 * 1) (by norm_num))
    (round64_eval_zero (0 + 0) (by norm_num))
    (round64_eval_zero (0 + 0) (by norm_num))

theorem one_abs1 : hypot64 2 0 = 2 :=
  hypot64_eval 2 0 2 0
    0 0 1 1 2
    (by norm_num [abs_of_nonneg, abs_of_neg]) (by norm_num [abs_of_nonneg, abs_of_neg])
    (by norm_num) (by norm_num)
    (round64_eval_zero (0 / 2) (by norm_num))
    (round64_eval_zero (0 * 0) (by norm_num))
    (round64_at (1 + 0) 1 4503599627370496 52 (by norm_num))
    (sqrt64_down_at 1 1 4503599627370496 (by norm_num))
    (round64_at (2 * 1) 2 4503599627370496 51 (by norm_num))

theorem one_step2 :
    binary64.step ⟨2, 0⟩ ⟨1, 0⟩ = ⟨5, 0⟩ :=
  binary64_step_eval 2 0 1 0
    4 0 4 5
    0 0 0 0
    (round64_at (2 * 2) 4 4503599627370496 50 (by norm_num))
    (round64_eval_zero (0 * 0) (by norm_num))
    (round64_at (4 - 0) 4 4503599627370496 50 (by norm_num))
    (round64_at (4 + 1) 5 5629499534213120 50 (by norm_num))
    (round64_eval_zero (2 * 0) (by norm_num))
    (round64_eval_zero (0 * 2) (by norm_num))
    (round64_eval_zero (0 + 0) (by norm_num))
    (round64_eval_zero (0 + 0) (by norm_num))

theorem one_abs2 : hypot64 5 0 = 5 :=
  hypot64_eval 5 0 5 0
    0 0 1 1 5
    (by norm_num [abs_of_nonneg, abs_of_neg]) (by norm_num [abs_of_nonneg, abs_of_neg])
    (by norm_num) (by norm_num)
    (round64_eval_zero (0 / 5) (by norm_num))
    (round64_eval_zero (0 * 0) (by norm_num))
    (round64_at (1 + 0) 1 4503599627370496 52 (by norm_num))
    (sqrt64_down_at 1 1 4503599627370496 (by norm_num))
    (round64_at (5 * 1) 5 5629499534213120 50 (by norm_num))

theorem mandelbrot64_one : mandelbrotWith binary64 ⟨1, 0⟩ = 2 := by
  have t0 : binary64.absGtTwo ⟨1, 0⟩ = false := by
    show decide ((2 : ℚ) < hypot64 1 0) = false
    rw [one_abs0]
    exact decide_eq_false (by norm_num)
  have t1 : binary64.absGtTwo ⟨2, 0⟩ = false := by
    show decide ((2 : ℚ) < hypot64 2 0) = false
    rw [one_abs1]
    exact decide_eq_false (by norm_num)
  have t2 : binary64.absGtTwo ⟨5, 0⟩ = true := by
    show decide ((2 : ℚ) < hypot64 5 0) = true
    rw [one_abs2]
    exact decide_eq_true (by norm_num)
  unfold mandelbrotWith
  rw [show (0 : Complex128) = ⟨0, 0⟩ from rfl]
  rw [mandelbrotLoopWith_step _ _ _ _ (by decide), one_step0, t0]
  simp only [Bool.false_eq_true, if_false]
  rw [mandelbrotLoopWith_step _ _ _ _ (by decide), one_step1, t1]
  simp only [Bool.false_eq_true, if_false]
  rw [mandelbrotLoopWith_step _ _ _ _ (by decide), one_step2, t2]
  rfl

theorem three_abs : hypot64 3 0 = 3 :=
  hypot64_eval 3 0 3 0
    0 0 1 1 3
    (by norm_num [abs_of_nonneg, abs_of_neg]) (by norm_num [abs_of_nonneg, abs_of_neg])
    (by norm_num) (by norm_num)
    (round64_eval_zero (0 / 3) (by norm_num))
    (round64_eval_zero (0 * 0) (by norm_num))
    (round64_at (1 + 0) 1 4503599627370496 52 (by norm_num))
    (sqrt64_down_at 1 1 4503599627370496 (by norm_num))
    (round64_at (3 * 1) 3 6755399441055744 51 (by norm_num))

theorem minusTwo_step0 :
    binary64.step ⟨0, 0⟩ ⟨(-2), 0⟩ = ⟨(-2), 0⟩ :=
  binary64_step_eval 0 0 (-2) 0
    0 0 0 (-2)
    0 0 0 0
    (round64_eval_zero (0 * 0) (by norm_num))
    (round64_eval_zero (0 * 0) (by norm_num))
    (round64_eval_zero (0 - 0) (by norm_num))
    (round64_neg_at (0 + (-2)) (-2) 4503599627370496 51 (by norm_num))
    (round64_eval_zero (0 * 0) (by norm_num))
    (round64_eval_zero (0 * 0) (by norm_num))
    (round64_eval_zero (0 + 0) (by norm_num))
    (round64_eval_zero (0 + 0) (by norm_num))

theorem minusTwo_abs0 : hypot64 (-2) 0 = 2 :=
  hypot64_eval (-2) 0 2 0
    0 0 1 1 2
    (by norm_num [abs_of_nonneg, abs_of_neg]) (by norm_num [abs_of_nonneg, abs_of_neg])
    (by norm_num) (by norm_num)
    (round64_eval_zero (0 / 2) (by norm_num))
    (round64_eval_zero (0 * 0) (by norm_num))
    (round64_at (1 + 0) 1 4503599627370496 52 (by norm_num))
    (sqrt64_down_at 1 1 4503599627370496 (by norm_num))
    (round64_at (2 * 1) 2 4503599627370496 51 (by norm_num))

theorem minusTwo_step1 :
    binary64.step ⟨(-2), 0⟩ ⟨(-2), 0⟩ = ⟨2, 0⟩ :=
  binary64_step_eval (-2) 0 (-2) 0
    4 0 4 2
    0 0 0 0
    (round64_at ((-2) * (-2)) 4 4503599627370496 50 (by norm_num))
    (round64_eval_zero (0 * 0) (by norm_num))
    (round64_at (4 - 0) 4 4503599627370496 50 (by norm_num))
    (round64_at (4 + (-2)) 2 4503599627370496 51 (by norm_num))
    (round64_eval_zero ((-2) * 0) (by norm_num))
    (round64_eval_zero (0 * (-2)) (by norm_num))
    (round64_eval_zero (0 + 0) (by norm_num))
    (round64_eval_zero (0 + 0) (by norm_num))

theorem minusTwo_abs1 : hypot64 2 0 = 2 :=
  hypot64_eval 2 0 2 0
    0 0 1 1 2
    (by norm_num [abs_of_nonneg, abs_of_neg]) (by norm_num [abs_of_nonneg, abs_of_neg])
    (by norm_num) (by norm_num)
    (round64_eval_zero (0 / 2) (by norm_num))
    (round64_eval_zero (0 * 0) (by norm_num))
    (round64_at (1 + 0) 1 4503599627370496 52 (by norm_num))
    (sqrt64_down_at 1 1 4503599627370496 (by norm_num))
    (round64_at (2 * 1) 2 4503599627370496 51 (by norm_num))

theorem minusTwo_step2 :
    binary64.step ⟨2, 0⟩ ⟨(-2), 0⟩ = ⟨2, 0⟩ :=
  binary64_step_eval 2 0 (-2) 0
    4 0 4 2
    0 0 0 0
    (round64_at (2 * 2) 4 4503599627370496 50 (by norm_num))
    (round64_eval_zero (0 * 0) (by norm_num))
    (round64_at (4 - 0) 4 4503599627370496 50 (by norm_num))
    (round64_at (4 + (-2)) 2 4503599627370496 51 (by norm_num))
    (round64_eval_zero (2 * 0) (by norm_num))
    (round64_eval_zero (0 * 2) (by norm_num))
    (round64_eval_zero (0 + 0) (by norm_num))
    (round64_eval_zero (0 + 0) (by norm_num))

theorem corner_abs : hypot64 (-2) (-2) = (6369051672525773 / 2 ^ 51) :=
  hypot64_eval (-2) (-2) 2 2
    1 1 2 (6369051672525773 / 2 ^ 52) (6369051672525773 / 2 ^ 51)
    (by norm_num [abs_of_nonneg, abs_of_neg]) (by norm_num [abs_of_nonneg, abs_of_neg])
    (by norm_num) (by norm_num)
    (round64_at (2 / 2) 1 4503599627370496 52 (by norm_num))
    (round64_at (1 * 1) 1 4503599627370496 52 (by norm_num))
    (round64_at (1 + 1) 2 4503599627370496 51 (by norm_num))
    (sqrt64_up_at 2 (6369051672525773 / 2 ^ 52) 6369051672525772 (by norm_num))
    (round64_at (2 * (6369051672525773 / 2 ^ 52)) (6369051672525773 / 2 ^ 51) 6369051672525773 51 (by norm_num))

/-! ## Escape time: the contract of `mandelbrot` in the code's arithmetic -/

/-- C1 fails as stated, with the iterates of `z ↦ z*z + c` and their magnitude taken
exactly: at the binary64 point `c = -2 + 2^-30 i` the first iterate is `c` itself,
of squared magnitude `4 + 2^-60 > 4`, so the least `n` of the claim is 0; but
`cmplx.Abs` returns exactly 2 for it (and for the next two computed iterates) and
the loop returns 3. -/
theorem mandelbrot_exact_orbit_counterexample :
    (round64 (-2) = -2 ∧ round64 (1 / 2 ^ 30) = 1 / 2 ^ 30) ∧
    mandelbrotWith binary64 ⟨(-2), (1 / 2 ^ 30)⟩ = 3 ∧
    orbit ⟨(-2), (1 / 2 ^ 30)⟩ (0 + 1) = ⟨(-2), (1 / 2 ^ 30)⟩ ∧
    (orbit ⟨(-2), (1 / 2 ^ 30)⟩ (0 + 1)).normSq = 4 + 1 / 2 ^ 60 ∧
    absGtTwo (orbit ⟨(-2), (1 / 2 ^ 30)⟩ (0 + 1)) ∧
    cmplxAbs64 ⟨(-2), (1 / 2 ^ 30)⟩ = 2 ∧
    ¬ (mandelbrotWith binary64 ⟨(-2), (1 / 2 ^ 30)⟩ = ((0 : ℕ) : ℤ) ↔
        absGtTwo (orbit ⟨(-2), (1 / 2 ^ 30)⟩ (0 + 1)) ∧
          ∀ m, m < 0 → ¬ absGtTwo (orbit ⟨(-2), (1 / 2 ^ 30)⟩ (m + 1))) := by
  have hesc : absGtTwo (orbit ⟨(-2), (1 / 2 ^ 30)⟩ (0 + 1)) := by decide!
  refine ⟨⟨round64_neg_at (-2) (-2) 4503599627370496 51 (by norm_num),
      round64_at (1 / 2 ^ 30) (1 / 2 ^ 30) 4503599627370496 82 (by norm_num)⟩,
    mandelbrot64_nearMinusTwo, by decide!, by decide!, hesc, nearMinusTwo_abs0, fun h => ?_⟩
  have h0 := h.mpr ⟨hesc, fun m hm => absurd hm (Nat.not_lt_zero m)⟩
  rw [mandelbrot64_nearMinusTwo] at h0
  exact absurd h0 (by decide)

/-- Under every arithmetic the result is the least `n < MaxIterations` whose
`(n+1)`-th computed iterate passes the test, and `MaxIterations` exactly when none
of the first `MaxIterations` computed iterates does. -/
theorem mandelbrotWith_least (ar : Arith) (c : Complex128) :
    (∀ n : ℕ, (n : ℤ) < MaxIterations →
      (mandelbrotWith ar c = (n : ℤ) ↔
        ar.absGtTwo (orbitWith ar c (n + 1)) = true ∧
          ∀ m, m < n → ar.absGtTwo (orbitWith ar c (m + 1)) = false)) ∧
    (mandelbrotWith ar c = MaxIterations ↔
      ∀ m : ℕ, (m : ℤ) < MaxIterations → ar.absGtTwo (orbitWith ar c (m + 1)) = false) := by
  have hstart : mandelbrotWith ar c = mandelbrotLoopWith ar c ((0 : ℕ) : ℤ) (orbitWith ar c 0) :=
    rfl
  by_cases h : ∃ j : ℕ, (j : ℤ) < MaxIterations ∧ ar.absGtTwo (orbitWith ar c (j + 1)) = true
  · have hj := Nat.find_spec h
    have hmin : ∀ m, m < Nat.find h → ar.absGtTwo (orbitWith ar c (m + 1)) = false := by
      intro m hm
      by_contra hcon
      exact Nat.find_min h hm ⟨by have := hj.1; omega, by simpa using hcon⟩
    have hval : mandelbrotWith ar c = ((Nat.find h : ℕ) : ℤ) := by
      rw [hstart]
      have := mandelbrotLoopWith_escape ar c (Nat.find h) 0 (by simpa using hj.1)
        (by simpa using hj.2) (fun m _ hm => hmin m (by omega))
      simpa using this
    refine ⟨fun n _ => ⟨fun hn => ?_, fun hn => ?_⟩, ⟨fun hmax => ?_, fun hall => ?_⟩⟩
    · have hnj : n = Nat.find h := by
        have : ((Nat.find h : ℕ) : ℤ) = (n : ℤ) := by rw [← hval, hn]
        exact_mod_cast this.symm
      rw [hnj]
      exact ⟨hj.2, hmin⟩
    · rw [hval]
      rcases lt_trichotomy n (Nat.find h) with hlt | heq | hgt
      · have := hmin n hlt
        rw [hn.1] at this
        exact absurd this (by decide)
      · rw [heq]
      · have := hn.2 _ hgt
        rw [hj.2] at this
        exact absurd this (by decide)
    · have := hj.1
      rw [hval] at hmax
      omega
    · have := hall _ hj.1
      rw [hj.2] at this
      exact absurd this (by decide)
  · have hno : ∀ m : ℕ, (m : ℤ) < MaxIterations →
        ar.absGtTwo (orbitWith ar c (m + 1)) = false := by
      intro m hm
      by_contra hcon
      exact h ⟨m, hm, by simpa using hcon⟩
    have hval : mandelbrotWith ar c = MaxIterations := by
      rw [hstart]
      exact mandelbrotLoopWith_noescape ar c 5000 0 (by simp [MaxIterations])
        (fun m _ hm => hno m hm)
    refine ⟨fun n hn => ⟨fun hn1 => ?_, fun hn1 => ?_⟩, ⟨fun _ => hno, fun _ => hval⟩⟩
    · rw [hval] at hn1
      omega
    · have := hno n hn
      rw [hn1.1] at this
      exact absurd this (by decide)

theorem binary64_absGtTwo_iff (z : Complex128) :
    binary64.absGtTwo z = true ↔ 2 < cmplxAbs64 z := by
  show decide ((2 : ℚ) < cmplxAbs64 z) = true ↔ 2 < cmplxAbs64 z
  exact decide_eq_true_iff

theorem binary64_absGtTwo_false_iff (z : Complex128) :
    binary64.absGtTwo z = false ↔ ¬ 2 < cmplxAbs64 z := by
  show decide ((2 : ℚ) < cmplxAbs64 z) = false ↔ ¬ 2 < cmplxAbs64 z
  exact decide_eq_false_iff_not

/-- C1 (amended): `mandelbrot c` is the least `n < MaxIterations` such that the
`(n+1)`-th value of `z` computed by the loop in binary64 (`z = z*z + c` from
`z = 0`, every operation rounded) has a computed magnitude `cmplx.Abs(z)` greater
than 2, and it is `MaxIterations` exactly when none of the first `MaxIterations`
computed values has. -/
theorem mandelbrot_least_computed_escape (c : Complex128) :
    (∀ n : ℕ, (n : ℤ) < MaxIterations →
      (mandelbrotWith binary64 c = (n : ℤ) ↔
        2 < cmplxAbs64 (orbitWith binary64 c (n + 1)) ∧
          ∀ m, m < n → ¬ 2 < cmplxAbs64 (orbitWith binary64 c (m + 1)))) ∧
    (mandelbrotWith binary64 c = MaxIterations ↔
      ∀ m : ℕ, (m : ℤ) < MaxIterations → ¬ 2 < cmplxAbs64 (orbitWith binary64 c (m + 1))) := by
  obtain ⟨h1, h2⟩ := mandelbrotWith_least binary64 c
  constructor
  · intro n hn
    rw [h1 n hn, binary64_absGtTwo_iff]
    constructor
    · exact fun h => ⟨h.1, fun m hm => (binary64_absGtTwo_false_iff _).mp (h.2 m hm)⟩
    · exact fun h => ⟨h.1, fun m hm => (binary64_absGtTwo_false_iff _).mpr (h.2 m hm)⟩
  · rw [h2]
    constructor
    · exact fun h m hm => (binary64_absGtTwo_false_iff _).mp (h m hm)
    · exact fun h m hm => (binary64_absGtTwo_false_iff _).mpr (h m hm)

/-- C1 (amended) at `c = 1`: the computed values of `z` are 1, 2, 5 with computed
magnitudes 1, 2, 5; the third is the first above 2, so the result is 2. -/
theorem mandelbrot_least_computed_escape_witness :
    (orbitWith binary64 ⟨1, 0⟩ 1 = ⟨1, 0⟩ ∧ orbitWith binary64 ⟨1, 0⟩ 2 = ⟨2, 0⟩ ∧
      orbitWith binary64 ⟨1, 0⟩ 3 = ⟨5, 0⟩) ∧
    (cmplxAbs64 ⟨1, 0⟩ = 1 ∧ cmplxAbs64 ⟨2, 0⟩ = 2 ∧ cmplxAbs64 ⟨5, 0⟩ = 5) ∧
    mandelbrotWith binary64 ⟨1, 0⟩ = 2 := by
  have o1 : orbitWith binary64 ⟨1, 0⟩ 1 = ⟨1, 0⟩ := one_step0
  have o2 : orbitWith binary64 ⟨1, 0⟩ 2 = ⟨2, 0⟩ := by
    show binary64.step (orbitWith binary64 ⟨1, 0⟩ 1) ⟨1, 0⟩ = ⟨2, 0⟩
    rw [o1]
    exact one_step1
  have o3 : orbitWith binary64 ⟨1, 0⟩ 3 = ⟨5, 0⟩ := by
    show binary64.step (orbitWith binary64 ⟨1, 0⟩ 2) ⟨1, 0⟩ = ⟨5, 0⟩
    rw [o2]
    exact one_step2
  have a1 : cmplxAbs64 ⟨1, 0⟩ = 1 := one_abs0
  have a2 : cmplxAbs64 ⟨2, 0⟩ = 2 := one_abs1
  have a3 : cmplxAbs64 ⟨5, 0⟩ = 5 := one_abs2
  refine ⟨⟨o1, o2, o3⟩, ⟨a1, a2, a3⟩,
    ((mandelbrot_least_computed_escape ⟨1, 0⟩).1 2 (by decide)).mpr ⟨?_, ?_⟩⟩
  · rw [o3, a3]
    norm_num
  · intro m hm
    have : m = 0 ∨ m = 1 := by omega
    rcases this with rfl | rfl
    · rw [o1, a1]
      norm_num
    · rw [o2, a2]
      norm_num

/-- C3 fails as stated, with the magnitude of `c` taken exactly: the binary64 point
`c = 2 + 2^-30 i` has squared magnitude `4 + 2^-60 > 4`, but `cmplx.Abs(c)` is
exactly 2, the test of the first iteration fails, and the loop returns 1. -/
theorem mandelbrot_computed_radius_counterexample :
    (round64 2 = 2 ∧ round64 (1 / 2 ^ 30) = 1 / 2 ^ 30) ∧
    (⟨2, (1 / 2 ^ 30)⟩ : Complex128).normSq = 4 + 1 / 2 ^ 60 ∧
    absGtTwo ⟨2, (1 / 2 ^ 30)⟩ ∧
    cmplxAbs64 ⟨2, (1 / 2 ^ 30)⟩ = 2 ∧
    mandelbrotWith binary64 ⟨2, (1 / 2 ^ 30)⟩ = 1 ∧
    mandelbrotWith binary64 ⟨2, (1 / 2 ^ 30)⟩ ≠ 0 := by
  refine ⟨⟨?_, ?_⟩, by decide!, by decide!, nearTwo_abs0, mandelbrot64_nearTwo, ?_⟩
  · exact round64_at 2 2 4503599627370496 51 (by norm_num)
  · exact round64_at (1 / 2 ^ 30) (1 / 2 ^ 30) 4503599627370496 82 (by norm_num)
  · rw [mandelbrot64_nearTwo]
    decide

/-- From `z = 0` the first assignment yields `c`, when the parts of `c` are binary64
numbers. -/
theorem binary64_step_zero (c : Complex128) (hre : round64 c.re = c.re)
    (him : round64 c.im = c.im) : binary64.step 0 c = c := by
  apply Complex128.ext_parts
  · show round64 (round64 (round64 ((0 : ℚ) * 0) - round64 ((0 : ℚ) * 0)) + c.re) = c.re
    rw [mul_zero, round64_zero, sub_zero, round64_zero, zero_add, hre]
  · show round64 (round64 (round64 ((0 : ℚ) * 0) + round64 ((0 : ℚ) * 0)) + c.im) = c.im
    rw [mul_zero, round64_zero, add_zero, round64_zero, zero_add, him]

/-- C3 (amended): for every complex128 point `c` (both parts binary64 numbers) whose
magnitude as computed by `cmplx.Abs` exceeds 2, the first computed value of `z` is
`c` and `mandelbrot c = 0`. -/
theorem mandelbrot_outside_computed_radius (c : Complex128) (hre : round64 c.re = c.re)
    (him : round64 c.im = c.im) (h : 2 < cmplxAbs64 c) :
    orbitWith binary64 c 1 = c ∧ mandelbrotWith binary64 c = 0 := by
  have hs : binary64.step 0 c = c := binary64_step_zero c hre him
  refine ⟨hs, ?_⟩
  have ht : binary64.absGtTwo c = true := (binary64_absGtTwo_iff c).mpr h
  unfold mandelbrotWith
  rw [mandelbrotLoopWith_step _ _ _ _ (by decide), hs, ht]
  rfl

/-- C3 (amended) at `c = 3 + 0i`, whose computed magnitude is 3. -/
theorem mandelbrot_outside_computed_radius_witness :
    cmplxAbs64 ⟨3, 0⟩ = 3 ∧ mandelbrotWith binary64 ⟨3, 0⟩ = 0 :=
  ⟨three_abs,
    (mandelbrot_outside_computed_radius ⟨3, 0⟩
      (round64_at 3 3 6755399441055744 51 (by norm_num)) round64_zero
      (by show (2 : ℚ) < hypot64 3 0; rw [three_abs]; norm_num)).2⟩

/-! ## The exact reading of the escape time -/

/-- In exact arithmetic the result is the least `n < MaxIterations` whose `(n+1)`-th
exact iterate of `z ↦ z*z + c` has squared magnitude above 4, and `MaxIterations`
exactly when none of the first `MaxIterations` exact iterates has. -/
theorem mandelbrot_least_exact (c : Complex128) :
    (∀ n : ℕ, (n : ℤ) < MaxIterations →
      (mandelbrot c = (n : ℤ) ↔
        absGtTwo (orbit c (n + 1)) ∧ ∀ m, m < n → ¬ absGtTwo (orbit c (m + 1)))) ∧
    (mandelbrot c = MaxIterations ↔
      ∀ m : ℕ, (m : ℤ) < MaxIterations → ¬ absGtTwo (orbit c (m + 1))) := by
  have hf : ∀ z, exactArith.absGtTwo z = false ↔ ¬ absGtTwo z := fun z => by
    show decide (absGtTwo z) = false ↔ ¬ absGtTwo z
    exact decide_eq_false_iff_not
  obtain ⟨h1, h2⟩ := mandelbrotWith_least exactArith c
  simp only [mandelbrotWith_exactArith, orbitWith_exactArith, exactArith_absGtTwo, hf] at h1 h2
  exact ⟨h1, h2⟩

/-! ## The range of the result, and points where every operation is exact -/

/-- Under every arithmetic the loop returns a value between 0 and the cap. -/
theorem mandelbrotLoopWith_range (ar : Arith) (c : Complex128) :
    ∀ (d : ℕ) (n : ℤ) (z : Complex128), 0 ≤ n → (MaxIterations - n).toNat = d →
      0 ≤ mandelbrotLoopWith ar c n z ∧ mandelbrotLoopWith ar c n z ≤ MaxIterations := by
  intro d
  induction d with
  | zero =>
    intro n z _ hd
    rw [mandelbrotLoopWith_done ar c n z (by omega)]
    exact ⟨by decide, le_rfl⟩
  | succ d ih =>
    intro n z h0 hd
    have hn : n < MaxIterations := by omega
    rw [mandelbrotLoopWith_step ar c n z hn]
    split
    · exact ⟨h0, le_of_lt hn⟩
    · exact ih (n + 1) _ (by omega) (by omega)

/-- Under every arithmetic, binary64 included, the result of `mandelbrot` lies in
`[0, MaxIterations]`. -/
theorem mandelbrotWith_range (ar : Arith) (c : Complex128) :
    0 ≤ mandelbrotWith ar c ∧ mandelbrotWith ar c ≤ MaxIterations :=
  mandelbrotLoopWith_range ar c 5000 0 0 le_rfl (by decide)

theorem hypot64_zero : hypot64 0 0 = 0 := by
  unfold hypot64
  simp

/-- In binary64 the computed iterates of `c = 0` are all 0. -/
theorem orbitWith_binary64_origin : ∀ k : ℕ, orbitWith binary64 0 k = 0 := by
  intro k
  induction k with
  | zero => rfl
  | succ k ih =>
    show binary64.step (orbitWith binary64 0 k) 0 = 0
    rw [ih]
    exact binary64_step_zero 0 round64_zero round64_zero

/-- In binary64, as in exact arithmetic, `mandelbrot(0) = MaxIterations`. -/
theorem mandelbrot64_origin :
    mandelbrotWith binary64 0 = MaxIterations ∧ mandelbrotWith binary64 0 = mandelbrot 0 := by
  have h0 : binary64.absGtTwo 0 = false := by
    show decide ((2 : ℚ) < hypot64 0 0) = false
    rw [hypot64_zero]
    exact decide_eq_false (by norm_num)
  have h : mandelbrotWith binary64 0 = MaxIterations :=
    mandelbrotLoopWith_noescape binary64 0 5000 0 (by simp [MaxIterations])
      (fun m _ _ => by rw [orbitWith_binary64_origin]; exact h0)
  refine ⟨h, ?_⟩
  rw [h]
  exact (mandelbrotLoop_noescape 0 5000 0 (by simp [MaxIterations])
    (fun m _ _ => by rw [orbit_zero_point]; exact not_absGtTwo_zero)).symm

/-- In binary64 the computed iterates of `c = -2` are `-2, 2, 2, ...`, the exact
ones. -/
theorem orbitWith_binary64_minus_two :
    orbitWith binary64 ⟨(-2), 0⟩ 1 = ⟨(-2), 0⟩ ∧
    ∀ k : ℕ, orbitWith binary64 ⟨(-2), 0⟩ (k + 2) = ⟨2, 0⟩ := by
  have h1 : orbitWith binary64 ⟨(-2), 0⟩ 1 = ⟨(-2), 0⟩ := minusTwo_step0
  refine ⟨h1, fun k => ?_⟩
  induction k with
  | zero =>
    show binary64.step (orbitWith binary64 ⟨(-2), 0⟩ 1) ⟨(-2), 0⟩ = ⟨2, 0⟩
    rw [h1]
    exact minusTwo_step1
  | succ k ih =>
    show binary64.step (orbitWith binary64 ⟨(-2), 0⟩ (k + 2)) ⟨(-2), 0⟩ = ⟨2, 0⟩
    rw [ih]
    exact minusTwo_step2

/-- In binary64, as in exact arithmetic, the computed magnitude of every iterate of
`c = -2` is exactly 2 and `mandelbrot(-2) = MaxIterations`. -/
theorem mandelbrot64_minus_two :
    cmplxAbs64 ⟨(-2), 0⟩ = 2 ∧ cmplxAbs64 ⟨2, 0⟩ = 2 ∧
    mandelbrotWith binary64 ⟨(-2), 0⟩ = MaxIterations ∧
    mandelbrotWith binary64 ⟨(-2), 0⟩ = mandelbrot (complex (-2) 0) := by
  have ha : binary64.absGtTwo ⟨(-2), 0⟩ = false := by
    show decide ((2 : ℚ) < hypot64 (-2) 0) = false
    rw [minusTwo_abs0]
    exact decide_eq_false (by norm_num)
  have hb : binary64.absGtTwo ⟨2, 0⟩ = false := by
    show decide ((2 : ℚ) < hypot64 2 0) = false
    rw [minusTwo_abs1]
    exact decide_eq_false (by norm_num)
  have h : mandelbrotWith binary64 ⟨(-2), 0⟩ = MaxIterations :=
    mandelbrotLoopWith_noescape binary64 ⟨(-2), 0⟩ 5000 0 (by simp [MaxIterations])
      (fun m _ _ => by
        cases m with
        | zero =>
          rw [orbitWith_binary64_minus_two.1]
          exact ha
        | succ m =>
          rw [orbitWith_binary64_minus_two.2 m]
          exact hb)
  refine ⟨minusTwo_abs0, minusTwo_abs1, h, ?_⟩
  rw [h]
  refine (mandelbrotLoop_noescape (complex (-2) 0) 5000 0 (by simp [MaxIterations])
    (fun m _ _ hesc => ?_)).symm
  unfold absGtTwo at hesc
  rw [orbit_minus_two_normSq m] at hesc
  exact absurd hesc (lt_irrefl _)

/-- In binary64 a point whose computed magnitude exceeds 2 is returned at the first
iteration. -/
theorem mandelbrotWith_binary64_outside (c : Complex128) (hre : round64 c.re = c.re)
    (him : round64 c.im = c.im) (h : 2 < cmplxAbs64 c) :
    mandelbrotWith binary64 c = 0 := by
  have hs : binary64.step 0 c = c := binary64_step_zero c hre him
  have ht : binary64.absGtTwo c = true := (binary64_absGtTwo_iff c).mpr h
  unfold mandelbrotWith
  rw [mandelbrotLoopWith_step _ _ _ _ (by decide), hs, ht]
  rfl

/-- In binary64, as in exact arithmetic, the point `-2 - 2i` of the corner pixel is
returned at the first iteration: its computed magnitude is
`6369051672525773 / 2^51`, about 2.83. -/
theorem mandelbrot64_corner :
    mandelbrotWith binary64 ⟨(-2), (-2)⟩ = 0 ∧
    mandelbrotWith binary64 ⟨(-2), (-2)⟩ = mandelbrot (complex (-2) (-2)) := by
  have hr : round64 (-2) = -2 :=
    round64_neg_at (-2) (-2) 4503599627370496 51 (by norm_num)
  have h : mandelbrotWith binary64 ⟨(-2), (-2)⟩ = 0 :=
    mandelbrotWith_binary64_outside ⟨(-2), (-2)⟩ hr hr
      (by show (2 : ℚ) < hypot64 (-2) (-2); rw [corner_abs]; norm_num)
  refine ⟨h, ?_⟩
  rw [h]
  exact (mandelbrot_outside_radius _ (by decide!)).symm

/-! ## Conjugation in binary64 -/

theorem hypot64_neg_right (p q : ℚ) : hypot64 p (-q) = hypot64 p q := by
  unfold hypot64
  rw [abs_neg]

/-- Binary64 rounding is odd, so conjugation commutes with the computed step. -/
theorem binary64_step_conj (z c : Complex128) :
    binary64.step z.conj c.conj = (binary64.step z c).conj := by
  apply Complex128.ext_parts
  · show round64 (round64 (round64 (z.re * z.re) - round64 (-z.im * -z.im)) + c.re) =
      round64 (round64 (round64 (z.re * z.re) - round64 (z.im * z.im)) + c.re)
    rw [neg_mul_neg]
  · show round64 (round64 (round64 (z.re * -z.im) + round64 (-z.im * z.re)) + -c.im) =
      -round64 (round64 (round64 (z.re * z.im) + round64 (z.im * z.re)) + c.im)
    rw [mul_neg, neg_mul, round64_neg, round64_neg, ← neg_add, round64_neg, ← neg_add,
      round64_neg]

theorem binary64_absGtTwo_conj (z : Complex128) :
    binary64.absGtTwo z.conj = binary64.absGtTwo z := by
  show decide ((2 : ℚ) < hypot64 z.re (-z.im)) = decide ((2 : ℚ) < hypot64 z.re z.im)
  rw [hypot64_neg_right]

theorem mandelbrotLoopWith_binary64_conj (c : Complex128) :
    ∀ (d : ℕ) (n : ℤ) (z : Complex128), (MaxIterations - n).toNat = d →
      mandelbrotLoopWith binary64 c.conj n z.conj = mandelbrotLoopWith binary64 c n z := by
  intro d
  induction d with
  | zero =>
    intro n z hd
    have hn : ¬ n < MaxIterations := by omega
    rw [mandelbrotLoopWith_done _ _ n _ hn, mandelbrotLoopWith_done _ _ n _ hn]
  | succ d ih =>
    intro n z hd
    have hn : n < MaxIterations := by omega
    rw [mandelbrotLoopWith_step _ _ n _ hn, mandelbrotLoopWith_step _ _ n _ hn,
      binary64_step_conj, binary64_absGtTwo_conj]
    split
    · rfl
    · exact ih (n + 1) _ (by omega)

/-- In binary64, as in exact arithmetic, `mandelbrot` is invariant under complex
conjugation. -/
theorem mandelbrot64_conj (c : Complex128) :
    mandelbrotWith binary64 c.conj = mandelbrotWith binary64 c := by
  have h := mandelbrotLoopWith_binary64_conj c _ 0 0 rfl
  rw [Complex128.conj_zero] at h
  exact h

/-! ## The render loop in binary64 -/

theorem renderRowWith_step (ar : Arith) (y x : ℤ) (img : Image) (hx : x < Width) :
    renderRowWith ar y x img =
      renderRowWith ar y (x + 1) (img.Set x y (pixelColorWith ar x y)) := by
  rw [renderRowWith]
  simp [hx, pixelColorWith]

theorem renderRowWith_done (ar : Arith) (y x : ℤ) (img : Image) (hx : ¬ x < Width) :
    renderRowWith ar y x img = img := by
  rw [renderRowWith]
  simp [hx]

theorem renderRowsWith_step (ar : Arith) (y : ℤ) (img : Image) (hy : y < Height) :
    renderRowsWith ar y img = renderRowsWith ar (y + 1) (renderRowWith ar y 0 img) := by
  rw [renderRowsWith]
  simp [hy]

theorem renderRowsWith_done (ar : Arith) (y : ℤ) (img : Image) (hy : ¬ y < Height) :
    renderRowsWith ar y img = img := by
  rw [renderRowsWith]
  simp [hy]

/-- Effect of the inner loop under `ar`, entered at column `x0` of row `y`. -/
theorem renderRowWith_spec (ar : Arith) (y : ℤ) (hy : 0 ≤ y ∧ y < Height) :
    ∀ (d : ℕ) (x0 : ℤ) (img : Image), 0 ≤ x0 → (Width - x0).toNat = d → img.WellFormed →
      (renderRowWith ar y x0 img).WellFormed ∧
      ∀ x1 y1 : ℤ, (renderRowWith ar y x0 img).RGBAAt x1 y1 =
        if y1 = y ∧ x0 ≤ x1 ∧ x1 < Width then pixelColorWith ar x1 y1
        else img.RGBAAt x1 y1 := by
  intro d
  induction d with
  | zero =>
    intro x0 img _ hd hwf
    have hx : ¬ x0 < Width := by omega
    rw [renderRowWith_done ar y x0 img hx]
    refine ⟨hwf, fun x1 y1 => ?_⟩
    rw [if_neg (by omega)]
  | succ d ih =>
    intro x0 img h0 hd hwf
    have hx : x0 < Width := by omega
    rw [renderRowWith_step ar y x0 img hx]
    obtain ⟨hwf1, hget⟩ := ih (x0 + 1) (img.Set x0 y (pixelColorWith ar x0 y)) (by omega)
      (by omega) (Image.Set_wellFormed img x0 y _ hwf)
    refine ⟨hwf1, fun x1 y1 => ?_⟩
    rw [hget x1 y1, Image.RGBAAt_Set img x0 y x1 y1 _ hwf ⟨h0, hx⟩ hy]
    by_cases h1 : y1 = y ∧ x0 + 1 ≤ x1 ∧ x1 < Width
    · rw [if_pos h1, if_pos ⟨h1.1, by omega, h1.2.2⟩]
    · rw [if_neg h1]
      by_cases h2 : x1 = x0 ∧ y1 = y
      · rw [if_pos h2, if_pos ⟨h2.2, by omega, by omega⟩, h2.1, h2.2]
      · rw [if_neg h2, if_neg (by omega)]

/-- Effect of the outer loop under `ar`, entered at row `y0`. -/
theorem renderRowsWith_spec (ar : Arith) :
    ∀ (d : ℕ) (y0 : ℤ) (img : Image), 0 ≤ y0 → (Height - y0).toNat = d → img.WellFormed →
      (renderRowsWith ar y0 img).WellFormed ∧
      ∀ x1 y1 : ℤ, (renderRowsWith ar y0 img).RGBAAt x1 y1 =
        if (y0 ≤ y1 ∧ y1 < Height) ∧ 0 ≤ x1 ∧ x1 < Width then pixelColorWith ar x1 y1
        else img.RGBAAt x1 y1 := by
  intro d
  induction d with
  | zero =>
    intro y0 img _ hd hwf
    have hy : ¬ y0 < Height := by omega
    rw [renderRowsWith_done ar y0 img hy]
    refine ⟨hwf, fun x1 y1 => ?_⟩
    rw [if_neg (by omega)]
  | succ d ih =>
    intro y0 img h0 hd hwf
    have hy : y0 < Height := by omega
    rw [renderRowsWith_step ar y0 img hy]
    obtain ⟨hwfr, hrow⟩ := renderRowWith_spec ar y0 ⟨h0, hy⟩ _ 0 img le_rfl rfl hwf
    obtain ⟨hwf1, hget⟩ := ih (y0 + 1) (renderRowWith ar y0 0 img) (by omega) (by omega) hwfr
    refine ⟨hwf1, fun x1 y1 => ?_⟩
    rw [hget x1 y1, hrow x1 y1]
    by_cases h1 : (y0 + 1 ≤ y1 ∧ y1 < Height) ∧ 0 ≤ x1 ∧ x1 < Width
    · rw [if_pos h1, if_pos ⟨⟨by omega, h1.1.2⟩, h1.2⟩]
    · rw [if_neg h1]
      by_cases h2 : y1 = y0 ∧ 0 ≤ x1 ∧ x1 < Width
      · rw [if_pos h2, if_pos ⟨⟨by omega, by omega⟩, h2.2⟩]
      · rw [if_neg h2, if_neg (by omega)]

/-- Under every arithmetic the image has one cell per pixel after the render loop,
and every pixel inside the bounds holds the colour computed for it on line 46. -/
theorem renderWith_RGBAAt (ar : Arith) :
    (renderWith ar).WellFormed ∧
    ∀ x y : ℤ, 0 ≤ x ∧ x < Width → 0 ≤ y ∧ y < Height →
      (renderWith ar).RGBAAt x y = pixelColorWith ar x y := by
  have h := renderRowsWith_spec ar _ 0 (NewRGBA Width Height) le_rfl rfl NewRGBA_wellFormed
  refine ⟨by unfold renderWith; exact h.1, fun x y hx hy => ?_⟩
  unfold renderWith
  rw [h.2 x y, if_pos ⟨⟨hy.1, hy.2⟩, hx⟩]

/-- Under exact arithmetic the mapped point and the colour are those of
`pixelPoint` and `pixelColor`. -/
theorem pixelColorWith_exactArith (x y : ℤ) :
    pixelPointWith exactArith x y = pixelPoint x y ∧
    pixelColorWith exactArith x y = pixelColor x y := by
  have hp : pixelPointWith exactArith x y = pixelPoint x y := rfl
  refine ⟨hp, ?_⟩
  unfold pixelColorWith pixelColor
  rw [hp, mandelbrotWith_exactArith]
  rfl

/-! ## The pixel-to-plane mapping in binary64 -/

/-- A natural number below `2^53` is a binary64 number. -/
theorem round64_natCast (k : ℕ) (hk : k < 2 ^ 53) : round64 (k : ℚ) = k := by
  rcases Nat.eq_zero_or_pos k with rfl | hpos
  · simpa using round64_zero
  have hL1 : 2 ^ Nat.log 2 k ≤ k := Nat.pow_log_le_self 2 hpos.ne'
  have hL2 : k < 2 ^ (Nat.log 2 k + 1) := Nat.lt_pow_succ_log_self (by norm_num) k
  have hL : Nat.log 2 k < 53 := Nat.log_lt_of_lt_pow hpos.ne' hk
  obtain ⟨j, hj⟩ : ∃ j, Nat.log 2 k + j = 52 := ⟨52 - Nat.log 2 k, by omega⟩
  have h1 : 2 ^ 52 ≤ k * 2 ^ j := by
    rw [← hj, pow_add]
    exact Nat.mul_le_mul_right _ hL1
  have h2 : k * 2 ^ j < 2 ^ 53 := by
    have e : 2 ^ 53 = 2 ^ (Nat.log 2 k + 1) * 2 ^ j := by
      rw [← pow_add]
      congr 1
      omega
    rw [e]
    exact Nat.mul_lt_mul_of_pos_right hL2 (by positivity)
  have h1q : (2 : ℚ) ^ 52 ≤ (k : ℚ) * 2 ^ j := by exact_mod_cast h1
  have h2q : (k : ℚ) * 2 ^ j < 2 ^ 53 := by exact_mod_cast h2
  refine round64_eval (k : ℚ) k (k * 2 ^ j) j ?_ h1q h2q ?_ ?_
  · push_cast
    field_simp
  · push_cast
    linarith
  · push_cast
    linarith

/-- An integer of magnitude below `2^53` is a binary64 number. -/
theorem round64_intCast (n : ℤ) (hn : n.natAbs < 2 ^ 53) : round64 (n : ℚ) = n := by
  obtain ⟨k, rfl | rfl⟩ := Int.eq_nat_or_neg n
  · have hk : k < 2 ^ 53 := by simpa using hn
    exact_mod_cast round64_natCast k hk
  · have hk : k < 2 ^ 53 := by simpa using hn
    push_cast
    rw [round64_neg, round64_natCast k hk]

/-- The computed coordinates of a pixel are the exact ones, rounded once. -/
theorem pixelPointWith_binary64 (x y : ℤ) (hx : (x - 960).natAbs < 2 ^ 50)
    (hy : (y - 540).natAbs < 2 ^ 50) :
    pixelPointWith binary64 x y =
      complex (round64 (((x : ℚ) - 960) / 480)) (round64 (((y : ℚ) - 540) / 270)) := by
  have hx4 : round64 (((x - 960 : ℤ) : ℚ) * 4) = ((x - 960 : ℤ) : ℚ) * 4 := by
    have h := round64_intCast ((x - 960) * 4) (by rw [Int.natAbs_mul]; norm_num; omega)
    push_cast at h ⊢
    exact h
  have hy4 : round64 (((y - 540 : ℤ) : ℚ) * 4) = ((y - 540 : ℤ) : ℚ) * 4 := by
    have h := round64_intCast ((y - 540) * 4) (by rw [Int.natAbs_mul]; norm_num; omega)
    push_cast at h ⊢
    exact h
  show complex (round64 (round64 (((x - 1920 / 2 : ℤ) : ℚ) * 4) / ((1920 : ℤ) : ℚ)))
      (round64 (round64 (((y - 1080 / 2 : ℤ) : ℚ) * 4) / ((1080 : ℤ) : ℚ))) = _
  have e1 : (1920 : ℤ) / 2 = 960 := by decide
  have e2 : (1080 : ℤ) / 2 = 540 := by decide
  rw [e1, e2, hx4, hy4]
  congr 2
  · push_cast
    ring
  · push_cast
    ring

/-- Rounding keeps a value of magnitude below `1999/1000` strictly inside
`(-2, 2)`. -/
theorem round64_inside (q : ℚ) (h1 : -(1999 / 1000) ≤ q) (h2 : q ≤ 1999 / 1000) :
    -2 < round64 q ∧ round64 q < 2 := by
  have hc := round64_close q
  have ha : |q| ≤ 1999 / 1000 := abs_le.mpr ⟨h1, h2⟩
  have hb : |q| / 2 ^ 53 ≤ 1 / 2000 := by
    rw [div_le_iff₀ (by positivity)]
    have : (1999 : ℚ) / 1000 ≤ 1 / 2000 * 2 ^ 53 := by norm_num
    linarith
  have := abs_le.mp (le_trans hc hb)
  constructor <;> linarith [this.1, this.2]

theorem round64_minus_two : round64 (-2) = -2 :=
  round64_neg_at (-2) (-2) 4503599627370496 51 (by norm_num)

/-- In binary64 the mapped point of a pixel is the exact point rounded once, it lies
in the half-open square `[-2, 2) × [-2, 2)`, and `-2` is attained exactly at `x = 0`
and at `y = 0`. -/
theorem pixelPointWith_binary64_half_open (x y : ℤ) (hx0 : 0 ≤ x) (hx1 : x < 1920)
    (hy0 : 0 ≤ y) (hy1 : y < 1080) :
    ((pixelPointWith binary64 x y).re = round64 (pixelPoint x y).re ∧
      (pixelPointWith binary64 x y).im = round64 (pixelPoint x y).im) ∧
    (-2 ≤ (pixelPointWith binary64 x y).re ∧ (pixelPointWith binary64 x y).re < 2) ∧
    (-2 ≤ (pixelPointWith binary64 x y).im ∧ (pixelPointWith binary64 x y).im < 2) ∧
    ((pixelPointWith binary64 x y).re = -2 ↔ x = 0) ∧
    ((pixelPointWith binary64 x y).im = -2 ↔ y = 0) := by
  have hp := pixelPointWith_binary64 x y (by omega) (by omega)
  have hre : (pixelPointWith binary64 x y).re = round64 (((x : ℚ) - 960) / 480) := by
    rw [hp]
    rfl
  have him : (pixelPointWith binary64 x y).im = round64 (((y : ℚ) - 540) / 270) := by
    rw [hp]
    rfl
  have hxq0 : (0 : ℚ) ≤ (x : ℚ) := by exact_mod_cast hx0
  have hxq1 : (x : ℚ) ≤ 1919 := by
    have : x ≤ 1919 := by omega
    exact_mod_cast this
  have hyq0 : (0 : ℚ) ≤ (y : ℚ) := by exact_mod_cast hy0
  have hyq1 : (y : ℚ) ≤ 1079 := by
    have : y ≤ 1079 := by omega
    exact_mod_cast this
  have hex : (pixelPoint x y).re = ((x : ℚ) - 960) / 480 ∧
      (pixelPoint x y).im = ((y : ℚ) - 540) / 270 := by
    rw [pixelPoint_eq]
    constructor
    · show ((x : ℚ) - 960) * 4 / 1920 = ((x : ℚ) - 960) / 480
      ring
    · show ((y : ℚ) - 540) * 4 / 1080 = ((y : ℚ) - 540) / 270
      ring
  -- the real part
  have hxcase : (x = 0 ∧ (pixelPointWith binary64 x y).re = -2) ∨
      (x ≠ 0 ∧ -2 < (pixelPointWith binary64 x y).re ∧
        (pixelPointWith binary64 x y).re < 2) := by
    by_cases h0 : x = 0
    · left
      refine ⟨h0, ?_⟩
      rw [hre, h0]
      norm_num
      exact round64_minus_two
    · right
      have h1 : (1 : ℚ) ≤ (x : ℚ) := by
        have : 1 ≤ x := by omega
        exact_mod_cast this
      rw [hre]
      exact ⟨h0, round64_inside _ (by rw [le_div_iff₀ (by norm_num)]; linarith)
        (by rw [div_le_iff₀ (by norm_num)]; linarith)⟩
  have hycase : (y = 0 ∧ (pixelPointWith binary64 x y).im = -2) ∨
      (y ≠ 0 ∧ -2 < (pixelPointWith binary64 x y).im ∧
        (pixelPointWith binary64 x y).im < 2) := by
    by_cases h0 : y = 0
    · left
      refine ⟨h0, ?_⟩
      rw [him, h0]
      norm_num
      exact round64_minus_two
    · right
      have h1 : (1 : ℚ) ≤ (y : ℚ) := by
        have : 1 ≤ y := by omega
        exact_mod_cast this
      rw [him]
      exact ⟨h0, round64_inside _ (by rw [le_div_iff₀ (by norm_num)]; linarith)
        (by rw [div_le_iff₀ (by norm_num)]; linarith)⟩
  refine ⟨⟨by rw [hre, hex.1], by rw [him, hex.2]⟩, ?_, ?_, ?_, ?_⟩
  · rcases hxcase with ⟨_, h⟩ | ⟨_, h1, h2⟩
    · rw [h]; norm_num
    · exact ⟨h1.le, h2⟩
  · rcases hycase with ⟨_, h⟩ | ⟨_, h1, h2⟩
    · rw [h]; norm_num
    · exact ⟨h1.le, h2⟩
  · rcases hxcase with ⟨h0, h⟩ | ⟨h0, h1, _⟩
    · exact ⟨fun _ => h0, fun _ => h⟩
    · exact ⟨fun h => absurd h (ne_of_gt h1), fun h => absurd h h0⟩
  · rcases hycase with ⟨h0, h⟩ | ⟨h0, h1, _⟩
    · exact ⟨fun _ => h0, fun _ => h⟩
    · exact ⟨fun h => absurd h (ne_of_gt h1), fun h => absurd h h0⟩

/-! ## The centre, boundary and corner pixels and the mirror symmetry in binary64 -/

/-- In binary64, as in exact arithmetic, the centre pixel `(960, 540)` is mapped to
`(0, 0)`, its escape time is `MaxIterations`, and the colour stored for it is opaque
black. -/
theorem centre_pixel_binary64 :
    pixelPointWith binary64 960 540 = complex 0 0 ∧
    mandelbrotWith binary64 (pixelPointWith binary64 960 540) = MaxIterations ∧
    (renderWith binary64).RGBAAt 960 540 = ⟨0, 0, 0, 255⟩ := by
  have hp : pixelPointWith binary64 960 540 = complex 0 0 := by
    rw [pixelPointWith_binary64 960 540 (by decide) (by decide)]
    norm_num [round64_zero]
  have hm : mandelbrotWith binary64 (pixelPointWith binary64 960 540) = MaxIterations := by
    rw [hp]
    exact mandelbrot64_origin.1
  refine ⟨hp, hm, ?_⟩
  rw [(renderWith_RGBAAt binary64).2 960 540 (by decide) (by decide)]
  unfold pixelColorWith
  rw [hm]
  exact getColorRounded_max roundsLikeBinary64_round64

/-- In binary64, as in exact arithmetic, the pixel `(0, 540)` is mapped to `-2 + 0i`,
which never escapes, and the colour stored for it is opaque black. -/
theorem boundary_pixel_binary64 :
    pixelPointWith binary64 0 540 = complex (-2) 0 ∧
    mandelbrotWith binary64 (pixelPointWith binary64 0 540) = MaxIterations ∧
    (renderWith binary64).RGBAAt 0 540 = ⟨0, 0, 0, 255⟩ := by
  have hp : pixelPointWith binary64 0 540 = complex (-2) 0 := by
    rw [pixelPointWith_binary64 0 540 (by decide) (by decide)]
    norm_num [round64_zero, round64_minus_two]
  have hm : mandelbrotWith binary64 (pixelPointWith binary64 0 540) = MaxIterations := by
    rw [hp]
    exact mandelbrot64_minus_two.2.2.1
  refine ⟨hp, hm, ?_⟩
  rw [(renderWith_RGBAAt binary64).2 0 540 (by decide) (by decide)]
  unfold pixelColorWith
  rw [hm]
  exact getColorRounded_max roundsLikeBinary64_round64

/-- In binary64, as in exact arithmetic, the corner pixel `(0, 0)` is mapped to
`-2 - 2i`, which is returned at the first iteration. -/
theorem corner_pixel_binary64 :
    pixelPointWith binary64 0 0 = complex (-2) (-2) ∧
    mandelbrotWith binary64 (pixelPointWith binary64 0 0) = 0 := by
  have hp : pixelPointWith binary64 0 0 = complex (-2) (-2) := by
    rw [pixelPointWith_binary64 0 0 (by decide) (by decide)]
    norm_num [round64_minus_two]
  refine ⟨hp, ?_⟩
  rw [hp]
  exact mandelbrot64_corner.1

/-- In binary64 the rows `y` and `Height - y` are mapped to conjugate points. -/
theorem pixelPointWith_binary64_mirror (x y : ℤ) :
    pixelPointWith binary64 x (Height - y) = (pixelPointWith binary64 x y).conj := by
  apply Complex128.ext_parts
  · rfl
  · show round64 (round64 (((1080 - y - 1080 / 2 : ℤ) : ℚ) * 4) / ((1080 : ℤ) : ℚ)) =
      -round64 (round64 (((y - 1080 / 2 : ℤ) : ℚ) * 4) / ((1080 : ℤ) : ℚ))
    have e : (((1080 - y - 1080 / 2 : ℤ) : ℚ) * 4) = -(((y - 1080 / 2 : ℤ) : ℚ) * 4) := by
      have e2 : (1080 : ℤ) / 2 = 540 := by decide
      rw [e2]
      push_cast
      ring
    rw [e, round64_neg, neg_div, round64_neg]

/-- In binary64, as in exact arithmetic, the rendered image is mirror-symmetric
about the row `y = Height/2`. -/
theorem mirror_symmetry_binary64 (x y : ℤ) (hx0 : 0 ≤ x) (hx1 : x < Width) (hy0 : 1 ≤ y)
    (hy1 : y ≤ Height - 1) :
    (renderWith binary64).RGBAAt x (Height - y) = (renderWith binary64).RGBAAt x y := by
  have hH : Height = 1080 := rfl
  rw [(renderWith_RGBAAt binary64).2 x (Height - y) ⟨hx0, hx1⟩ ⟨by omega, by omega⟩,
    (renderWith_RGBAAt binary64).2 x y ⟨hx0, hx1⟩ ⟨by omega, by omega⟩]
  unfold pixelColorWith
  rw [pixelPointWith_binary64_mirror, mandelbrot64_conj]

end Mandelbrot
